import Mathlib

/-!
# json-checkdiff-tool: the recursive JSON differ of `main.go`

A shallow embedding of the differ (`diffJSONWithOptions`, `diffObjects`,
`isComplexType`, `diffArrays`, `diffArraysIgnoreOrder`) and of the library
function `reflect.DeepEqual` restricted to the values `encoding/json` produces
when it unmarshals into `interface{}`.

## Data model

* `JSON` is the dynamic value `interface{}` after `json.Unmarshal`: `nil`,
  `bool`, `float64`, `string`, `[]interface{}`, `map[string]interface{}`.
  - The only operation the program applies to a number is `==` (inside
    `reflect.DeepEqual`).  The finite doubles under `==` embed in the
    rationals (`-0 == 0`), and `json.Unmarshal` never yields NaN or an
    infinity, so numbers are `Rat`.
  - A Go map is a finite set of entries with pairwise distinct keys that is
    ranged over in an unspecified order.  A map value together with the order
    in which one run ranges over it is an association list with distinct keys
    (`JSON.wellFormed`); `m[k]` is `JSON.mapIndex`.  Each map of the two
    documents is ranged over at most once per diff, so every run of the
    program is the run of the embedding on some choice of entry order.
* `DiffResult` is the Go struct of the same name.  The field `Type` is called
  `Typ` here.  `Value1`/`Value2` have Go type `interface{}`; a field left out
  of a struct literal is the nil interface, which is also what JSON `null`
  unmarshals to, so both are `JSON.null`.  An omitted `Filename` is `""`.
* `DiffOutput.Diff` is a Go slice value, nil or non-nil (`Option`), which is
  what the report of `main` distinguishes.
* The Go parameter `prefix` is called `pfx`.

The differ is embedded twice: first with loops unrolled along lists, total by
structural recursion; and, further down, with index loops, Go-checked index
expressions and a fuel that bounds the depth of the recursion.  The second is
proved to return what the first returns.
-/

/-- The dynamic JSON value produced by `json.Unmarshal` into `interface{}`. -/
inductive JSON where
  | null : JSON
  | bool (b : Bool) : JSON
  | num (n : Rat) : JSON
  | str (s : String) : JSON
  | arr (items : List JSON) : JSON
  | obj (fields : List (String × JSON)) : JSON

namespace JSON

/-- Go map indexing `v, ok := m[k]`: `some v` when `ok`, `none` otherwise. -/
def mapIndex (m : List (String × JSON)) (k : String) : Option JSON :=
  match m with
  | [] => none
  | (k', v) :: rest => if k' = k then some v else mapIndex rest k

mutual
/-- The function `reflect.DeepEqual` on unmarshalled JSON values: equal dynamic
types, then `==` on scalars, equal length and element-wise equality on slices,
equal length and equality of `m2[k]` with `m1[k]` for every key `k` of `m1` on
maps. -/
def deepEqual : JSON → JSON → Bool
  | .null, .null => true
  | .bool x, .bool y => decide (x = y)
  | .num x, .num y => decide (x = y)
  | .str x, .str y => decide (x = y)
  | .arr xs, .arr ys => deepEqualSlice xs ys
  | .obj m1, .obj m2 => decide (m1.length = m2.length) && deepEqualMap m1 m2
  | _, _ => false
/-- Element-wise `reflect.DeepEqual` of two slices. -/
def deepEqualSlice : List JSON → List JSON → Bool
  | [], [] => true
  | x :: xs, y :: ys => deepEqual x y && deepEqualSlice xs ys
  | _, _ => false
/-- The map loop of `reflect.DeepEqual`: every entry of the first map has a
deeply equal entry under the same key in the second. -/
def deepEqualMap : List (String × JSON) → List (String × JSON) → Bool
  | [], _ => true
  | (k, v1) :: rest, m2 =>
    (match mapIndex m2 k with
     | some v2 => deepEqual v1 v2
     | none => false) && deepEqualMap rest m2
end

mutual
/-- The invariant of the Go map type: the keys of every object are pairwise
distinct, at every depth. -/
def wellFormed : JSON → Bool
  | .arr xs => wellFormedList xs
  | .obj m => decide ((m.map Prod.fst).Nodup) && wellFormedFields m
  | _ => true
/-- Every element of a slice is well formed. -/
def wellFormedList : List JSON → Bool
  | [] => true
  | x :: xs => wellFormed x && wellFormedList xs
/-- Every value of a map is well formed. -/
def wellFormedFields : List (String × JSON) → Bool
  | [] => true
  | (_, v) :: rest => wellFormed v && wellFormedFields rest
end

end JSON

open JSON

/-- The Go struct `DiffResult` (`Typ` is the field `Type`). -/
structure DiffResult where
  Key : String
  Typ : String
  Filename : String
  Value1 : JSON
  Value2 : JSON

/-- The Go struct `DiffOutput`.  The field `Diff` is a Go slice value: `none`
is the nil slice (which `encoding/json` renders as `null`), `some l` a non-nil
slice holding the records `l` (`some []` is `make([]DiffResult, 0)`). -/
structure DiffOutput where
  IsDiff : Bool
  Diff : Option (List DiffResult)

/-- The function `isComplexType`: the value is a map or a slice. -/
def isComplexType : JSON → Bool
  | .obj _ => true
  | .arr _ => true
  | _ => false

/-- The string `fmt.Sprintf("%s[%d]", prefix, i)`. -/
def indexKey (pfx : String) (i : Nat) : String :=
  pfx ++ "[" ++ toString i ++ "]"

/-- The second loop of `diffObjects`, `for k, vB := range b`, run over the
entries of `b` that remain: a key absent from `a` is `only_in_second`. -/
def diffObjectsSecond (a : List (String × JSON)) (file2 pfx : String) :
    List (String × JSON) → List DiffResult
  | [] => []
  | (k, vB) :: rest =>
    (match mapIndex a k with
     | some _ => []
     | none => [⟨pfx ++ k, "only_in_second", file2, .null, vB⟩])
      ++ diffObjectsSecond a file2 pfx rest

/-- The iterations `i, i+1, ...` of the loop of `diffArrays` once `a` is
exhausted (`i >= len(a)`), `bs` being `b[i:]`: every index is
`only_in_second`. -/
def diffArraysTail (file2 pfx : String) : Nat → List JSON → List DiffResult
  | _, [] => []
  | i, y :: bs =>
    ⟨indexKey pfx i, "only_in_second", file2, .null, y⟩ :: diffArraysTail file2 pfx (i + 1) bs

/-- The inner loop of `diffArraysIgnoreOrder`, `for j, bItem := range bCopy`,
over the elements and flags from some index on.  `some flags` is the updated
`matchedB` when the loop breaks on a match (and `matchedA[i]` is set), `none`
when it runs to the end without one. -/
def scanB (aItem : JSON) : List JSON → List Bool → Option (List Bool)
  | bItem :: bs, m :: ms =>
    if !m && deepEqual aItem bItem then some (true :: ms)
    else (scanB aItem bs ms).map (fun ms' => m :: ms')
  | _, _ => none

/-- The outer matching loop of `diffArraysIgnoreOrder`,
`for i, aItem := range aCopy`, from the current `matchedB`: returns the flags
`matchedA` of the elements ranged over and the final `matchedB`. -/
def findMatches (bCopy : List JSON) : List JSON → List Bool → List Bool × List Bool
  | [], matchedB => ([], matchedB)
  | aItem :: rest, matchedB =>
    match scanB aItem bCopy matchedB with
    | some matchedB' =>
      let r := findMatches bCopy rest matchedB'
      (true :: r.1, r.2)
    | none =>
      let r := findMatches bCopy rest matchedB
      (false :: r.1, r.2)

/-- The loop "report unmatched elements from first array" of
`diffArraysIgnoreOrder`, from index `i` on. -/
def reportFirst (file1 pfx : String) : Nat → List JSON → List Bool → List DiffResult
  | i, aItem :: rest, m :: ms =>
    (if !m then [⟨indexKey pfx i, "only_in_first", file1, aItem, .null⟩] else [])
      ++ reportFirst file1 pfx (i + 1) rest ms
  | _, _, _ => []

/-- The loop "report unmatched elements from second array" of
`diffArraysIgnoreOrder`, from index `j` on. -/
def reportSecond (file2 pfx : String) : Nat → List JSON → List Bool → List DiffResult
  | j, bItem :: rest, m :: ms =>
    (if !m then [⟨indexKey pfx j, "only_in_second", file2, .null, bItem⟩] else [])
      ++ reportSecond file2 pfx (j + 1) rest ms
  | _, _, _ => []

/-- The function `diffArraysIgnoreOrder`.  `matchedA`/`matchedB` start all
false (`make([]bool, n)`); the flag `ignoreArrayOrder` is received and not
used. -/
def diffArraysIgnoreOrder (a b : List JSON) (file1 file2 pfx : String)
    (_ignoreArrayOrder : Bool) : List DiffResult :=
  let matched := findMatches b a (List.replicate b.length false)
  reportFirst file1 pfx 0 a matched.1 ++ reportSecond file2 pfx 0 b matched.2

mutual
/-- The function `diffJSONWithOptions`: the type switch on `a`.  The calls of
`diffObjects` and `diffArrays` are written as their bodies (the two loops of
`diffObjects`, the loop of `diffArrays` from index 0), which makes the
recursion structural in `a`; `diffObjects` and `diffArrays` are defined after
the block as those same bodies. -/
def diffJSONWithOptions : JSON → JSON → String → String → String → Bool → List DiffResult
  | .obj aVal, b, file1, file2, pfx, ignoreArrayOrder =>
    match b with
    | .obj bMap =>
      diffObjectsFirst aVal bMap file1 file2 pfx ignoreArrayOrder
        ++ diffObjectsSecond aVal file2 pfx bMap
    | _ => [⟨pfx ++ "root", "type_mismatch", file1, .obj aVal, b⟩]
  | .arr aVal, b, file1, file2, pfx, ignoreArrayOrder =>
    match b with
    | .arr bArray =>
      if ignoreArrayOrder then
        diffArraysIgnoreOrder aVal bArray file1 file2 pfx ignoreArrayOrder
      else
        diffArraysFrom 0 aVal bArray file1 file2 pfx ignoreArrayOrder
    | _ => [⟨pfx ++ "root", "type_mismatch", file1, .arr aVal, b⟩]
  | a, b, file1, _, pfx, _ =>
    if !deepEqual a b then [⟨pfx ++ "root", "changed", file1, a, b⟩] else []
/-- The first loop of `diffObjects`, `for k, vA := range a`, run over the
entries of `a` that remain; `b` is the whole second map. -/
def diffObjectsFirst : List (String × JSON) → List (String × JSON) → String → String →
    String → Bool → List DiffResult
  | [], _, _, _, _, _ => []
  | (k, vA) :: rest, b, file1, file2, pfx, ignoreArrayOrder =>
    (match mapIndex b k with
     | some vB =>
       if !deepEqual vA vB then
         if !isComplexType vA && !isComplexType vB then
           [⟨pfx ++ k, "changed", file1, vA, vB⟩]
         else
           diffJSONWithOptions vA vB file1 file2 (pfx ++ k ++ ".") ignoreArrayOrder
       else []
     | none => [⟨pfx ++ k, "only_in_first", file1, vA, .null⟩])
      ++ diffObjectsFirst rest b file1 file2 pfx ignoreArrayOrder
/-- The loop `for i := 0; i < maxLen; i++` of `diffArrays` from index `i` on,
the two lists being `a[i:]` and `b[i:]`: both non-empty is `i < len(a) &&
i < len(b)`, only the first non-empty is `i < len(a)`, the first empty is the
last branch. -/
def diffArraysFrom : Nat → List JSON → List JSON → String → String → String → Bool →
    List DiffResult
  | i, [], bs, _, file2, pfx, _ => diffArraysTail file2 pfx i bs
  | i, x :: as, [], file1, file2, pfx, ignoreArrayOrder =>
    ⟨indexKey pfx i, "only_in_first", file1, x, .null⟩
      :: diffArraysFrom (i + 1) as [] file1 file2 pfx ignoreArrayOrder
  | i, x :: as, y :: bs, file1, file2, pfx, ignoreArrayOrder =>
    (if !deepEqual x y then
       diffJSONWithOptions x y file1 file2 (indexKey pfx i ++ ".") ignoreArrayOrder
     else [])
      ++ diffArraysFrom (i + 1) as bs file1 file2 pfx ignoreArrayOrder
end

/-- The function `diffObjects`: the two loops, one after the other. -/
def diffObjects (a b : List (String × JSON)) (file1 file2 pfx : String)
    (ignoreArrayOrder : Bool) : List DiffResult :=
  diffObjectsFirst a b file1 file2 pfx ignoreArrayOrder ++ diffObjectsSecond a file2 pfx b

/-- The function `diffArrays`: the loop from index 0. -/
def diffArrays (a b : List JSON) (file1 file2 pfx : String) (ignoreArrayOrder : Bool) :
    List DiffResult :=
  diffArraysFrom 0 a b file1 file2 pfx ignoreArrayOrder

/-- The function `diffJSON`. -/
def diffJSON (a b : JSON) (file1 file2 pfx : String) : List DiffResult :=
  diffJSONWithOptions a b file1 file2 pfx false

/-! ## Definitions used to state the properties -/

/-- The body of the first loop of `diffObjects` at the entry `kv` of `a`: the
records appended in that iteration. -/
def firstLoopBody (b : List (String × JSON)) (file1 file2 pfx : String)
    (ignoreArrayOrder : Bool) (kv : String × JSON) : List DiffResult :=
  match mapIndex b kv.1 with
  | some vB =>
    if !deepEqual kv.2 vB then
      if !isComplexType kv.2 && !isComplexType vB then
        [⟨pfx ++ kv.1, "changed", file1, kv.2, vB⟩]
      else
        diffJSONWithOptions kv.2 vB file1 file2 (pfx ++ kv.1 ++ ".") ignoreArrayOrder
    else []
  | none => [⟨pfx ++ kv.1, "only_in_first", file1, kv.2, .null⟩]

/-- The body of the second loop of `diffObjects` at the entry `kv` of `b`. -/
def secondLoopBody (a : List (String × JSON)) (file2 pfx : String)
    (kv : String × JSON) : List DiffResult :=
  match mapIndex a kv.1 with
  | some _ => []
  | none => [⟨pfx ++ kv.1, "only_in_second", file2, .null, kv.2⟩]

/-- The body of the loop of `diffArrays` at index `i`: the records appended in
that iteration (`none, none` is an index past both arrays, which the loop
bound excludes). -/
def arrayLoopBody (a b : List JSON) (file1 file2 pfx : String) (ignoreArrayOrder : Bool)
    (i : Nat) : List DiffResult :=
  match a[i]?, b[i]? with
  | some x, some y =>
    if !deepEqual x y then
      diffJSONWithOptions x y file1 file2 (indexKey pfx i ++ ".") ignoreArrayOrder
    else []
  | some x, none => [⟨indexKey pfx i, "only_in_first", file1, x, .null⟩]
  | none, some y => [⟨indexKey pfx i, "only_in_second", file2, .null, y⟩]
  | none, none => []

/-- The number of elements of `l` that are deeply equal to `v`. -/
def countEq (v : JSON) (l : List JSON) : Nat :=
  l.countP (fun z => deepEqual v z)

/-- Flags by rank.  `seen` being the elements that precede `ys` in an array, an
element `y` of `ys` is flagged when fewer than `countEq y other` of the
elements before it are deeply equal to it. -/
def rankFlags (other : List JSON) : List JSON → List JSON → List Bool
  | _, [] => []
  | seen, y :: ys => decide (countEq y seen < countEq y other) :: rankFlags other (y :: seen) ys

/-- The record `r'` mirrors `r`: same key, the two values exchanged, and
`only_in_first` / `only_in_second` exchanged. -/
def Mirror (r r' : DiffResult) : Prop :=
  r'.Key = r.Key ∧ r'.Value1 = r.Value2 ∧ r'.Value2 = r.Value1 ∧
    (r.Typ = "only_in_first" → r'.Typ = "only_in_second") ∧
    (r.Typ = "only_in_second" → r'.Typ = "only_in_first")

/-- The records `diffObjects a b` appends for the key `k`: those of the
iteration of the first loop at `k` (when `k` is a key of `a`) followed by those
of the iteration of the second loop at `k` (when `k` is a key of `b`). -/
def keyRecords (a b : List (String × JSON)) (file1 file2 pfx : String)
    (ignoreArrayOrder : Bool) (k : String) : List DiffResult :=
  (match mapIndex a k with
   | some vA => firstLoopBody b file1 file2 pfx ignoreArrayOrder (k, vA)
   | none => [])
    ++ (match mapIndex b k with
        | some vB => secondLoopBody a file2 pfx (k, vB)
        | none => [])

mutual
/-- The addressing scheme of the Data Model of the specification, as the list
of the paths that address a location of a value reached at the path `here`
(the empty string at the document root): the location itself, written `"root"`
at the document root; each element of an array, its index in brackets appended
directly to the path so far; each value of an object, its key joined to the
path so far by a dot (the key alone at the document root). -/
def pathsFrom : String → JSON → List String
  | here, .arr items => (if here = "" then "root" else here) :: pathsFromItems here 0 items
  | here, .obj fields => (if here = "" then "root" else here) :: pathsFromFields here fields
  | here, _ => [if here = "" then "root" else here]
/-- The paths into the elements of an array, from index `i` on. -/
def pathsFromItems : String → Nat → List JSON → List String
  | _, _, [] => []
  | here, i, x :: xs =>
    pathsFrom (here ++ "[" ++ toString i ++ "]") x ++ pathsFromItems here (i + 1) xs
/-- The paths into the values of an object. -/
def pathsFromFields : String → List (String × JSON) → List String
  | _, [] => []
  | here, (k, v) :: rest =>
    pathsFrom (if here = "" then k else here ++ "." ++ k) v ++ pathsFromFields here rest
end

/-- The paths of the Data Model that address a location existing in `doc`. -/
def validPaths (doc : JSON) : List String :=
  pathsFrom "" doc

/-! ## The report built by `main` -/

/-- The slice value that a function of the differ returns when the records it
appended are `l`: every such function starts from `var diffs []DiffResult`,
the nil slice, and `append` leaves a nil slice nil as long as nothing is
appended to it. -/
def returnedSlice (l : List DiffResult) : Option (List DiffResult) :=
  match l with
  | [] => none
  | r :: rs => some (r :: rs)

/-- The records held by a slice value; the nil slice holds none. -/
def sliceRecords (s : Option (List DiffResult)) : List DiffResult :=
  match s with
  | none => []
  | some l => l

/-- The construction of `output` in `main` from the slice `diffs` that
`diffJSONWithOptions` returned (`len(diffs) > 0`, the two struct literals). -/
def mainOutput (diffs : Option (List DiffResult)) : DiffOutput :=
  if 0 < (sliceRecords diffs).length then
    { IsDiff := true, Diff := diffs }
  else
    { IsDiff := false, Diff := some [] }

/-- The report of `main` for the two unmarshalled documents: the call of
`diffJSONWithOptions` with the empty prefix, then the construction of
`output`. -/
def mainReport (json1 json2 : JSON) (file1 file2 : String) (ignoreArrayOrder : Bool) :
    DiffOutput :=
  mainOutput (returnedSlice (diffJSONWithOptions json1 json2 file1 file2 "" ignoreArrayOrder))

/-! ## The multiset intersection of two arrays -/

/-- The multiset intersection of `xs` (preceded by `seen` in its array) with
`B`, up to structural equality, as a sublist of `xs`: an element belongs to it
when fewer equal elements precede it than `B` holds equal elements. -/
def multisetInterFrom (B : List JSON) : List JSON → List JSON → List JSON
  | _, [] => []
  | seen, x :: xs =>
    if countEq x seen < countEq x B then x :: multisetInterFrom B (x :: seen) xs
    else multisetInterFrom B (x :: seen) xs

/-- The multiset intersection of `A` and `B` up to structural equality, as a
sublist of `A`; each value has in it the smaller of its multiplicities in `A`
and in `B`. -/
def multisetInter (A B : List JSON) : List JSON :=
  multisetInterFrom B [] A

/-! ## Records up to the order in which objects list their entries -/

/-- The records `r` and `r'` are the same Go record: same key, type and
label, and structurally equal values (the values carried may list the entries
of their objects in different orders). -/
def SameRecord (r r' : DiffResult) : Prop :=
  r.Key = r'.Key ∧ r.Typ = r'.Typ ∧ r.Filename = r'.Filename ∧
    deepEqual r.Value1 r'.Value1 = true ∧ deepEqual r.Value2 r'.Value2 = true

/-- The list `l'` holds the same records as a rearrangement of `l`: the two
lists are permutations of each other. -/
def SameRecords (l l' : List DiffResult) : Prop :=
  ∃ l'', l''.Perm l ∧ List.Forall₂ SameRecord l'' l'

/-! ## The differ with checked indexing

A second embedding of the same functions in which every index expression of
the source (`a[i]`, `b[i]`, `matchedA[i]`, `matchedB[j]`) is checked as Go
checks it, the loops run over indices, and the depth of the recursion is
bounded by a fuel. -/

/-- The ways a checked run can fail to return its records: the Go run-time
panic "index out of range", or the fuel of the embedding running out. -/
inductive Failure where
  | indexOutOfRange : Failure
  | outOfFuel : Failure

/-- The Go index expression `s[i]` as a value: a panic unless `i < len(s)`. -/
def indexChecked {α : Type} (s : List α) (i : Nat) : Except Failure α :=
  match s[i]? with
  | some x => .ok x
  | none => .error .indexOutOfRange

/-- The Go assignment `s[i] = x`: a panic unless `i < len(s)`. -/
def assignChecked {α : Type} (s : List α) (i : Nat) (x : α) : Except Failure (List α) :=
  if i < s.length then .ok (s.set i x) else .error .indexOutOfRange

/-- The inner loop of `diffArraysIgnoreOrder` for the element `aItem` at index
`i`, from the entry `(j, bItem)` of `range bCopy` on, on the whole slices
`matchedA` and `matchedB`. -/
def innerLoopChecked (aItem : JSON) (i : Nat) :
    Nat → List JSON → List Bool → List Bool → Except Failure (List Bool × List Bool)
  | _, [], matchedA, matchedB => .ok (matchedA, matchedB)
  | j, bItem :: rest, matchedA, matchedB =>
    (indexChecked matchedB j).bind fun m =>
      if !m && deepEqual aItem bItem then
        (assignChecked matchedA i true).bind fun matchedA' =>
          (assignChecked matchedB j true).bind fun matchedB' =>
            .ok (matchedA', matchedB')
      else innerLoopChecked aItem i (j + 1) rest matchedA matchedB

/-- The outer matching loop of `diffArraysIgnoreOrder`, from the entry
`(i, aItem)` of `range aCopy` on. -/
def outerLoopChecked (bCopy : List JSON) :
    Nat → List JSON → List Bool → List Bool → Except Failure (List Bool × List Bool)
  | _, [], matchedA, matchedB => .ok (matchedA, matchedB)
  | i, aItem :: rest, matchedA, matchedB =>
    (innerLoopChecked aItem i 0 bCopy matchedA matchedB).bind fun st =>
      outerLoopChecked bCopy (i + 1) rest st.1 st.2

/-- The loop "report unmatched elements from first array", from the entry
`(i, aItem)` of `range aCopy` on, reading `matchedA[i]`. -/
def reportFirstChecked (file1 pfx : String) (matchedA : List Bool) :
    Nat → List JSON → Except Failure (List DiffResult)
  | _, [] => .ok []
  | i, aItem :: rest =>
    (indexChecked matchedA i).bind fun m =>
      (reportFirstChecked file1 pfx matchedA (i + 1) rest).bind fun tail =>
        .ok ((if !m then [⟨indexKey pfx i, "only_in_first", file1, aItem, .null⟩] else [])
          ++ tail)

/-- The loop "report unmatched elements from second array", from the entry
`(j, bItem)` of `range bCopy` on, reading `matchedB[j]`. -/
def reportSecondChecked (file2 pfx : String) (matchedB : List Bool) :
    Nat → List JSON → Except Failure (List DiffResult)
  | _, [] => .ok []
  | j, bItem :: rest =>
    (indexChecked matchedB j).bind fun m =>
      (reportSecondChecked file2 pfx matchedB (j + 1) rest).bind fun tail =>
        .ok ((if !m then [⟨indexKey pfx j, "only_in_second", file2, .null, bItem⟩] else [])
          ++ tail)

/-- The function `diffArraysIgnoreOrder` with checked indexing. -/
def diffArraysIgnoreOrderChecked (a b : List JSON) (file1 file2 pfx : String) :
    Except Failure (List DiffResult) :=
  (outerLoopChecked b 0 a (List.replicate a.length false)
      (List.replicate b.length false)).bind fun st =>
    (reportFirstChecked file1 pfx st.1 0 a).bind fun d1 =>
      (reportSecondChecked file2 pfx st.2 0 b).bind fun d2 =>
        .ok (d1 ++ d2)

/-- The body of the loop of `diffArrays` at index `i` with checked indexing;
`recur` is the recursive call of `diffJSONWithOptions` at a prefix. -/
def arrayLoopBodyChecked (recur : JSON → JSON → String → Except Failure (List DiffResult))
    (a b : List JSON) (file1 file2 pfx : String) (i : Nat) :
    Except Failure (List DiffResult) :=
  if i < a.length ∧ i < b.length then
    (indexChecked a i).bind fun x =>
      (indexChecked b i).bind fun y =>
        if !deepEqual x y then recur x y (indexKey pfx i ++ ".") else .ok []
  else if i < a.length then
    (indexChecked a i).bind fun x =>
      .ok [⟨indexKey pfx i, "only_in_first", file1, x, .null⟩]
  else
    (indexChecked b i).bind fun y =>
      .ok [⟨indexKey pfx i, "only_in_second", file2, .null, y⟩]

/-- The loop `for i := 0; i < maxLen; i++` of `diffArrays` with `steps`
iterations left, at index `i`, `diffs` being the records appended so far. -/
def diffArraysLoopChecked (recur : JSON → JSON → String → Except Failure (List DiffResult))
    (a b : List JSON) (file1 file2 pfx : String) :
    Nat → Nat → List DiffResult → Except Failure (List DiffResult)
  | 0, _, diffs => .ok diffs
  | steps + 1, i, diffs =>
    (arrayLoopBodyChecked recur a b file1 file2 pfx i).bind fun d =>
      diffArraysLoopChecked recur a b file1 file2 pfx steps (i + 1) (diffs ++ d)

/-- The function `diffArrays` with checked indexing. -/
def diffArraysChecked (recur : JSON → JSON → String → Except Failure (List DiffResult))
    (a b : List JSON) (file1 file2 pfx : String) : Except Failure (List DiffResult) :=
  diffArraysLoopChecked recur a b file1 file2 pfx (max a.length b.length) 0 []

/-- The first loop of `diffObjects` over the entries of `a` that remain, with
a recursive call that can fail; `diffs` holds the records appended so far. -/
def diffObjectsFirstChecked
    (recur : JSON → JSON → String → Except Failure (List DiffResult))
    (b : List (String × JSON)) (file1 pfx : String) :
    List (String × JSON) → List DiffResult → Except Failure (List DiffResult)
  | [], diffs => .ok diffs
  | (k, vA) :: rest, diffs =>
    match mapIndex b k with
    | some vB =>
      if !deepEqual vA vB then
        if !isComplexType vA && !isComplexType vB then
          diffObjectsFirstChecked recur b file1 pfx rest
            (diffs ++ [⟨pfx ++ k, "changed", file1, vA, vB⟩])
        else
          (recur vA vB (pfx ++ k ++ ".")).bind fun d =>
            diffObjectsFirstChecked recur b file1 pfx rest (diffs ++ d)
      else diffObjectsFirstChecked recur b file1 pfx rest diffs
    | none =>
      diffObjectsFirstChecked recur b file1 pfx rest
        (diffs ++ [⟨pfx ++ k, "only_in_first", file1, vA, .null⟩])

/-- The function `diffObjects` with a recursive call that can fail. -/
def diffObjectsChecked (recur : JSON → JSON → String → Except Failure (List DiffResult))
    (a b : List (String × JSON)) (file1 file2 pfx : String) :
    Except Failure (List DiffResult) :=
  (diffObjectsFirstChecked recur b file1 pfx a []).bind fun d =>
    .ok (d ++ diffObjectsSecond a file2 pfx b)

/-- The function `diffJSONWithOptions` with checked indexing; every call
spends one unit of fuel, so the fuel bounds the depth of the recursion. -/
def diffJSONWithOptionsChecked :
    Nat → JSON → JSON → String → String → String → Bool → Except Failure (List DiffResult)
  | 0, _, _, _, _, _, _ => .error .outOfFuel
  | fuel + 1, a, b, file1, file2, pfx, ignoreArrayOrder =>
    match a with
    | .obj aVal =>
      match b with
      | .obj bMap =>
        diffObjectsChecked
          (fun x y p => diffJSONWithOptionsChecked fuel x y file1 file2 p ignoreArrayOrder)
          aVal bMap file1 file2 pfx
      | _ => .ok [⟨pfx ++ "root", "type_mismatch", file1, .obj aVal, b⟩]
    | .arr aVal =>
      match b with
      | .arr bArray =>
        if ignoreArrayOrder then
          diffArraysIgnoreOrderChecked aVal bArray file1 file2 pfx
        else
          diffArraysChecked
            (fun x y p => diffJSONWithOptionsChecked fuel x y file1 file2 p ignoreArrayOrder)
            aVal bArray file1 file2 pfx
      | _ => .ok [⟨pfx ++ "root", "type_mismatch", file1, .arr aVal, b⟩]
    | _ => .ok (if !deepEqual a b then [⟨pfx ++ "root", "changed", file1, a, b⟩] else [])

mutual
/-- The nesting depth of a value: 0 for a primitive, one more than the deepest
element or value for an array or an object. -/
def depth : JSON → Nat
  | .arr xs => depthList xs + 1
  | .obj m => depthFields m + 1
  | _ => 0
/-- The greatest depth of an element of a slice. -/
def depthList : List JSON → Nat
  | [] => 0
  | x :: xs => max (depth x) (depthList xs)
/-- The greatest depth of a value of a map. -/
def depthFields : List (String × JSON) → Nat
  | [] => 0
  | (_, v) :: rest => max (depth v) (depthFields rest)
end

/-- The checked run `r` returns the records `expected`, or, when `allow` is
set, runs out of fuel. -/
def ReturnsOr (allow : Bool) (r : Except Failure (List DiffResult))
    (expected : List DiffResult) : Prop :=
  r = .ok expected ∨ (allow = true ∧ r = .error .outOfFuel)

/-! ## Equality up to the order of arrays -/

mutual
/-- Equality of two values as the ignore-order mode sees it.  Two arrays are
equal when every element occurs, up to structural equality, as often in the
one as in the other; two objects when they have the same keys and at each key
the two values are structurally equal or equal in this sense; in every other
case the two values are equal when they are structurally equal. -/
def equalUpToArrayOrder : JSON → JSON → Bool
  | .obj m1, .obj m2 =>
    m2.all (fun kv => (mapIndex m1 kv.1).isSome) && equalFieldsUpToArrayOrder m1 m2
  | .arr xs, .arr ys =>
    xs.all (fun x => decide (countEq x xs = countEq x ys))
      && ys.all (fun y => decide (countEq y xs = countEq y ys))
  | a, b => deepEqual a b
/-- Every entry of the first object has under its key, in the second, a value
that is structurally equal or equal up to the order of arrays. -/
def equalFieldsUpToArrayOrder : List (String × JSON) → List (String × JSON) → Bool
  | [], _ => true
  | (k, v1) :: rest, m2 =>
    (match mapIndex m2 k with
     | some v2 => deepEqual v1 v2 || equalUpToArrayOrder v1 v2
     | none => false) && equalFieldsUpToArrayOrder rest m2
end

/-! ## Map indexing and well-formedness -/

theorem mapIndex_mem {m : List (String × JSON)} {k : String} {v : JSON}
    (h : mapIndex m k = some v) : (k, v) ∈ m := by
  induction m with
  | nil => simp [mapIndex] at h
  | cons e rest ih =>
    obtain ⟨k', v'⟩ := e
    by_cases hk : k' = k
    · simp [mapIndex, hk] at h
      simp [hk, h]
    · simp [mapIndex, hk] at h
      exact List.mem_cons_of_mem _ (ih h)

theorem mapIndex_eq_none {m : List (String × JSON)} {k : String} :
    mapIndex m k = none ↔ k ∉ m.map Prod.fst := by
  induction m with
  | nil => simp [mapIndex]
  | cons e rest ih =>
    obtain ⟨k', v'⟩ := e
    by_cases hk : k' = k
    · simp [mapIndex, hk]
    · simp only [mapIndex, hk, if_false, ih, List.map_cons, List.mem_cons, not_or]
      constructor
      · intro h
        exact ⟨fun e => hk e.symm, h⟩
      · intro h
        exact h.2

theorem mapIndex_of_mem {m : List (String × JSON)} {k : String} {v : JSON}
    (hnd : (m.map Prod.fst).Nodup) (h : (k, v) ∈ m) : mapIndex m k = some v := by
  induction m with
  | nil => simp at h
  | cons e rest ih =>
    obtain ⟨k', v'⟩ := e
    simp only [List.map_cons, List.nodup_cons] at hnd
    rcases List.mem_cons.1 h with heq | hmem
    · cases heq
      simp [mapIndex]
    · have hne : k' ≠ k := by
        intro e
        apply hnd.1
        rw [e]
        exact List.mem_map_of_mem Prod.fst hmem
      simp only [mapIndex, hne, if_false]
      exact ih hnd.2 hmem

theorem mapIndex_isSome_of_key {m : List (String × JSON)} {k : String}
    (h : k ∈ m.map Prod.fst) : ∃ v, mapIndex m k = some v := by
  cases hm : mapIndex m k with
  | none => exact absurd h (mapIndex_eq_none.1 hm)
  | some v => exact ⟨v, rfl⟩

theorem wellFormedList_iff {xs : List JSON} :
    wellFormedList xs = true ↔ ∀ x ∈ xs, wellFormed x = true := by
  induction xs with
  | nil => simp [wellFormedList]
  | cons x xs ih => simp [wellFormedList, ih]

theorem wellFormedFields_iff {m : List (String × JSON)} :
    wellFormedFields m = true ↔ ∀ kv ∈ m, wellFormed kv.2 = true := by
  induction m with
  | nil => simp [wellFormedFields]
  | cons e rest ih =>
    obtain ⟨k, v⟩ := e
    simp [wellFormedFields, ih]

theorem wellFormed_arr {xs : List JSON} :
    wellFormed (.arr xs) = true ↔ ∀ x ∈ xs, wellFormed x = true := by
  simp [wellFormed, wellFormedList_iff]

theorem wellFormed_obj {m : List (String × JSON)} :
    wellFormed (.obj m) = true ↔
      (m.map Prod.fst).Nodup ∧ ∀ kv ∈ m, wellFormed kv.2 = true := by
  simp only [wellFormed, Bool.and_eq_true, decide_eq_true_eq, wellFormedFields_iff]

/-- Structural induction on JSON values, the hypotheses for the elements of an
array and for the values of an object stated by membership. -/
theorem JSON.induct {P : JSON → Prop} (hnull : P .null) (hbool : ∀ b, P (.bool b))
    (hnum : ∀ n, P (.num n)) (hstr : ∀ s, P (.str s))
    (harr : ∀ xs, (∀ x ∈ xs, P x) → P (.arr xs))
    (hobj : ∀ m, (∀ kv ∈ m, P kv.2) → P (.obj m)) : ∀ j, P j := by
  intro j
  refine @JSON.rec P (fun xs => ∀ x ∈ xs, P x) (fun m => ∀ kv ∈ m, P kv.2)
    (fun kv => P kv.2) hnull hbool hnum hstr harr hobj ?_ ?_ ?_ ?_ ?_ j
  · intro x hx
    simp at hx
  · intro x xs hx hxs y hy
    rcases List.mem_cons.1 hy with h | h
    · rw [h]; exact hx
    · exact hxs y h
  · intro kv hkv
    simp at hkv
  · intro e rest he hrest kv hkv
    rcases List.mem_cons.1 hkv with h | h
    · rw [h]; exact he
    · exact hrest kv h
  · intro k v hv
    exact hv

/-! ## `reflect.DeepEqual` is an equivalence on well-formed values -/

theorem deepEqualMap_iff {m1 m2 : List (String × JSON)} :
    deepEqualMap m1 m2 = true ↔
      ∀ kv ∈ m1, ∃ v2, mapIndex m2 kv.1 = some v2 ∧ deepEqual kv.2 v2 = true := by
  induction m1 with
  | nil => simp [deepEqualMap]
  | cons e rest ih =>
    obtain ⟨k, v⟩ := e
    simp only [deepEqualMap, Bool.and_eq_true, ih, List.forall_mem_cons]
    constructor
    · rintro ⟨h1, h2⟩
      refine ⟨?_, h2⟩
      cases hm : mapIndex m2 k with
      | none => simp [hm] at h1
      | some v2 =>
        simp only [hm] at h1
        exact ⟨v2, rfl, h1⟩
    · rintro ⟨⟨v2, hm, hv⟩, h2⟩
      refine ⟨?_, h2⟩
      simp only [hm]
      exact hv

theorem deepEqual_obj {m1 m2 : List (String × JSON)} :
    deepEqual (.obj m1) (.obj m2) = true ↔
      m1.length = m2.length ∧
        ∀ kv ∈ m1, ∃ v2, mapIndex m2 kv.1 = some v2 ∧ deepEqual kv.2 v2 = true := by
  simp only [deepEqual, Bool.and_eq_true, decide_eq_true_eq, deepEqualMap_iff]

theorem deepEqual_arr {xs ys : List JSON} :
    deepEqual (.arr xs) (.arr ys) = deepEqualSlice xs ys := by
  simp only [deepEqual]

theorem deepEqual_refl : ∀ j : JSON, wellFormed j = true → deepEqual j j = true := by
  intro j
  induction j using JSON.induct with
  | hnull => intro _; simp [deepEqual]
  | hbool b => intro _; simp [deepEqual]
  | hnum n => intro _; simp [deepEqual]
  | hstr s => intro _; simp [deepEqual]
  | harr xs ih =>
    intro hwf
    rw [wellFormed_arr] at hwf
    rw [deepEqual_arr]
    induction xs with
    | nil => simp [deepEqualSlice]
    | cons x xs ihx =>
      simp only [deepEqualSlice, Bool.and_eq_true]
      exact ⟨ih x (List.mem_cons_self _ _) (hwf x (List.mem_cons_self _ _)),
        ihx (fun y hy => ih y (List.mem_cons_of_mem _ hy))
          (fun y hy => hwf y (List.mem_cons_of_mem _ hy))⟩
  | hobj m ih =>
    intro hwf
    rw [wellFormed_obj] at hwf
    rw [deepEqual_obj]
    refine ⟨rfl, fun kv hkv => ⟨kv.2, mapIndex_of_mem hwf.1 hkv, ih kv hkv (hwf.2 kv hkv)⟩⟩

theorem deepEqual_trans : ∀ a b c : JSON,
    deepEqual a b = true → deepEqual b c = true → deepEqual a c = true := by
  intro a
  induction a using JSON.induct with
  | hnull => intro b c hab hbc; cases b <;> cases c <;> simp_all [deepEqual]
  | hbool x => intro b c hab hbc; cases b <;> cases c <;> simp_all [deepEqual]
  | hnum x => intro b c hab hbc; cases b <;> cases c <;> simp_all [deepEqual]
  | hstr x => intro b c hab hbc; cases b <;> cases c <;> simp_all [deepEqual]
  | harr xs ih =>
    intro b c hab hbc
    cases b <;> try (simp [deepEqual] at hab)
    cases c <;> try (simp [deepEqual] at hbc)
    rename_i ys zs
    rw [deepEqual_arr]
    revert hab hbc
    induction xs generalizing ys zs with
    | nil =>
      intro hab hbc
      cases ys <;> cases zs <;> simp_all [deepEqualSlice]
    | cons x xs ihx =>
      intro hab hbc
      cases ys with
      | nil => simp [deepEqualSlice] at hab
      | cons y ys =>
        cases zs with
        | nil => simp [deepEqualSlice] at hbc
        | cons z zs =>
          simp only [deepEqualSlice, Bool.and_eq_true] at hab hbc ⊢
          exact ⟨ih x (List.mem_cons_self _ _) y z hab.1 hbc.1,
            ihx (fun w hw => ih w (List.mem_cons_of_mem _ hw)) ys zs hab.2 hbc.2⟩
  | hobj m ih =>
    intro b c hab hbc
    cases b <;> try (simp [deepEqual] at hab)
    cases c <;> try (simp [deepEqual] at hbc)
    rename_i m2 m3
    rw [deepEqualMap_iff] at hab hbc
    rw [deepEqual_obj]
    refine ⟨hab.1.trans hbc.1, fun kv hkv => ?_⟩
    obtain ⟨v2, hm2, hv2⟩ := hab.2 kv hkv
    obtain ⟨v3, hm3, hv3⟩ := hbc.2 (kv.1, v2) (mapIndex_mem hm2)
    exact ⟨v3, hm3, ih kv hkv v2 v3 hv2 hv3⟩

theorem keys_subset_of_deepEqualMap {m1 m2 : List (String × JSON)}
    (h : ∀ kv ∈ m1, ∃ v2, mapIndex m2 kv.1 = some v2 ∧ deepEqual kv.2 v2 = true) :
    m1.map Prod.fst ⊆ m2.map Prod.fst := by
  intro k hk
  obtain ⟨kv, hkv, rfl⟩ := List.mem_map.1 hk
  obtain ⟨v2, hm, _⟩ := h kv hkv
  exact List.mem_map.2 ⟨(kv.1, v2), mapIndex_mem hm, rfl⟩

theorem keys_subset_of_length_le {m1 m2 : List (String × JSON)}
    (hnd : (m1.map Prod.fst).Nodup) (hsub : m1.map Prod.fst ⊆ m2.map Prod.fst)
    (hlen : m2.length ≤ m1.length) : m2.map Prod.fst ⊆ m1.map Prod.fst := by
  have hp : (m1.map Prod.fst).Perm (m2.map Prod.fst) :=
    (List.subperm_of_subset hnd hsub).perm_of_length_le (by simpa using hlen)
  exact hp.symm.subset

theorem deepEqual_symm_imp : ∀ a : JSON, wellFormed a = true → ∀ b : JSON,
    wellFormed b = true → deepEqual a b = true → deepEqual b a = true := by
  intro a
  induction a using JSON.induct with
  | hnull => intro _ b _ hab; cases b <;> simp_all [deepEqual]
  | hbool x => intro _ b _ hab; cases b <;> simp_all [deepEqual]
  | hnum x => intro _ b _ hab; cases b <;> simp_all [deepEqual]
  | hstr x => intro _ b _ hab; cases b <;> simp_all [deepEqual]
  | harr xs ih =>
    intro hwa b hwb hab
    cases b <;> try (simp [deepEqual] at hab)
    rename_i ys
    rw [wellFormed_arr] at hwa hwb
    rw [deepEqual_arr]
    revert hwb hab
    induction xs generalizing ys with
    | nil => intro hwb hab; cases ys <;> simp_all [deepEqualSlice]
    | cons x xs ihx =>
      intro hwb hab
      cases ys with
      | nil => simp [deepEqualSlice] at hab
      | cons y ys =>
        simp only [deepEqualSlice, Bool.and_eq_true] at hab ⊢
        exact ⟨ih x (List.mem_cons_self _ _) (hwa x (List.mem_cons_self _ _)) y
            (hwb y (List.mem_cons_self _ _)) hab.1,
          ihx (fun w hw => ih w (List.mem_cons_of_mem _ hw))
            (fun w hw => hwa w (List.mem_cons_of_mem _ hw)) ys
            (fun w hw => hwb w (List.mem_cons_of_mem _ hw)) hab.2⟩
  | hobj m ih =>
    intro hwa b hwb hab
    cases b <;> try (simp [deepEqual] at hab)
    rename_i m2
    rw [wellFormed_obj] at hwa hwb
    rw [deepEqualMap_iff] at hab
    rw [deepEqual_obj]
    refine ⟨hab.1.symm, fun kv hkv => ?_⟩
    have hsub := keys_subset_of_length_le hwa.1 (keys_subset_of_deepEqualMap hab.2)
      (le_of_eq hab.1.symm)
    obtain ⟨v, hv⟩ := mapIndex_isSome_of_key (hsub (List.mem_map_of_mem Prod.fst hkv))
    have hmem := mapIndex_mem hv
    obtain ⟨v2, hm2, hv2⟩ := hab.2 (kv.1, v) hmem
    have h2 : mapIndex m2 kv.1 = some kv.2 := mapIndex_of_mem hwb.1 hkv
    rw [show mapIndex m2 (kv.1, v).1 = mapIndex m2 kv.1 from rfl, h2] at hm2
    cases hm2
    exact ⟨v, hv, ih (kv.1, v) hmem (hwa.2 _ hmem) kv.2 (hwb.2 kv hkv) hv2⟩

theorem deepEqual_comm {a b : JSON} (ha : wellFormed a = true) (hb : wellFormed b = true) :
    deepEqual a b = deepEqual b a := by
  cases h1 : deepEqual a b with
  | true => exact (deepEqual_symm_imp a ha b hb h1).symm
  | false =>
    cases h2 : deepEqual b a with
    | false => rfl
    | true =>
      have := deepEqual_symm_imp b hb a ha h2
      rw [h1] at this
      exact this

/-- Deeply equal well-formed values have the same deeply equal partners. -/
theorem deepEqual_congr_left {a b c : JSON} (ha : wellFormed a = true)
    (hb : wellFormed b = true) (hab : deepEqual a b = true) :
    deepEqual a c = deepEqual b c := by
  cases h1 : deepEqual a c with
  | true =>
    exact (deepEqual_trans b a c (deepEqual_symm_imp a ha b hb hab) h1).symm
  | false =>
    cases h2 : deepEqual b c with
    | false => rfl
    | true =>
      have := deepEqual_trans a b c hab h2
      rw [h1] at this
      exact this

/-! ## The matching loop of `diffArraysIgnoreOrder` -/

theorem countEq_nil (v : JSON) : countEq v [] = 0 := rfl

theorem countEq_cons (v y : JSON) (l : List JSON) :
    countEq v (y :: l) = countEq v l + if deepEqual v y = true then 1 else 0 := by
  simp only [countEq, List.countP_cons]

theorem countEq_cons_of_eq {v y : JSON} (l : List JSON) (h : deepEqual v y = true) :
    countEq v (y :: l) = countEq v l + 1 := by
  rw [countEq_cons, if_pos h]

theorem countEq_cons_of_ne {v y : JSON} (l : List JSON) (h : deepEqual v y = false) :
    countEq v (y :: l) = countEq v l := by
  rw [countEq_cons, if_neg (by simp [h])]
  rfl

theorem countEq_congr {a b : JSON} (ha : wellFormed a = true) (hb : wellFormed b = true)
    (hab : deepEqual a b = true) (l : List JSON) : countEq a l = countEq b l := by
  unfold countEq
  congr 1
  funext z
  exact deepEqual_congr_left ha hb hab

theorem rankFlags_length (other : List JSON) (ys seen : List JSON) :
    (rankFlags other seen ys).length = ys.length := by
  induction ys generalizing seen with
  | nil => rfl
  | cons y ys ih => simp [rankFlags, ih]

theorem rankFlags_congr {o1 o2 : List JSON} (ys seen : List JSON)
    (h : ∀ y ∈ ys, countEq y o1 = countEq y o2) :
    rankFlags o1 seen ys = rankFlags o2 seen ys := by
  induction ys generalizing seen with
  | nil => rfl
  | cons y ys ih =>
    simp only [rankFlags]
    rw [h y (List.mem_cons_self _ _), ih _ (fun z hz => h z (List.mem_cons_of_mem _ hz))]

theorem rankFlags_nil_other (ys seen : List JSON) :
    rankFlags [] seen ys = List.replicate ys.length false := by
  induction ys generalizing seen with
  | nil => rfl
  | cons y ys ih => simp [rankFlags, countEq_nil, ih, List.replicate_succ]

/-- Once more elements equal to `x` have been seen than `done` holds, adding
`x` to `done` changes no flag. -/
theorem rankFlags_cons_of_lt {x : JSON} (hx : wellFormed x = true) (done : List JSON)
    (ys seen : List JSON) (hys : ∀ y ∈ ys, wellFormed y = true)
    (h : countEq x done < countEq x seen) :
    rankFlags (x :: done) seen ys = rankFlags done seen ys := by
  induction ys generalizing seen with
  | nil => rfl
  | cons y ys ih =>
    have hy := hys y (List.mem_cons_self _ _)
    simp only [rankFlags]
    cases hxy : deepEqual x y with
    | true =>
      have hyx : deepEqual y x = true := deepEqual_symm_imp x hx y hy hxy
      have e1 := countEq_congr hy hx hyx
      rw [ih (y :: seen) (fun z hz => hys z (List.mem_cons_of_mem _ hz))
        (by rw [countEq_cons_of_eq _ hxy]; omega)]
      rw [countEq_cons_of_eq _ hyx, e1 seen, e1 done]
      congr 1
      simp only [decide_eq_decide]
      omega
    | false =>
      have hyx : deepEqual y x = false := by rw [deepEqual_comm hy hx]; exact hxy
      rw [ih (y :: seen) (fun z hz => hys z (List.mem_cons_of_mem _ hz))
        (by rw [countEq_cons_of_ne _ hxy]; exact h)]
      rw [countEq_cons_of_ne _ hyx]

/-- The inner loop on flags given by rank: it finds a partner exactly when `b`
holds more elements equal to `x` than were matched so far, and then the flags
are those by rank for one more `x`. -/
theorem scanB_rankFlags {x : JSON} (hx : wellFormed x = true) (done : List JSON)
    (ys seen : List JSON) (hys : ∀ y ∈ ys, wellFormed y = true)
    (hpre : countEq x seen ≤ countEq x done) :
    scanB x ys (rankFlags done seen ys) =
        (if countEq x done < countEq x seen + countEq x ys then
          some (rankFlags (x :: done) seen ys) else none) ∧
      (¬ countEq x done < countEq x seen + countEq x ys →
        rankFlags (x :: done) seen ys = rankFlags done seen ys) := by
  induction ys generalizing seen with
  | nil =>
    simp only [rankFlags, scanB, countEq_nil, Nat.add_zero]
    refine ⟨?_, fun _ => trivial⟩
    rw [if_neg (by omega)]
  | cons y ys ih =>
    have hy := hys y (List.mem_cons_self _ _)
    have hys' : ∀ z ∈ ys, wellFormed z = true := fun z hz => hys z (List.mem_cons_of_mem _ hz)
    cases hxy : deepEqual x y with
    | true =>
      have hyx : deepEqual y x = true := deepEqual_symm_imp x hx y hy hxy
      have e1 := countEq_congr hy hx hyx
      by_cases hm : countEq x seen < countEq x done
      · -- the element is already matched: the scan goes on
        have ih' := ih (y :: seen) hys' (by rw [countEq_cons_of_eq _ hxy]; omega)
        rw [countEq_cons_of_eq _ hxy] at ih'
        simp only [rankFlags, scanB, e1 seen, e1 done, hm, decide_True, Bool.not_true,
          Bool.false_and, countEq_cons_of_eq _ hxy, countEq_cons_of_eq _ hyx]
        have harith : (countEq x done < countEq x seen + (countEq x ys + 1)) ↔
            (countEq x done < countEq x seen + 1 + countEq x ys) := by omega
        have hlt : countEq x seen < countEq x done + 1 := by omega
        refine ⟨?_, ?_⟩
        · rw [ih'.1]
          by_cases hc : countEq x done < countEq x seen + 1 + countEq x ys
          · simp [hc, harith.2 hc, hlt]
          · simp [hc, mt harith.1 hc]
        · intro hc
          rw [ih'.2 (mt harith.2 hc)]
          simp [hlt]
      · -- the first unmatched element equal to x
        have heq : countEq x seen = countEq x done := by omega
        have htail := rankFlags_cons_of_lt hx done ys (y :: seen) hys'
          (by rw [countEq_cons_of_eq _ hxy]; omega)
        simp only [rankFlags, scanB, e1 seen, e1 done, hm, decide_False, Bool.not_false,
          Bool.true_and, hxy, if_true, countEq_cons_of_eq _ hxy, countEq_cons_of_eq _ hyx]
        have hlt : countEq x seen < countEq x done + 1 := by omega
        refine ⟨?_, fun hc => absurd (by omega) hc⟩
        rw [if_pos (by omega), htail]
        simp [hlt]
    | false =>
      have hyx : deepEqual y x = false := by rw [deepEqual_comm hy hx]; exact hxy
      have ih' := ih (y :: seen) hys' (by rw [countEq_cons_of_ne _ hxy]; exact hpre)
      rw [countEq_cons_of_ne _ hxy] at ih'
      simp only [rankFlags, scanB, hxy, Bool.and_false, countEq_cons_of_ne _ hxy,
        countEq_cons_of_ne _ hyx]
      refine ⟨?_, ?_⟩
      · rw [ih'.1]
        by_cases hc : countEq x done < countEq x seen + countEq x ys
        · simp [hc]
        · simp [hc]
      · intro hc
        rw [ih'.2 hc]

theorem findMatches_rankFlags (b : List JSON) (hb : ∀ y ∈ b, wellFormed y = true)
    (rest done : List JSON) (hrest : ∀ x ∈ rest, wellFormed x = true) :
    findMatches b rest (rankFlags done [] b) =
      (rankFlags b done rest, rankFlags (rest.reverse ++ done) [] b) := by
  induction rest generalizing done with
  | nil => rfl
  | cons x rest ih =>
    have hx := hrest x (List.mem_cons_self _ _)
    have hrest' : ∀ z ∈ rest, wellFormed z = true :=
      fun z hz => hrest z (List.mem_cons_of_mem _ hz)
    have hscan := scanB_rankFlags hx done b [] hb (by rw [countEq_nil]; exact Nat.zero_le _)
    rw [countEq_nil, Nat.zero_add] at hscan
    have hrev : (x :: rest).reverse ++ done = rest.reverse ++ x :: done := by
      simp
    rw [hrev]
    by_cases hc : countEq x done < countEq x b
    · have hs : scanB x b (rankFlags done [] b) = some (rankFlags (x :: done) [] b) := by
        rw [hscan.1, if_pos hc]
      simp only [findMatches, hs, ih (x :: done) hrest', rankFlags, hc, decide_True]
    · have hs : scanB x b (rankFlags done [] b) = none := by
        rw [hscan.1, if_neg hc]
      simp only [findMatches, hs, rankFlags, hc, decide_False]
      rw [← hscan.2 hc, ih (x :: done) hrest']

theorem countEq_reverse (v : JSON) (l : List JSON) : countEq v l.reverse = countEq v l := by
  unfold countEq
  exact List.countP_reverse _ _

/-- The flags computed by the matching loop of `diffArraysIgnoreOrder` are the
flags by rank, on both sides. -/
theorem findMatches_eq (a b : List JSON) (ha : ∀ x ∈ a, wellFormed x = true)
    (hb : ∀ y ∈ b, wellFormed y = true) :
    findMatches b a (List.replicate b.length false) = (rankFlags b [] a, rankFlags a [] b) := by
  rw [← rankFlags_nil_other b [], findMatches_rankFlags b hb a [] ha, List.append_nil]
  rw [rankFlags_congr b [] (fun y _ => countEq_reverse y a)]

theorem diffArraysIgnoreOrder_eq (a b : List JSON) (ha : ∀ x ∈ a, wellFormed x = true)
    (hb : ∀ y ∈ b, wellFormed y = true) (file1 file2 pfx : String) (ig : Bool) :
    diffArraysIgnoreOrder a b file1 file2 pfx ig =
      reportFirst file1 pfx 0 a (rankFlags b [] a)
        ++ reportSecond file2 pfx 0 b (rankFlags a [] b) := by
  simp only [diffArraysIgnoreOrder, findMatches_eq a b ha hb]

theorem reportFirst_eq_nil (file1 pfx : String) (i : Nat) (xs : List JSON) (ms : List Bool)
    (hlen : ms.length = xs.length) :
    reportFirst file1 pfx i xs ms = [] ↔ ∀ m ∈ ms, m = true := by
  induction xs generalizing i ms with
  | nil =>
    cases ms with
    | nil => simp [reportFirst]
    | cons m ms => simp at hlen
  | cons x xs ih =>
    cases ms with
    | nil => simp at hlen
    | cons m ms =>
      simp only [List.length_cons, Nat.add_right_cancel_iff] at hlen
      simp only [reportFirst, List.append_eq_nil, ih (i + 1) ms hlen, List.forall_mem_cons]
      cases m <;> simp

theorem reportSecond_eq_nil (file2 pfx : String) (i : Nat) (xs : List JSON) (ms : List Bool)
    (hlen : ms.length = xs.length) :
    reportSecond file2 pfx i xs ms = [] ↔ ∀ m ∈ ms, m = true := by
  induction xs generalizing i ms with
  | nil =>
    cases ms with
    | nil => simp [reportSecond]
    | cons m ms => simp at hlen
  | cons x xs ih =>
    cases ms with
    | nil => simp at hlen
    | cons m ms =>
      simp only [List.length_cons, Nat.add_right_cancel_iff] at hlen
      simp only [reportSecond, List.append_eq_nil, ih (i + 1) ms hlen, List.forall_mem_cons]
      cases m <;> simp

/-- All flags by rank are set exactly when every element of `ys`, counted with
the equal elements before it, is covered by `other`. -/
theorem rankFlags_all_true (other : List JSON) (ys seen : List JSON)
    (hys : ∀ y ∈ ys, wellFormed y = true) :
    (∀ m ∈ rankFlags other seen ys, m = true) ↔
      ∀ v, wellFormed v = true → 0 < countEq v ys →
        countEq v seen + countEq v ys ≤ countEq v other := by
  induction ys generalizing seen with
  | nil =>
    simp [rankFlags, countEq_nil]
  | cons y ys ih =>
    have hy := hys y (List.mem_cons_self _ _)
    have hys' : ∀ z ∈ ys, wellFormed z = true := fun z hz => hys z (List.mem_cons_of_mem _ hz)
    simp only [rankFlags, List.forall_mem_cons, decide_eq_true_eq, ih (y :: seen) hys']
    constructor
    · rintro ⟨hhead, htail⟩ v hv hpos
      cases hvy : deepEqual v y with
      | true =>
        rw [countEq_cons_of_eq _ hvy] at hpos ⊢
        by_cases h0 : 0 < countEq v ys
        · have := htail v hv h0
          rw [countEq_cons_of_eq _ hvy] at this
          omega
        · have e := countEq_congr hv hy hvy
          rw [e seen, e other]
          omega
      | false =>
        rw [countEq_cons_of_ne _ hvy] at hpos ⊢
        have := htail v hv hpos
        rw [countEq_cons_of_ne _ hvy] at this
        exact this
    · intro h
      refine ⟨?_, fun v hv hpos => ?_⟩
      · have hyy := deepEqual_refl y hy
        have := h y hy (by rw [countEq_cons_of_eq _ hyy]; omega)
        rw [countEq_cons_of_eq _ hyy] at this
        omega
      · cases hvy : deepEqual v y with
        | true =>
          have := h v hv (by rw [countEq_cons_of_eq _ hvy]; omega)
          rw [countEq_cons_of_eq _ hvy] at this ⊢
          omega
        | false =>
          have := h v hv (by rw [countEq_cons_of_ne _ hvy]; exact hpos)
          rw [countEq_cons_of_ne _ hvy] at this ⊢
          exact this

/-! ## The loops of the differ, iteration by iteration -/

theorem diffJSONWithOptions_obj (a b : List (String × JSON)) (file1 file2 pfx : String)
    (ig : Bool) :
    diffJSONWithOptions (.obj a) (.obj b) file1 file2 pfx ig =
      diffObjects a b file1 file2 pfx ig := by
  simp only [diffJSONWithOptions, diffObjects]

theorem diffJSONWithOptions_arr (a b : List JSON) (file1 file2 pfx : String) (ig : Bool) :
    diffJSONWithOptions (.arr a) (.arr b) file1 file2 pfx ig =
      if ig = true then diffArraysIgnoreOrder a b file1 file2 pfx ig
      else diffArrays a b file1 file2 pfx ig := by
  simp only [diffJSONWithOptions, diffArrays]

theorem diffObjectsFirst_eq (a b : List (String × JSON)) (file1 file2 pfx : String)
    (ig : Bool) :
    diffObjectsFirst a b file1 file2 pfx ig =
      a.flatMap (firstLoopBody b file1 file2 pfx ig) := by
  induction a with
  | nil => simp [diffObjectsFirst]
  | cons e rest ih =>
    obtain ⟨k, vA⟩ := e
    simp only [diffObjectsFirst, List.flatMap_cons, ih, firstLoopBody]

theorem diffObjectsSecond_eq (a b : List (String × JSON)) (file2 pfx : String) :
    diffObjectsSecond a file2 pfx b = b.flatMap (secondLoopBody a file2 pfx) := by
  induction b with
  | nil => simp [diffObjectsSecond]
  | cons e rest ih =>
    obtain ⟨k, vB⟩ := e
    simp only [diffObjectsSecond, List.flatMap_cons, ih, secondLoopBody]

theorem diffObjects_eq (a b : List (String × JSON)) (file1 file2 pfx : String) (ig : Bool) :
    diffObjects a b file1 file2 pfx ig =
      a.flatMap (firstLoopBody b file1 file2 pfx ig)
        ++ b.flatMap (secondLoopBody a file2 pfx) := by
  simp only [diffObjects, diffObjectsFirst_eq, diffObjectsSecond_eq]

theorem range_flatMap_succ {β : Type} (n : Nat) (f : Nat → List β) :
    (List.range (n + 1)).flatMap f = f 0 ++ (List.range n).flatMap (fun j => f (j + 1)) := by
  rw [List.range_succ_eq_map, List.flatMap_cons, List.flatMap_map]

theorem diffArraysTail_eq (file2 pfx : String) (i : Nat) (bs : List JSON) :
    diffArraysTail file2 pfx i bs =
      (List.range bs.length).flatMap (fun j =>
        match bs[j]? with
        | some y => [⟨indexKey pfx (i + j), "only_in_second", file2, .null, y⟩]
        | none => []) := by
  induction bs generalizing i with
  | nil => simp [diffArraysTail]
  | cons y bs ih =>
    rw [List.length_cons, range_flatMap_succ]
    simp only [diffArraysTail, ih, List.getElem?_cons_zero, List.getElem?_cons_succ,
      Nat.add_zero, List.singleton_append, Nat.add_assoc, Nat.add_comm 1]

/-- The loop of `diffArrays` from index `i` is the concatenation, in ascending
order of the index, of what its body appends at each index below the longer
length. -/
theorem diffArraysFrom_eq (i : Nat) (as bs : List JSON) (file1 file2 pfx : String)
    (ig : Bool) :
    diffArraysFrom i as bs file1 file2 pfx ig =
      (List.range (max as.length bs.length)).flatMap (fun j =>
        match as[j]?, bs[j]? with
        | some x, some y =>
          if !deepEqual x y then
            diffJSONWithOptions x y file1 file2 (indexKey pfx (i + j) ++ ".") ig
          else []
        | some x, none => [⟨indexKey pfx (i + j), "only_in_first", file1, x, .null⟩]
        | none, some y => [⟨indexKey pfx (i + j), "only_in_second", file2, .null, y⟩]
        | none, none => []) := by
  induction as generalizing i bs with
  | nil =>
    simp only [diffArraysFrom, diffArraysTail_eq, List.length_nil, Nat.zero_max,
      List.getElem?_nil]
    congr 1
    funext j
    cases bs[j]? <;> rfl
  | cons x as ih =>
    cases bs with
    | nil =>
      have h := ih (i + 1) []
      simp only [List.length_nil, Nat.max_zero, List.getElem?_nil] at h
      simp only [List.length_nil, Nat.max_zero, List.length_cons]
      rw [range_flatMap_succ]
      simp only [diffArraysFrom, h, List.getElem?_cons_zero, List.getElem?_cons_succ,
        Nat.add_zero, List.singleton_append, Nat.add_assoc, Nat.add_comm 1,
        List.getElem?_nil]
    | cons y bs =>
      have h := ih (i + 1) bs
      simp only [List.length_cons, Nat.succ_max_succ]
      rw [range_flatMap_succ]
      simp only [diffArraysFrom, h, List.getElem?_cons_zero, List.getElem?_cons_succ,
        Nat.add_zero, Nat.add_assoc, Nat.add_comm 1]

theorem diffArrays_eq (a b : List JSON) (file1 file2 pfx : String) (ig : Bool) :
    diffArrays a b file1 file2 pfx ig =
      (List.range (max a.length b.length)).flatMap (arrayLoopBody a b file1 file2 pfx ig) := by
  rw [diffArrays, diffArraysFrom_eq]
  congr 1
  funext j
  simp only [arrayLoopBody, Nat.zero_add]

/-! ## The type switch of `diffJSONWithOptions` -/

theorem diffJSONWithOptions_of_not_complex {a : JSON} (ha : isComplexType a = false)
    (b : JSON) (file1 file2 pfx : String) (ig : Bool) :
    diffJSONWithOptions a b file1 file2 pfx ig =
      if deepEqual a b = true then [] else [⟨pfx ++ "root", "changed", file1, a, b⟩] := by
  cases a <;> first
    | (simp [isComplexType] at ha; done)
    | (cases h : deepEqual _ b <;> simp [diffJSONWithOptions, h])

theorem diffJSONWithOptions_obj_of_not_obj (a : List (String × JSON)) {b : JSON}
    (hb : ∀ m, b ≠ .obj m) (file1 file2 pfx : String) (ig : Bool) :
    diffJSONWithOptions (.obj a) b file1 file2 pfx ig =
      [⟨pfx ++ "root", "type_mismatch", file1, .obj a, b⟩] := by
  cases b <;> first
    | (exact absurd rfl (hb _))
    | simp [diffJSONWithOptions]

theorem diffJSONWithOptions_arr_of_not_arr (a : List JSON) {b : JSON}
    (hb : ∀ xs, b ≠ .arr xs) (file1 file2 pfx : String) (ig : Bool) :
    diffJSONWithOptions (.arr a) b file1 file2 pfx ig =
      [⟨pfx ++ "root", "type_mismatch", file1, .arr a, b⟩] := by
  cases b <;> first
    | (exact absurd rfl (hb _))
    | simp [diffJSONWithOptions]

theorem deepEqual_eq_of_not_complex {a b : JSON} (ha : isComplexType a = false) :
    deepEqual a b = true ↔ a = b := by
  cases a <;> cases b <;> simp_all [deepEqual, isComplexType]

/-! ## Reflexivity -/

theorem diffObjects_self (m : List (String × JSON)) (hnd : (m.map Prod.fst).Nodup)
    (hwf : ∀ kv ∈ m, wellFormed kv.2 = true) (file1 file2 pfx : String) (ig : Bool) :
    diffObjects m m file1 file2 pfx ig = [] := by
  rw [diffObjects_eq, List.append_eq_nil, List.flatMap_eq_nil_iff, List.flatMap_eq_nil_iff]
  constructor
  · intro kv hkv
    simp only [firstLoopBody, mapIndex_of_mem hnd hkv, deepEqual_refl kv.2 (hwf kv hkv),
      Bool.not_true, Bool.false_eq_true, if_false]
  · intro kv hkv
    simp only [secondLoopBody, mapIndex_of_mem hnd hkv]

theorem diffArrays_self (xs : List JSON) (hwf : ∀ x ∈ xs, wellFormed x = true)
    (file1 file2 pfx : String) (ig : Bool) :
    diffArrays xs xs file1 file2 pfx ig = [] := by
  rw [diffArrays_eq, List.flatMap_eq_nil_iff]
  intro i _
  unfold arrayLoopBody
  cases h : xs[i]? with
  | none => rfl
  | some x =>
    simp only [deepEqual_refl x (hwf x (List.getElem?_mem h)), Bool.not_true,
      Bool.false_eq_true, if_false]

theorem diffArraysIgnoreOrder_self (xs : List JSON) (hwf : ∀ x ∈ xs, wellFormed x = true)
    (file1 file2 pfx : String) (ig : Bool) :
    diffArraysIgnoreOrder xs xs file1 file2 pfx ig = [] := by
  have hall : ∀ m ∈ rankFlags xs [] xs, m = true := by
    rw [rankFlags_all_true xs xs [] hwf]
    intro v _ _
    rw [countEq_nil, Nat.zero_add]
  rw [diffArraysIgnoreOrder_eq xs xs hwf hwf, List.append_eq_nil,
    reportFirst_eq_nil _ _ _ _ _ (rankFlags_length _ _ _),
    reportSecond_eq_nil _ _ _ _ _ (rankFlags_length _ _ _)]
  exact ⟨hall, hall⟩

/-! ## Symmetry of detection -/

theorem deepEqual_false_of_complex_left {a b : JSON} (ha : isComplexType a = true)
    (hb : isComplexType b = false) : deepEqual a b = false := by
  cases a <;> cases b <;> simp_all [deepEqual, isComplexType]

theorem deepEqual_false_of_complex_right {a b : JSON} (ha : isComplexType a = false)
    (hb : isComplexType b = true) : deepEqual a b = false := by
  cases a <;> cases b <;> simp_all [deepEqual, isComplexType]

theorem mirror_first (k f g : String) (v : JSON) :
    Mirror ⟨k, "only_in_first", f, v, .null⟩ ⟨k, "only_in_second", g, .null, v⟩ :=
  ⟨rfl, rfl, rfl, fun _ => rfl, fun h => absurd (show "only_in_first" = "only_in_second" from h)
    (by decide)⟩

theorem mirror_second (k f g : String) (v : JSON) :
    Mirror ⟨k, "only_in_second", f, .null, v⟩ ⟨k, "only_in_first", g, v, .null⟩ :=
  ⟨rfl, rfl, rfl, fun h => absurd (show "only_in_second" = "only_in_first" from h) (by decide),
    fun _ => rfl⟩

theorem mirror_changed (k t f g : String) (u w : JSON) :
    Mirror ⟨k, "changed", f, u, w⟩ ⟨k, t, g, w, u⟩ :=
  ⟨rfl, rfl, rfl, fun h => absurd (show "changed" = "only_in_first" from h) (by decide),
    fun h => absurd (show "changed" = "only_in_second" from h) (by decide)⟩

theorem mirror_mismatch (k t f g : String) (u w : JSON) :
    Mirror ⟨k, "type_mismatch", f, u, w⟩ ⟨k, t, g, w, u⟩ :=
  ⟨rfl, rfl, rfl, fun h => absurd (show "type_mismatch" = "only_in_first" from h) (by decide),
    fun h => absurd (show "type_mismatch" = "only_in_second" from h) (by decide)⟩

theorem reportFirst_mirror (file1 file2 pfx : String) (i : Nat) (xs : List JSON)
    (ms : List Bool) :
    ∀ r ∈ reportFirst file1 pfx i xs ms, ∃ r' ∈ reportSecond file2 pfx i xs ms, Mirror r r' := by
  induction xs generalizing i ms with
  | nil => intro r hr; cases ms <;> simp [reportFirst] at hr
  | cons x xs ih =>
    cases ms with
    | nil => intro r hr; simp [reportFirst] at hr
    | cons m ms =>
      intro r hr
      simp only [reportFirst, reportSecond, List.mem_append] at hr ⊢
      rcases hr with hr | hr
      · cases m with
        | true => simp at hr
        | false =>
          simp only [Bool.not_false, if_true, List.mem_singleton] at hr
          subst hr
          exact ⟨⟨indexKey pfx i, "only_in_second", file2, .null, x⟩,
            Or.inl (by simp only [Bool.not_false, if_true, List.mem_singleton]),
            mirror_first _ _ _ _⟩
      · obtain ⟨r', hr', hm⟩ := ih (i + 1) ms r hr
        exact ⟨r', Or.inr hr', hm⟩

theorem reportSecond_mirror (file1 file2 pfx : String) (i : Nat) (xs : List JSON)
    (ms : List Bool) :
    ∀ r ∈ reportSecond file2 pfx i xs ms, ∃ r' ∈ reportFirst file1 pfx i xs ms, Mirror r r' := by
  induction xs generalizing i ms with
  | nil => intro r hr; cases ms <;> simp [reportSecond] at hr
  | cons x xs ih =>
    cases ms with
    | nil => intro r hr; simp [reportSecond] at hr
    | cons m ms =>
      intro r hr
      simp only [reportFirst, reportSecond, List.mem_append] at hr ⊢
      rcases hr with hr | hr
      · cases m with
        | true => simp at hr
        | false =>
          simp only [Bool.not_false, if_true, List.mem_singleton] at hr
          subst hr
          exact ⟨⟨indexKey pfx i, "only_in_first", file1, x, .null⟩,
            Or.inl (by simp only [Bool.not_false, if_true, List.mem_singleton]),
            mirror_second _ _ _ _⟩
      · obtain ⟨r', hr', hm⟩ := ih (i + 1) ms r hr
        exact ⟨r', Or.inr hr', hm⟩

theorem diffArraysIgnoreOrder_mirror (a b : List JSON) (ha : ∀ x ∈ a, wellFormed x = true)
    (hb : ∀ y ∈ b, wellFormed y = true) (f1 f2 g1 g2 pfx : String) (ig ig' : Bool) :
    ∀ r ∈ diffArraysIgnoreOrder a b f1 f2 pfx ig,
      ∃ r' ∈ diffArraysIgnoreOrder b a g1 g2 pfx ig', Mirror r r' := by
  intro r hr
  rw [diffArraysIgnoreOrder_eq a b ha hb, List.mem_append] at hr
  rw [diffArraysIgnoreOrder_eq b a hb ha]
  rcases hr with hr | hr
  · obtain ⟨r', hr', hm⟩ := reportFirst_mirror f1 g2 pfx 0 a _ r hr
    exact ⟨r', List.mem_append.2 (Or.inr hr'), hm⟩
  · obtain ⟨r', hr', hm⟩ := reportSecond_mirror g1 f2 pfx 0 b _ r hr
    exact ⟨r', List.mem_append.2 (Or.inl hr'), hm⟩

/-- One step of the positional loop mirrors, given that the recursive calls on
the elements of `a` do. -/
theorem diffArrays_mirror (a b : List JSON) (ha : ∀ x ∈ a, wellFormed x = true)
    (hb : ∀ y ∈ b, wellFormed y = true) (f1 f2 g1 g2 pfx : String) (ig : Bool)
    (ih : ∀ x ∈ a, ∀ y, wellFormed y = true → ∀ p,
      ∀ r ∈ diffJSONWithOptions x y f1 f2 p ig,
        ∃ r' ∈ diffJSONWithOptions y x g1 g2 p ig, Mirror r r') :
    ∀ r ∈ diffArrays a b f1 f2 pfx ig, ∃ r' ∈ diffArrays b a g1 g2 pfx ig, Mirror r r' := by
  intro r hr
  rw [diffArrays_eq, List.mem_flatMap] at hr
  obtain ⟨i, hi, hr⟩ := hr
  suffices h : ∃ r' ∈ arrayLoopBody b a g1 g2 pfx ig i, Mirror r r' by
    obtain ⟨r', hr', hm⟩ := h
    refine ⟨r', ?_, hm⟩
    rw [diffArrays_eq, List.mem_flatMap]
    exact ⟨i, by rw [Nat.max_comm]; exact hi, hr'⟩
  unfold arrayLoopBody at hr ⊢
  cases hx : a[i]? with
  | none =>
    cases hy : b[i]? with
    | none => simp [hx, hy] at hr
    | some y =>
      simp only [hx, hy, List.mem_singleton] at hr ⊢
      subst hr
      exact ⟨_, rfl, mirror_second _ _ _ _⟩
  | some x =>
    cases hy : b[i]? with
    | none =>
      simp only [hx, hy, List.mem_singleton] at hr ⊢
      subst hr
      exact ⟨_, rfl, mirror_first _ _ _ _⟩
    | some y =>
      have hwx := ha x (List.getElem?_mem hx)
      have hwy := hb y (List.getElem?_mem hy)
      simp only [hx, hy] at hr ⊢
      cases hd : deepEqual x y with
      | true => simp [hd] at hr
      | false =>
        have hd' : deepEqual y x = false := by rw [deepEqual_comm hwy hwx]; exact hd
        simp only [hd, hd', Bool.not_false, if_true] at hr ⊢
        exact ih x (List.getElem?_mem hx) y hwy _ r hr

theorem diffObjects_mirror (a b : List (String × JSON)) (hnda : (a.map Prod.fst).Nodup)
    (hwa : ∀ kv ∈ a, wellFormed kv.2 = true) (_hndb : (b.map Prod.fst).Nodup)
    (hwb : ∀ kv ∈ b, wellFormed kv.2 = true) (f1 f2 g1 g2 pfx : String) (ig : Bool)
    (ih : ∀ kv ∈ a, ∀ y, wellFormed y = true → ∀ p,
      ∀ r ∈ diffJSONWithOptions kv.2 y f1 f2 p ig,
        ∃ r' ∈ diffJSONWithOptions y kv.2 g1 g2 p ig, Mirror r r') :
    ∀ r ∈ diffObjects a b f1 f2 pfx ig, ∃ r' ∈ diffObjects b a g1 g2 pfx ig, Mirror r r' := by
  intro r hr
  rw [diffObjects_eq, List.mem_append, List.mem_flatMap, List.mem_flatMap] at hr
  rw [diffObjects_eq]
  rcases hr with ⟨kv, hkv, hr⟩ | ⟨kv, hkv, hr⟩
  · -- a record of the first loop, at an entry of `a`
    have hma : mapIndex a kv.1 = some kv.2 := mapIndex_of_mem hnda hkv
    unfold firstLoopBody at hr
    cases hmb : mapIndex b kv.1 with
    | none =>
      simp only [hmb, List.mem_singleton] at hr
      subst hr
      refine ⟨⟨pfx ++ kv.1, "only_in_second", g2, .null, kv.2⟩, ?_, mirror_first _ _ _ _⟩
      refine List.mem_append.2 (Or.inr (List.mem_flatMap.2 ⟨kv, hkv, ?_⟩))
      simp only [secondLoopBody, hmb, List.mem_singleton]
    | some vB =>
      have hmem : (kv.1, vB) ∈ b := mapIndex_mem hmb
      have hwA := hwa kv hkv
      have hwB : wellFormed vB = true := hwb _ hmem
      simp only [hmb] at hr
      cases hd : deepEqual kv.2 vB with
      | true => simp [hd] at hr
      | false =>
        have hd' : deepEqual vB kv.2 = false := by rw [deepEqual_comm hwB hwA]; exact hd
        simp only [hd, Bool.not_false, if_true] at hr
        suffices h : ∃ r' ∈ firstLoopBody a g1 g2 pfx ig (kv.1, vB), Mirror r r' by
          obtain ⟨r', hr', hm⟩ := h
          exact ⟨r', List.mem_append.2 (Or.inl (List.mem_flatMap.2 ⟨_, hmem, hr'⟩)), hm⟩
        simp only [firstLoopBody, hma, hd', Bool.not_false, if_true]
        cases hcA : isComplexType kv.2 <;> cases hcB : isComplexType vB <;>
          simp only [hcA, hcB, Bool.not_false, Bool.not_true, Bool.and_true, Bool.and_false,
            Bool.false_and, Bool.true_and, if_true, if_false, Bool.false_eq_true] at hr ⊢
        · simp only [List.mem_singleton] at hr ⊢
          subst hr
          exact ⟨_, rfl, mirror_changed _ _ _ _ _ _⟩
        · exact ih kv hkv vB hwB _ r hr
        · exact ih kv hkv vB hwB _ r hr
        · exact ih kv hkv vB hwB _ r hr
  · -- a record of the second loop, at an entry of `b` whose key `a` lacks
    unfold secondLoopBody at hr
    cases hma : mapIndex a kv.1 with
    | some vA => simp [hma] at hr
    | none =>
      simp only [hma, List.mem_singleton] at hr
      subst hr
      refine ⟨⟨pfx ++ kv.1, "only_in_first", g1, kv.2, .null⟩, ?_, mirror_second _ _ _ _⟩
      refine List.mem_append.2 (Or.inl (List.mem_flatMap.2 ⟨kv, hkv, ?_⟩))
      simp only [firstLoopBody, hma, List.mem_singleton]

/-- Every record of `diff(a, b)` has a mirror record in `diff(b, a)`. -/
theorem diffJSONWithOptions_mirror : ∀ a : JSON, wellFormed a = true → ∀ b : JSON,
    wellFormed b = true → ∀ (f1 f2 g1 g2 pfx : String) (ig : Bool),
    ∀ r ∈ diffJSONWithOptions a b f1 f2 pfx ig,
      ∃ r' ∈ diffJSONWithOptions b a g1 g2 pfx ig, Mirror r r' := by
  have hprim : ∀ a : JSON, isComplexType a = false → wellFormed a = true → ∀ b : JSON,
      wellFormed b = true → ∀ (f1 f2 g1 g2 pfx : String) (ig : Bool),
      ∀ r ∈ diffJSONWithOptions a b f1 f2 pfx ig,
        ∃ r' ∈ diffJSONWithOptions b a g1 g2 pfx ig, Mirror r r' := by
    intro a hca ha b hb f1 f2 g1 g2 pfx ig r hr
    rw [diffJSONWithOptions_of_not_complex hca] at hr
    cases hd : deepEqual a b with
    | true => simp [hd] at hr
    | false =>
      simp only [hd, Bool.false_eq_true, if_false, List.mem_singleton] at hr
      subst hr
      have hd' : deepEqual b a = false := by rw [deepEqual_comm hb ha]; exact hd
      cases hcb : isComplexType b with
      | false =>
        rw [diffJSONWithOptions_of_not_complex hcb]
        simp only [hd', Bool.false_eq_true, if_false, List.mem_singleton]
        exact ⟨_, rfl, mirror_changed _ _ _ _ _ _⟩
      | true =>
        cases b with
        | obj m =>
          rw [diffJSONWithOptions_obj_of_not_obj m
            (fun m' e => by rw [e] at hca; simp [isComplexType] at hca)]
          exact ⟨_, List.mem_singleton.2 rfl, mirror_changed _ _ _ _ _ _⟩
        | arr xs =>
          rw [diffJSONWithOptions_arr_of_not_arr xs
            (fun m' e => by rw [e] at hca; simp [isComplexType] at hca)]
          exact ⟨_, List.mem_singleton.2 rfl, mirror_changed _ _ _ _ _ _⟩
        | null => simp [isComplexType] at hcb
        | bool _ => simp [isComplexType] at hcb
        | num _ => simp [isComplexType] at hcb
        | str _ => simp [isComplexType] at hcb
  -- a mismatch record of a complex `a` against a `b` of another shape
  have hmis : ∀ (a b : JSON) (f1 g1 g2 pfx : String) (ig : Bool),
      isComplexType a = true → (∀ m, a = .obj m → ∀ m', b ≠ .obj m') →
      (∀ xs, a = .arr xs → ∀ ys, b ≠ .arr ys) →
      ∃ r' ∈ diffJSONWithOptions b a g1 g2 pfx ig,
        Mirror ⟨pfx ++ "root", "type_mismatch", f1, a, b⟩ r' := by
    intro a b f1 g1 g2 pfx ig hca hobj harr
    cases hcb : isComplexType b with
    | false =>
      rw [diffJSONWithOptions_of_not_complex hcb,
        deepEqual_false_of_complex_right hcb hca]
      exact ⟨_, List.mem_singleton.2 rfl, mirror_mismatch _ _ _ _ _ _⟩
    | true =>
      cases b with
      | obj m =>
        rw [diffJSONWithOptions_obj_of_not_obj m (fun m' e => hobj m' e m rfl)]
        exact ⟨_, List.mem_singleton.2 rfl, mirror_mismatch _ _ _ _ _ _⟩
      | arr xs =>
        rw [diffJSONWithOptions_arr_of_not_arr xs (fun m' e => harr m' e xs rfl)]
        exact ⟨_, List.mem_singleton.2 rfl, mirror_mismatch _ _ _ _ _ _⟩
      | null => simp [isComplexType] at hcb
      | bool _ => simp [isComplexType] at hcb
      | num _ => simp [isComplexType] at hcb
      | str _ => simp [isComplexType] at hcb
  intro a
  induction a using JSON.induct with
  | hnull => exact hprim _ rfl
  | hbool x => exact hprim _ rfl
  | hnum x => exact hprim _ rfl
  | hstr x => exact hprim _ rfl
  | harr xs ih =>
    intro ha b hb f1 f2 g1 g2 pfx ig r hr
    by_cases hbarr : ∃ ys, b = .arr ys
    · obtain ⟨ys, rfl⟩ := hbarr
      rw [wellFormed_arr] at ha hb
      rw [diffJSONWithOptions_arr] at hr ⊢
      cases ig with
      | true =>
        simp only [if_true] at hr ⊢
        exact diffArraysIgnoreOrder_mirror xs ys ha hb f1 f2 g1 g2 pfx _ _ r hr
      | false =>
        simp only [Bool.false_eq_true, if_false] at hr ⊢
        exact diffArrays_mirror xs ys ha hb f1 f2 g1 g2 pfx false
          (fun x hx y hy p => ih x hx (ha x hx) y hy f1 f2 g1 g2 p false) r hr
    · have hb' : ∀ ys, b ≠ .arr ys := fun ys e => hbarr ⟨ys, e⟩
      rw [diffJSONWithOptions_arr_of_not_arr xs hb', List.mem_singleton] at hr
      subst hr
      exact hmis (.arr xs) b f1 g1 g2 pfx ig rfl (fun m e => by cases e)
        (fun xs' _ ys => hb' ys)
  | hobj m ih =>
    intro ha b hb f1 f2 g1 g2 pfx ig r hr
    by_cases hbobj : ∃ m', b = .obj m'
    · obtain ⟨m', rfl⟩ := hbobj
      rw [wellFormed_obj] at ha hb
      rw [diffJSONWithOptions_obj] at hr ⊢
      exact diffObjects_mirror m m' ha.1 ha.2 hb.1 hb.2 f1 f2 g1 g2 pfx ig
        (fun kv hkv y hy p => ih kv hkv (ha.2 kv hkv) y hy f1 f2 g1 g2 p ig) r hr
    · have hb' : ∀ m', b ≠ .obj m' := fun m' e => hbobj ⟨m', e⟩
      rw [diffJSONWithOptions_obj_of_not_obj m hb', List.mem_singleton] at hr
      subst hr
      exact hmis (.obj m) b f1 g1 g2 pfx ig rfl (fun m1 _ m' => hb' m')
        (fun xs e => by cases e)

/-! ## Completeness of the positional mode -/

theorem diffArraysFrom_eq_nil_imp (f1 f2 pfx : String) (xs : List JSON)
    (ih : ∀ x ∈ xs, ∀ y, wellFormed y = true → ∀ p,
      diffJSONWithOptions x y f1 f2 p false = [] → deepEqual x y = true) :
    ∀ (i : Nat) (ys : List JSON), (∀ y ∈ ys, wellFormed y = true) →
      diffArraysFrom i xs ys f1 f2 pfx false = [] → deepEqualSlice xs ys = true := by
  induction xs with
  | nil =>
    intro i ys _ h
    cases ys with
    | nil => rfl
    | cons y ys => simp [diffArraysFrom, diffArraysTail] at h
  | cons x xs ihx =>
    intro i ys hys h
    cases ys with
    | nil => simp [diffArraysFrom] at h
    | cons y ys =>
      simp only [diffArraysFrom, List.append_eq_nil] at h
      simp only [deepEqualSlice, Bool.and_eq_true]
      refine ⟨?_, ihx (fun w hw => ih w (List.mem_cons_of_mem _ hw)) (i + 1) ys
        (fun w hw => hys w (List.mem_cons_of_mem _ hw)) h.2⟩
      cases hd : deepEqual x y with
      | true => rfl
      | false =>
        have h1 := h.1
        simp only [hd, Bool.not_false, if_true] at h1
        have := ih x (List.mem_cons_self _ _) y (hys y (List.mem_cons_self _ _)) _ h1
        rw [hd] at this
        exact this

/-- In positional mode an empty record list means the two values are
structurally equal. -/
theorem diffJSONWithOptions_complete : ∀ a : JSON, wellFormed a = true → ∀ b : JSON,
    wellFormed b = true → ∀ (f1 f2 pfx : String),
    diffJSONWithOptions a b f1 f2 pfx false = [] → deepEqual a b = true := by
  have hprim : ∀ a : JSON, isComplexType a = false → wellFormed a = true → ∀ b : JSON,
      wellFormed b = true → ∀ (f1 f2 pfx : String),
      diffJSONWithOptions a b f1 f2 pfx false = [] → deepEqual a b = true := by
    intro a hca _ b _ f1 f2 pfx h
    rw [diffJSONWithOptions_of_not_complex hca] at h
    cases hd : deepEqual a b with
    | true => rfl
    | false => simp [hd] at h
  intro a
  induction a using JSON.induct with
  | hnull => exact hprim _ rfl
  | hbool x => exact hprim _ rfl
  | hnum x => exact hprim _ rfl
  | hstr x => exact hprim _ rfl
  | harr xs ih =>
    intro ha b hb f1 f2 pfx h
    by_cases hbarr : ∃ ys, b = .arr ys
    · obtain ⟨ys, rfl⟩ := hbarr
      rw [wellFormed_arr] at ha hb
      rw [diffJSONWithOptions_arr] at h
      simp only [Bool.false_eq_true, if_false, diffArrays] at h
      rw [deepEqual_arr]
      exact diffArraysFrom_eq_nil_imp f1 f2 pfx xs
        (fun x hx y hy p => ih x hx (ha x hx) y hy f1 f2 p) 0 ys hb h
    · rw [diffJSONWithOptions_arr_of_not_arr xs (fun ys e => hbarr ⟨ys, e⟩)] at h
      simp at h
  | hobj m ih =>
    intro ha b hb f1 f2 pfx h
    by_cases hbobj : ∃ m', b = .obj m'
    · obtain ⟨m', rfl⟩ := hbobj
      rw [wellFormed_obj] at ha hb
      rw [diffJSONWithOptions_obj, diffObjects_eq, List.append_eq_nil,
        List.flatMap_eq_nil_iff, List.flatMap_eq_nil_iff] at h
      have hfirst : ∀ kv ∈ m, ∃ v2, mapIndex m' kv.1 = some v2 ∧ deepEqual kv.2 v2 = true := by
        intro kv hkv
        have h1 := h.1 kv hkv
        unfold firstLoopBody at h1
        cases hm : mapIndex m' kv.1 with
        | none => simp [hm] at h1
        | some vB =>
          refine ⟨vB, rfl, ?_⟩
          simp only [hm] at h1
          cases hd : deepEqual kv.2 vB with
          | true => rfl
          | false =>
            simp only [hd, Bool.not_false, if_true] at h1
            split at h1
            · simp at h1
            · have := ih kv hkv (ha.2 kv hkv) vB (hb.2 _ (mapIndex_mem hm)) f1 f2 _ h1
              rw [hd] at this
              exact this
      have hsub : m'.map Prod.fst ⊆ m.map Prod.fst := by
        intro k hk
        obtain ⟨kv, hkv, rfl⟩ := List.mem_map.1 hk
        have h2 := h.2 kv hkv
        unfold secondLoopBody at h2
        cases hm : mapIndex m kv.1 with
        | none => simp [hm] at h2
        | some vA => exact List.mem_map.2 ⟨(kv.1, vA), mapIndex_mem hm, rfl⟩
      rw [deepEqual_obj]
      refine ⟨?_, hfirst⟩
      have hp : (m.map Prod.fst).Perm (m'.map Prod.fst) :=
        (List.subperm_of_subset ha.1 (keys_subset_of_deepEqualMap hfirst)).antisymm
          (List.subperm_of_subset hb.1 hsub)
      simpa using hp.length_eq
    · rw [diffJSONWithOptions_obj_of_not_obj m (fun m' e => hbobj ⟨m', e⟩)] at h
      simp at h

/-! ## The records of a key -/

theorem mem_diffObjects_iff (a b : List (String × JSON)) (hnda : (a.map Prod.fst).Nodup)
    (hndb : (b.map Prod.fst).Nodup) (f1 f2 pfx : String) (ig : Bool) (r : DiffResult) :
    r ∈ diffObjects a b f1 f2 pfx ig ↔
      ∃ k, (k ∈ a.map Prod.fst ∨ k ∈ b.map Prod.fst) ∧ r ∈ keyRecords a b f1 f2 pfx ig k := by
  rw [diffObjects_eq, List.mem_append, List.mem_flatMap, List.mem_flatMap]
  constructor
  · rintro (⟨⟨k, v⟩, hkv, hr⟩ | ⟨⟨k, v⟩, hkv, hr⟩)
    · refine ⟨k, Or.inl (List.mem_map.2 ⟨(k, v), hkv, rfl⟩), ?_⟩
      simp only [keyRecords, mapIndex_of_mem hnda hkv, List.mem_append]
      exact Or.inl hr
    · refine ⟨k, Or.inr (List.mem_map.2 ⟨(k, v), hkv, rfl⟩), ?_⟩
      simp only [keyRecords, mapIndex_of_mem hndb hkv, List.mem_append]
      exact Or.inr hr
  · rintro ⟨k, _, hr⟩
    simp only [keyRecords, List.mem_append] at hr
    rcases hr with hr | hr
    · cases hm : mapIndex a k with
      | none => simp [hm] at hr
      | some vA =>
        simp only [hm] at hr
        exact Or.inl ⟨(k, vA), mapIndex_mem hm, hr⟩
    · cases hm : mapIndex b k with
      | none => simp [hm] at hr
      | some vB =>
        simp only [hm] at hr
        exact Or.inr ⟨(k, vB), mapIndex_mem hm, hr⟩

theorem keyRecords_one_sided_first (a b : List (String × JSON)) (f1 f2 pfx : String)
    (ig : Bool) {k : String} {vA : JSON} (hA : mapIndex a k = some vA)
    (hB : mapIndex b k = none) :
    keyRecords a b f1 f2 pfx ig k = [⟨pfx ++ k, "only_in_first", f1, vA, .null⟩] := by
  simp only [keyRecords, hA, hB, firstLoopBody, List.append_nil]

theorem keyRecords_one_sided_second (a b : List (String × JSON)) (f1 f2 pfx : String)
    (ig : Bool) {k : String} {vB : JSON} (hA : mapIndex a k = none)
    (hB : mapIndex b k = some vB) :
    keyRecords a b f1 f2 pfx ig k = [⟨pfx ++ k, "only_in_second", f2, .null, vB⟩] := by
  simp only [keyRecords, hA, hB, secondLoopBody, List.nil_append]

theorem keyRecords_both (a b : List (String × JSON)) (f1 f2 pfx : String)
    (ig : Bool) {k : String} {vA vB : JSON} (hA : mapIndex a k = some vA)
    (hB : mapIndex b k = some vB) :
    keyRecords a b f1 f2 pfx ig k =
      if deepEqual vA vB = true then []
      else if isComplexType vA = false ∧ isComplexType vB = false then
        [⟨pfx ++ k, "changed", f1, vA, vB⟩]
      else diffJSONWithOptions vA vB f1 f2 (pfx ++ k ++ ".") ig := by
  simp only [keyRecords, hA, hB, firstLoopBody, secondLoopBody, List.append_nil]
  cases deepEqual vA vB <;> cases isComplexType vA <;> cases isComplexType vB <;> simp

theorem diffJSONWithOptions_ne_nil_of_shape {vA vB : JSON}
    (hd : deepEqual vA vB = false)
    (hc : isComplexType vA = false ∨ isComplexType vB = false)
    (f1 f2 pfx : String) (ig : Bool) :
    diffJSONWithOptions vA vB f1 f2 pfx ig ≠ [] := by
  cases hcA : isComplexType vA with
  | false =>
    rw [diffJSONWithOptions_of_not_complex hcA]
    simp [hd]
  | true =>
    have hcB : isComplexType vB = false := by
      rcases hc with h | h
      · rw [hcA] at h; cases h
      · exact h
    cases vA with
    | obj m =>
      rw [diffJSONWithOptions_obj_of_not_obj m
        (fun m' e => by rw [e] at hcB; simp [isComplexType] at hcB)]
      simp
    | arr xs =>
      rw [diffJSONWithOptions_arr_of_not_arr xs
        (fun m' e => by rw [e] at hcB; simp [isComplexType] at hcB)]
      simp
    | null => simp [isComplexType] at hcA
    | bool _ => simp [isComplexType] at hcA
    | num _ => simp [isComplexType] at hcA
    | str _ => simp [isComplexType] at hcA

/-! ## Structurally equal values yield no record -/

theorem diffArraysFrom_eq_nil_of_deepEqualSlice (f1 f2 pfx : String) (ig : Bool)
    (xs : List JSON) : ∀ (i : Nat) (ys : List JSON), deepEqualSlice xs ys = true →
      diffArraysFrom i xs ys f1 f2 pfx ig = [] := by
  induction xs with
  | nil =>
    intro i ys h
    cases ys with
    | nil => simp [diffArraysFrom, diffArraysTail]
    | cons y ys => simp [deepEqualSlice] at h
  | cons x xs ih =>
    intro i ys h
    cases ys with
    | nil => simp [deepEqualSlice] at h
    | cons y ys =>
      simp only [deepEqualSlice, Bool.and_eq_true] at h
      simp only [diffArraysFrom, h.1, Bool.not_true, Bool.false_eq_true, if_false,
        List.nil_append, ih (i + 1) ys h.2]

theorem deepEqual_congr_right {a b c : JSON} (ha : wellFormed a = true)
    (hb : wellFormed b = true) (hc : wellFormed c = true) (hab : deepEqual a b = true) :
    deepEqual c a = deepEqual c b := by
  rw [deepEqual_comm hc ha, deepEqual_comm hc hb]
  exact deepEqual_congr_left ha hb hab

theorem countEq_eq_of_deepEqualSlice {v : JSON} (hv : wellFormed v = true) (xs : List JSON) :
    ∀ ys : List JSON, (∀ x ∈ xs, wellFormed x = true) → (∀ y ∈ ys, wellFormed y = true) →
      deepEqualSlice xs ys = true → countEq v xs = countEq v ys := by
  induction xs with
  | nil =>
    intro ys _ _ h
    cases ys with
    | nil => rfl
    | cons y ys => simp [deepEqualSlice] at h
  | cons x xs ih =>
    intro ys hxs hys h
    cases ys with
    | nil => simp [deepEqualSlice] at h
    | cons y ys =>
      simp only [deepEqualSlice, Bool.and_eq_true] at h
      rw [countEq_cons, countEq_cons,
        ih ys (fun w hw => hxs w (List.mem_cons_of_mem _ hw))
          (fun w hw => hys w (List.mem_cons_of_mem _ hw)) h.2,
        deepEqual_congr_right (hxs x (List.mem_cons_self _ _))
          (hys y (List.mem_cons_self _ _)) hv h.1]

/-- The criterion for an empty result of `diffArraysIgnoreOrder`: equal
multiplicities up to structural equality. -/
theorem diffArraysIgnoreOrder_eq_nil_iff_count (A B : List JSON)
    (hA : ∀ x ∈ A, wellFormed x = true) (hB : ∀ y ∈ B, wellFormed y = true)
    (f1 f2 pfx : String) (ig : Bool) :
    diffArraysIgnoreOrder A B f1 f2 pfx ig = [] ↔
      ∀ v, wellFormed v = true → countEq v A = countEq v B := by
  rw [diffArraysIgnoreOrder_eq A B hA hB, List.append_eq_nil,
    reportFirst_eq_nil _ _ _ _ _ (rankFlags_length _ _ _),
    reportSecond_eq_nil _ _ _ _ _ (rankFlags_length _ _ _),
    rankFlags_all_true B A [] hA, rankFlags_all_true A B [] hB]
  simp only [countEq_nil, Nat.zero_add]
  constructor
  · rintro ⟨h1, h2⟩ v hv
    have := h1 v hv
    have := h2 v hv
    omega
  · intro h
    exact ⟨fun v hv _ => le_of_eq (h v hv), fun v hv _ => le_of_eq (h v hv).symm⟩

/-- Structurally equal values yield no record, in both array modes. -/
theorem diffJSONWithOptions_eq_nil_of_deepEqual (a b : JSON) (ha : wellFormed a = true)
    (hb : wellFormed b = true) (f1 f2 pfx : String) (ig : Bool)
    (h : deepEqual a b = true) : diffJSONWithOptions a b f1 f2 pfx ig = [] := by
  cases hca : isComplexType a with
  | false => rw [diffJSONWithOptions_of_not_complex hca, if_pos h]
  | true =>
    cases a with
    | arr xs =>
      cases b with
      | arr ys =>
        rw [wellFormed_arr] at ha hb
        rw [deepEqual_arr] at h
        rw [diffJSONWithOptions_arr]
        split
        · rw [diffArraysIgnoreOrder_eq_nil_iff_count xs ys ha hb]
          exact fun v hv => countEq_eq_of_deepEqualSlice hv xs ys ha hb h
        · exact diffArraysFrom_eq_nil_of_deepEqualSlice f1 f2 pfx ig xs 0 ys h
      | null => simp [deepEqual] at h
      | bool _ => simp [deepEqual] at h
      | num _ => simp [deepEqual] at h
      | str _ => simp [deepEqual] at h
      | obj _ => simp [deepEqual] at h
    | obj m =>
      cases b with
      | obj m' =>
        rw [wellFormed_obj] at ha hb
        rw [deepEqual_obj] at h
        rw [diffJSONWithOptions_obj, diffObjects_eq, List.append_eq_nil,
          List.flatMap_eq_nil_iff, List.flatMap_eq_nil_iff]
        constructor
        · intro kv hkv
          obtain ⟨v2, hm, hv⟩ := h.2 kv hkv
          simp only [firstLoopBody, hm, hv, Bool.not_true, Bool.false_eq_true, if_false]
        · intro kv hkv
          have hsub := keys_subset_of_length_le ha.1 (keys_subset_of_deepEqualMap h.2)
            (le_of_eq h.1.symm)
          obtain ⟨v, hv⟩ := mapIndex_isSome_of_key (hsub (List.mem_map_of_mem Prod.fst hkv))
          simp only [secondLoopBody, hv]
      | null => simp [deepEqual] at h
      | bool _ => simp [deepEqual] at h
      | num _ => simp [deepEqual] at h
      | str _ => simp [deepEqual] at h
      | arr _ => simp [deepEqual] at h
    | null => simp [isComplexType] at hca
    | bool _ => simp [isComplexType] at hca
    | num _ => simp [isComplexType] at hca
    | str _ => simp [isComplexType] at hca

theorem keyRecords_subset (a b : List (String × JSON)) (f1 f2 pfx : String) (ig : Bool)
    (k : String) : ∀ r ∈ keyRecords a b f1 f2 pfx ig k, r ∈ diffObjects a b f1 f2 pfx ig := by
  intro r hr
  rw [diffObjects_eq, List.mem_append, List.mem_flatMap, List.mem_flatMap]
  simp only [keyRecords, List.mem_append] at hr
  rcases hr with hr | hr
  · cases hm : mapIndex a k with
    | none => simp [hm] at hr
    | some vA =>
      simp only [hm] at hr
      exact Or.inl ⟨(k, vA), mapIndex_mem hm, hr⟩
  · cases hm : mapIndex b k with
    | none => simp [hm] at hr
    | some vB =>
      simp only [hm] at hr
      exact Or.inr ⟨(k, vB), mapIndex_mem hm, hr⟩

theorem diffObjectsSecond_eq_filter (a b : List (String × JSON)) (file2 pfx : String) :
    diffObjectsSecond a file2 pfx b =
      (b.filter (fun kv => (mapIndex a kv.1).isNone)).map
        (fun kv => (⟨pfx ++ kv.1, "only_in_second", file2, .null, kv.2⟩ : DiffResult)) := by
  induction b with
  | nil => rfl
  | cons e rest ih =>
    obtain ⟨k, vB⟩ := e
    cases hm : mapIndex a k with
    | none => simp [diffObjectsSecond, hm, ih, List.filter_cons]
    | some vA => simp [diffObjectsSecond, hm, ih, List.filter_cons]

/-! ## Counting the records of `diffArraysIgnoreOrder` -/

theorem countP_reportFirst (v : JSON) (hv : wellFormed v = true) (file1 pfx : String)
    (other : List JSON) (ys : List JSON) (hys : ∀ y ∈ ys, wellFormed y = true) :
    ∀ (i : Nat) (seen : List JSON),
      (reportFirst file1 pfx i ys (rankFlags other seen ys)).countP
          (fun r => r.Typ == "only_in_first" && deepEqual v r.Value1) =
        (countEq v seen + countEq v ys - countEq v other)
          - (countEq v seen - countEq v other) := by
  induction ys with
  | nil => intro i seen; simp [reportFirst, rankFlags, countEq_nil]
  | cons y ys ih =>
    intro i seen
    have hy := hys y (List.mem_cons_self _ _)
    have ih' := ih (fun z hz => hys z (List.mem_cons_of_mem _ hz)) (i + 1) (y :: seen)
    simp only [rankFlags, reportFirst, List.countP_append, ih']
    cases hvy : deepEqual v y with
    | true =>
      have e := countEq_congr hv hy hvy
      rw [countEq_cons_of_eq _ hvy, countEq_cons_of_eq _ hvy, ← e seen, ← e other]
      by_cases hlt : countEq v seen < countEq v other
      · simp only [hlt, decide_True, Bool.not_true, Bool.false_eq_true, if_false,
          List.countP_nil]
        omega
      · simp only [hlt, decide_False, Bool.not_false, if_true, List.countP_cons,
          List.countP_nil, hvy, beq_self_eq_true, Bool.and_self, Nat.zero_add]
        omega
    | false =>
      rw [countEq_cons_of_ne _ hvy, countEq_cons_of_ne _ hvy]
      by_cases hlt : countEq y seen < countEq y other
      · simp only [hlt, decide_True, Bool.not_true, Bool.false_eq_true, if_false,
          List.countP_nil]
        omega
      · simp only [hlt, decide_False, Bool.not_false, if_true, List.countP_cons,
          List.countP_nil, hvy, Bool.and_false, Bool.false_eq_true, if_false]
        omega

theorem countP_reportSecond (v : JSON) (hv : wellFormed v = true) (file2 pfx : String)
    (other : List JSON) (ys : List JSON) (hys : ∀ y ∈ ys, wellFormed y = true) :
    ∀ (i : Nat) (seen : List JSON),
      (reportSecond file2 pfx i ys (rankFlags other seen ys)).countP
          (fun r => r.Typ == "only_in_second" && deepEqual v r.Value2) =
        (countEq v seen + countEq v ys - countEq v other)
          - (countEq v seen - countEq v other) := by
  induction ys with
  | nil => intro i seen; simp [reportSecond, rankFlags, countEq_nil]
  | cons y ys ih =>
    intro i seen
    have hy := hys y (List.mem_cons_self _ _)
    have ih' := ih (fun z hz => hys z (List.mem_cons_of_mem _ hz)) (i + 1) (y :: seen)
    simp only [rankFlags, reportSecond, List.countP_append, ih']
    cases hvy : deepEqual v y with
    | true =>
      have e := countEq_congr hv hy hvy
      rw [countEq_cons_of_eq _ hvy, countEq_cons_of_eq _ hvy, ← e seen, ← e other]
      by_cases hlt : countEq v seen < countEq v other
      · simp only [hlt, decide_True, Bool.not_true, Bool.false_eq_true, if_false,
          List.countP_nil]
        omega
      · simp only [hlt, decide_False, Bool.not_false, if_true, List.countP_cons,
          List.countP_nil, hvy, beq_self_eq_true, Bool.and_self, Nat.zero_add]
        omega
    | false =>
      rw [countEq_cons_of_ne _ hvy, countEq_cons_of_ne _ hvy]
      by_cases hlt : countEq y seen < countEq y other
      · simp only [hlt, decide_True, Bool.not_true, Bool.false_eq_true, if_false,
          List.countP_nil]
        omega
      · simp only [hlt, decide_False, Bool.not_false, if_true, List.countP_cons,
          List.countP_nil, hvy, Bool.and_false, Bool.false_eq_true, if_false]
        omega

theorem reportFirst_typ (file1 pfx : String) (xs : List JSON) :
    ∀ (i : Nat) (ms : List Bool), ∀ r ∈ reportFirst file1 pfx i xs ms,
      r.Typ = "only_in_first" := by
  induction xs with
  | nil => intro i ms r hr; cases ms <;> simp [reportFirst] at hr
  | cons x xs ih =>
    intro i ms r hr
    cases ms with
    | nil => simp [reportFirst] at hr
    | cons m ms =>
      simp only [reportFirst, List.mem_append] at hr
      rcases hr with hr | hr
      · cases m with
        | true => simp at hr
        | false =>
          simp only [Bool.not_false, if_true, List.mem_singleton] at hr
          rw [hr]
      · exact ih (i + 1) ms r hr

theorem reportSecond_typ (file2 pfx : String) (xs : List JSON) :
    ∀ (i : Nat) (ms : List Bool), ∀ r ∈ reportSecond file2 pfx i xs ms,
      r.Typ = "only_in_second" := by
  induction xs with
  | nil => intro i ms r hr; cases ms <;> simp [reportSecond] at hr
  | cons x xs ih =>
    intro i ms r hr
    cases ms with
    | nil => simp [reportSecond] at hr
    | cons m ms =>
      simp only [reportSecond, List.mem_append] at hr
      rcases hr with hr | hr
      · cases m with
        | true => simp at hr
        | false =>
          simp only [Bool.not_false, if_true, List.mem_singleton] at hr
          rw [hr]
      · exact ih (i + 1) ms r hr

theorem countP_eq_zero_of_typ {l : List DiffResult} {t t' : String} (ht : t ≠ t')
    (h : ∀ r ∈ l, r.Typ = t) (q : DiffResult → Bool) :
    l.countP (fun r => r.Typ == t' && q r) = 0 := by
  rw [List.countP_eq_zero]
  intro r hr
  simp [h r hr, ht]

theorem countEq_multisetInterFrom (v : JSON) (hv : wellFormed v = true) (B : List JSON)
    (xs : List JSON) (hxs : ∀ x ∈ xs, wellFormed x = true) :
    ∀ seen : List JSON,
      countEq v (multisetInterFrom B seen xs) =
        min (countEq v seen + countEq v xs) (countEq v B) - min (countEq v seen) (countEq v B) := by
  induction xs with
  | nil => intro seen; simp [multisetInterFrom, countEq_nil]
  | cons x xs ih =>
    intro seen
    have hx := hxs x (List.mem_cons_self _ _)
    have ih' := ih (fun z hz => hxs z (List.mem_cons_of_mem _ hz)) (x :: seen)
    simp only [multisetInterFrom]
    cases hvx : deepEqual v x with
    | true =>
      have e := countEq_congr hv hx hvx
      rw [countEq_cons_of_eq _ hvx] at ih' ⊢
      rw [← e seen, ← e B]
      by_cases hlt : countEq v seen < countEq v B
      · rw [if_pos hlt, countEq_cons_of_eq _ hvx, ih']
        omega
      · rw [if_neg hlt, ih']
        omega
    | false =>
      rw [countEq_cons_of_ne _ hvx] at ih' ⊢
      by_cases hlt : countEq x seen < countEq x B
      · rw [if_pos hlt, countEq_cons_of_ne _ hvx, ih']
      · rw [if_neg hlt, ih']

theorem length_multisetInterFrom (B : List JSON) (xs : List JSON) :
    ∀ seen : List JSON,
      (multisetInterFrom B seen xs).length = (rankFlags B seen xs).count true := by
  induction xs with
  | nil => intro seen; rfl
  | cons x xs ih =>
    intro seen
    simp only [multisetInterFrom, rankFlags]
    by_cases hlt : countEq x seen < countEq x B
    · simp [hlt, ih]
    · simp [hlt, ih]

theorem length_reportFirst (file1 pfx : String) (xs : List JSON) :
    ∀ (i : Nat) (ms : List Bool), ms.length = xs.length →
      (reportFirst file1 pfx i xs ms).length + ms.count true = xs.length := by
  induction xs with
  | nil => intro i ms h; cases ms <;> simp_all [reportFirst]
  | cons x xs ih =>
    intro i ms h
    cases ms with
    | nil => simp at h
    | cons m ms =>
      have := ih (i + 1) ms (by simpa using h)
      cases m <;> simp [reportFirst] <;> omega

theorem length_reportSecond (file2 pfx : String) (xs : List JSON) :
    ∀ (i : Nat) (ms : List Bool), ms.length = xs.length →
      (reportSecond file2 pfx i xs ms).length + ms.count true = xs.length := by
  induction xs with
  | nil => intro i ms h; cases ms <;> simp_all [reportSecond]
  | cons x xs ih =>
    intro i ms h
    cases ms with
    | nil => simp at h
    | cons m ms =>
      have := ih (i + 1) ms (by simpa using h)
      cases m <;> simp [reportSecond] <;> omega

theorem scanB_count {x : JSON} (bs : List JSON) :
    ∀ (ms ms' : List Bool), scanB x bs ms = some ms' →
      ms'.count true = ms.count true + 1 := by
  induction bs with
  | nil => intro ms ms' h; cases ms <;> simp [scanB] at h
  | cons y bs ih =>
    intro ms ms' h
    cases ms with
    | nil => simp [scanB] at h
    | cons m ms =>
      simp only [scanB] at h
      split at h
      · rename_i hc
        simp only [Bool.and_eq_true, Bool.not_eq_true'] at hc
        cases h
        simp [hc.1]
      · cases hs : scanB x bs ms with
        | none => simp [hs] at h
        | some ms1 =>
          simp only [hs, Option.map_some', Option.some.injEq] at h
          subst h
          have := ih ms ms1 hs
          cases m <;> simp [this]

/-- Every match of the outer loop sets one flag on each side. -/
theorem findMatches_count (b : List JSON) (xs : List JSON) :
    ∀ mB : List Bool,
      (findMatches b xs mB).1.count true + mB.count true =
        (findMatches b xs mB).2.count true := by
  induction xs with
  | nil => intro mB; simp [findMatches]
  | cons x xs ih =>
    intro mB
    cases hs : scanB x b mB with
    | none =>
      have := ih mB
      simp only [findMatches, hs]
      simpa using this
    | some mB' =>
      have h1 := ih mB'
      have h2 := scanB_count b mB mB' hs
      simp only [findMatches, hs]
      simp only [List.count_cons_self]
      omega

theorem rankFlags_count_comm (A B : List JSON) (hA : ∀ x ∈ A, wellFormed x = true)
    (hB : ∀ y ∈ B, wellFormed y = true) :
    (rankFlags B [] A).count true = (rankFlags A [] B).count true := by
  have h := findMatches_count B A (List.replicate B.length false)
  rw [findMatches_eq A B hA hB] at h
  have h0 : (List.replicate B.length false).count true = 0 := by
    rw [List.count_eq_zero]
    intro hm
    exact absurd (List.eq_of_mem_replicate hm) (by decide)
  rw [h0, Nat.add_zero] at h
  exact h

/-! ## Independence from the order in which maps are ranged over -/

theorem SameRecords.nil : SameRecords [] [] :=
  ⟨[], List.Perm.refl _, List.Forall₂.nil⟩

theorem SameRecords.of_forall₂ {l l' : List DiffResult} (h : List.Forall₂ SameRecord l l') :
    SameRecords l l' :=
  ⟨l, List.Perm.refl _, h⟩

theorem SameRecords.single {r r' : DiffResult} (h : SameRecord r r') :
    SameRecords [r] [r'] :=
  SameRecords.of_forall₂ (List.Forall₂.cons h List.Forall₂.nil)

theorem SameRecords.append {l1 l1' l2 l2' : List DiffResult} (h1 : SameRecords l1 l1')
    (h2 : SameRecords l2 l2') : SameRecords (l1 ++ l2) (l1' ++ l2') := by
  obtain ⟨m1, hp1, hf1⟩ := h1
  obtain ⟨m2, hp2, hf2⟩ := h2
  exact ⟨m1 ++ m2, hp1.append hp2, List.rel_append hf1 hf2⟩

theorem SameRecords.perm_right {l l' l'' : List DiffResult} (h : SameRecords l l')
    (hp : l'.Perm l'') : SameRecords l l'' := by
  obtain ⟨m, hpm, hf⟩ := h
  have hc : Relation.Comp (List.Forall₂ SameRecord) List.Perm m l'' := ⟨l', hf, hp⟩
  rw [List.forall₂_comp_perm_eq_perm_comp_forall₂] at hc
  obtain ⟨w, hmw, hw⟩ := hc
  exact ⟨w, hmw.symm.trans hpm, hw⟩

theorem SameRecords.flatMap {α : Type} {R : α → α → Prop} {l l' : List α}
    {F F' : α → List DiffResult} (h : List.Forall₂ R l l')
    (hF : ∀ x y, x ∈ l → y ∈ l' → R x y → SameRecords (F x) (F' y)) :
    SameRecords (l.flatMap F) (l'.flatMap F') := by
  induction h with
  | nil => exact SameRecords.nil
  | cons hxy _ ih =>
    rw [List.flatMap_cons, List.flatMap_cons]
    exact SameRecords.append
      (hF _ _ (List.mem_cons_self _ _) (List.mem_cons_self _ _) hxy)
      (ih (fun x y hx hy => hF x y (List.mem_cons_of_mem _ hx) (List.mem_cons_of_mem _ hy)))

theorem isComplexType_eq_of_deepEqual {a b : JSON} (h : deepEqual a b = true) :
    isComplexType a = isComplexType b := by
  cases a <;> cases b <;> simp_all [deepEqual, isComplexType]

/-- The entries of a structurally equal object, rearranged in the order of the
entries of the first. -/
theorem exists_aligned_entries {m m' : List (String × JSON)}
    (hm : (m.map Prod.fst).Nodup)
    (h : deepEqual (.obj m) (.obj m') = true) :
    ∃ m'', m''.Perm m' ∧
      List.Forall₂ (fun kv kv' => kv.1 = kv'.1 ∧ deepEqual kv.2 kv'.2 = true) m m'' := by
  rw [deepEqual_obj] at h
  obtain ⟨hlen, hall⟩ := h
  have hex : ∀ kv ∈ m, ∃ kv' : String × JSON, kv' ∈ m' ∧ kv.1 = kv'.1 ∧
      deepEqual kv.2 kv'.2 = true := by
    intro kv hkv
    obtain ⟨v2, hv2, hd⟩ := hall kv hkv
    exact ⟨(kv.1, v2), mapIndex_mem hv2, rfl, hd⟩
  have hbuild : ∀ l : List (String × JSON), (∀ kv ∈ l, kv ∈ m) →
      ∃ l'' : List (String × JSON), (∀ kv' ∈ l'', kv' ∈ m') ∧
        l''.map Prod.fst = l.map Prod.fst ∧
        List.Forall₂ (fun kv kv' => kv.1 = kv'.1 ∧ deepEqual kv.2 kv'.2 = true) l l'' := by
    intro l
    induction l with
    | nil => intro _; exact ⟨[], by simp, rfl, List.Forall₂.nil⟩
    | cons e rest ih =>
      intro hsub
      obtain ⟨l'', h1, h2, h3⟩ := ih (fun kv hkv => hsub kv (List.mem_cons_of_mem _ hkv))
      obtain ⟨e', he', hk, hd⟩ := hex e (hsub e (List.mem_cons_self _ _))
      refine ⟨e' :: l'', ?_, ?_, List.Forall₂.cons ⟨hk, hd⟩ h3⟩
      · intro kv' hkv'
        rcases List.mem_cons.1 hkv' with hh | hh
        · rw [hh]; exact he'
        · exact h1 kv' hh
      · simp only [List.map_cons, h2, hk]
  obtain ⟨m'', hsub, hkeys, hf⟩ := hbuild m (fun _ h => h)
  refine ⟨m'', ?_, hf⟩
  have hnd : m''.Nodup := List.Nodup.of_map Prod.fst (by rw [hkeys]; exact hm)
  have hlen' : m'.length ≤ m''.length := by
    have := congrArg List.length hkeys
    simp only [List.length_map] at this
    omega
  exact (List.subperm_of_subset hnd hsub).perm_of_length_le hlen'

/-- Structurally equal objects answer every key alike. -/
theorem mapIndex_of_deepEqual {n n' : List (String × JSON)}
    (hn : (n.map Prod.fst).Nodup) (h : deepEqual (.obj n) (.obj n') = true) (k : String) :
    (mapIndex n k = none ∧ mapIndex n' k = none) ∨
      ∃ vB vB', mapIndex n k = some vB ∧ mapIndex n' k = some vB' ∧
        deepEqual vB vB' = true := by
  rw [deepEqual_obj] at h
  cases hk : mapIndex n k with
  | some vB =>
    obtain ⟨vB', h1, h2⟩ := h.2 (k, vB) (mapIndex_mem hk)
    exact Or.inr ⟨vB, vB', rfl, h1, h2⟩
  | none =>
    refine Or.inl ⟨rfl, ?_⟩
    rw [mapIndex_eq_none] at hk ⊢
    intro hmem
    exact hk (keys_subset_of_length_le hn (keys_subset_of_deepEqualMap h.2)
      (le_of_eq h.1.symm) hmem)

theorem deepEqual_congr_both {a a' b b' : JSON} (ha : wellFormed a = true)
    (ha' : wellFormed a' = true) (hb : wellFormed b = true) (hb' : wellFormed b' = true)
    (haa : deepEqual a a' = true) (hbb : deepEqual b b' = true) :
    deepEqual a b = deepEqual a' b' := by
  rw [deepEqual_congr_left ha ha' haa, deepEqual_congr_right hb hb' ha' hbb]

theorem countEq_congr_slice {x x' : JSON} (hx : wellFormed x = true)
    (hx' : wellFormed x' = true) (hxx : deepEqual x x' = true) {l l' : List JSON}
    (hl : ∀ y ∈ l, wellFormed y = true) (hl' : ∀ y ∈ l', wellFormed y = true)
    (hll : deepEqualSlice l l' = true) : countEq x l = countEq x' l' := by
  rw [countEq_congr hx hx' hxx l]
  exact countEq_eq_of_deepEqualSlice hx' l l' hl hl' hll

theorem rankFlags_congr_slice {other other' : List JSON}
    (ho : ∀ y ∈ other, wellFormed y = true) (ho' : ∀ y ∈ other', wellFormed y = true)
    (hoo : deepEqualSlice other other' = true) (xs : List JSON) :
    ∀ (xs' seen seen' : List JSON), (∀ y ∈ xs, wellFormed y = true) →
      (∀ y ∈ xs', wellFormed y = true) → (∀ y ∈ seen, wellFormed y = true) →
      (∀ y ∈ seen', wellFormed y = true) → deepEqualSlice xs xs' = true →
      deepEqualSlice seen seen' = true →
      rankFlags other seen xs = rankFlags other' seen' xs' := by
  induction xs with
  | nil =>
    intro xs' seen seen' _ _ _ _ h _
    cases xs' with
    | nil => rfl
    | cons y ys => simp [deepEqualSlice] at h
  | cons x xs ih =>
    intro xs' seen seen' hxs hxs' hs hs' h hss
    cases xs' with
    | nil => simp [deepEqualSlice] at h
    | cons x' xs' =>
      simp only [deepEqualSlice, Bool.and_eq_true] at h
      have hx := hxs x (List.mem_cons_self _ _)
      have hx' := hxs' x' (List.mem_cons_self _ _)
      simp only [rankFlags]
      rw [countEq_congr_slice hx hx' h.1 hs hs' hss,
        countEq_congr_slice hx hx' h.1 ho ho' hoo,
        ih xs' (x :: seen) (x' :: seen')
          (fun w hw => hxs w (List.mem_cons_of_mem _ hw))
          (fun w hw => hxs' w (List.mem_cons_of_mem _ hw))
          (fun w hw => by
            rcases List.mem_cons.1 hw with e | e
            · rw [e]; exact hx
            · exact hs w e)
          (fun w hw => by
            rcases List.mem_cons.1 hw with e | e
            · rw [e]; exact hx'
            · exact hs' w e)
          h.2 (by simp only [deepEqualSlice, h.1, hss, Bool.and_self])]

theorem reportFirst_same (file1 pfx : String) (xs : List JSON) :
    ∀ (xs' : List JSON) (i : Nat) (ms : List Bool), deepEqualSlice xs xs' = true →
      List.Forall₂ SameRecord (reportFirst file1 pfx i xs ms)
        (reportFirst file1 pfx i xs' ms) := by
  induction xs with
  | nil =>
    intro xs' i ms h
    cases xs' with
    | nil => cases ms <;> exact List.Forall₂.nil
    | cons y ys => simp [deepEqualSlice] at h
  | cons x xs ih =>
    intro xs' i ms h
    cases xs' with
    | nil => simp [deepEqualSlice] at h
    | cons x' xs' =>
      simp only [deepEqualSlice, Bool.and_eq_true] at h
      cases ms with
      | nil => exact List.Forall₂.nil
      | cons m ms =>
        simp only [reportFirst]
        refine List.rel_append ?_ (ih xs' (i + 1) ms h.2)
        cases m with
        | true => exact List.Forall₂.nil
        | false =>
          exact List.Forall₂.cons ⟨rfl, rfl, rfl, h.1, rfl⟩ List.Forall₂.nil

theorem reportSecond_same (file2 pfx : String) (xs : List JSON) :
    ∀ (xs' : List JSON) (i : Nat) (ms : List Bool), deepEqualSlice xs xs' = true →
      List.Forall₂ SameRecord (reportSecond file2 pfx i xs ms)
        (reportSecond file2 pfx i xs' ms) := by
  induction xs with
  | nil =>
    intro xs' i ms h
    cases xs' with
    | nil => cases ms <;> exact List.Forall₂.nil
    | cons y ys => simp [deepEqualSlice] at h
  | cons x xs ih =>
    intro xs' i ms h
    cases xs' with
    | nil => simp [deepEqualSlice] at h
    | cons x' xs' =>
      simp only [deepEqualSlice, Bool.and_eq_true] at h
      cases ms with
      | nil => exact List.Forall₂.nil
      | cons m ms =>
        simp only [reportSecond]
        refine List.rel_append ?_ (ih xs' (i + 1) ms h.2)
        cases m with
        | true => exact List.Forall₂.nil
        | false =>
          exact List.Forall₂.cons ⟨rfl, rfl, rfl, rfl, h.1⟩ List.Forall₂.nil

theorem diffArraysIgnoreOrder_same (a a' b b' : List JSON)
    (ha : ∀ x ∈ a, wellFormed x = true) (ha' : ∀ x ∈ a', wellFormed x = true)
    (hb : ∀ y ∈ b, wellFormed y = true) (hb' : ∀ y ∈ b', wellFormed y = true)
    (haa : deepEqualSlice a a' = true) (hbb : deepEqualSlice b b' = true)
    (f1 f2 pfx : String) (ig : Bool) :
    SameRecords (diffArraysIgnoreOrder a b f1 f2 pfx ig)
      (diffArraysIgnoreOrder a' b' f1 f2 pfx ig) := by
  have hnil : ∀ y ∈ ([] : List JSON), wellFormed y = true := by
    intro y hy; simp at hy
  rw [diffArraysIgnoreOrder_eq a b ha hb, diffArraysIgnoreOrder_eq a' b' ha' hb',
    rankFlags_congr_slice hb hb' hbb a a' [] [] ha ha' hnil hnil haa rfl,
    rankFlags_congr_slice ha ha' haa b b' [] [] hb hb' hnil hnil hbb rfl]
  exact SameRecords.of_forall₂
    (List.rel_append (reportFirst_same f1 pfx a a' 0 _ haa)
      (reportSecond_same f2 pfx b b' 0 _ hbb))

theorem diffArraysTail_same (file2 pfx : String) (ys : List JSON) :
    ∀ (ys' : List JSON) (i : Nat), deepEqualSlice ys ys' = true →
      List.Forall₂ SameRecord (diffArraysTail file2 pfx i ys) (diffArraysTail file2 pfx i ys') := by
  induction ys with
  | nil =>
    intro ys' i h
    cases ys' with
    | nil => exact List.Forall₂.nil
    | cons y ys => simp [deepEqualSlice] at h
  | cons y ys ih =>
    intro ys' i h
    cases ys' with
    | nil => simp [deepEqualSlice] at h
    | cons y' ys' =>
      simp only [deepEqualSlice, Bool.and_eq_true] at h
      simp only [diffArraysTail]
      exact List.Forall₂.cons ⟨rfl, rfl, rfl, rfl, h.1⟩ (ih ys' (i + 1) h.2)

theorem diffArraysFrom_same (f1 f2 pfx : String) (ig : Bool) (xs : List JSON)
    (ih : ∀ x ∈ xs, ∀ x' y y' : JSON, wellFormed x' = true → wellFormed y = true →
      wellFormed y' = true → deepEqual x x' = true → deepEqual y y' = true → ∀ p,
      SameRecords (diffJSONWithOptions x y f1 f2 p ig) (diffJSONWithOptions x' y' f1 f2 p ig)) :
    ∀ (xs' ys ys' : List JSON) (i : Nat), (∀ x ∈ xs, wellFormed x = true) →
      (∀ x ∈ xs', wellFormed x = true) → (∀ y ∈ ys, wellFormed y = true) →
      (∀ y ∈ ys', wellFormed y = true) → deepEqualSlice xs xs' = true →
      deepEqualSlice ys ys' = true →
      SameRecords (diffArraysFrom i xs ys f1 f2 pfx ig)
        (diffArraysFrom i xs' ys' f1 f2 pfx ig) := by
  induction xs with
  | nil =>
    intro xs' ys ys' i _ _ _ _ hxx hyy
    cases xs' with
    | nil =>
      simp only [diffArraysFrom]
      exact SameRecords.of_forall₂ (diffArraysTail_same f2 pfx ys ys' i hyy)
    | cons x' xs' => simp [deepEqualSlice] at hxx
  | cons x xs ihx =>
    intro xs' ys ys' i hxs hxs' hys hys' hxx hyy
    cases xs' with
    | nil => simp [deepEqualSlice] at hxx
    | cons x' xs' =>
      simp only [deepEqualSlice, Bool.and_eq_true] at hxx
      have hx := hxs x (List.mem_cons_self _ _)
      have hx' := hxs' x' (List.mem_cons_self _ _)
      have htail := ihx (fun w hw => ih w (List.mem_cons_of_mem _ hw)) xs'
      cases ys with
      | nil =>
        cases ys' with
        | cons y' ys' => simp [deepEqualSlice] at hyy
        | nil =>
          simp only [diffArraysFrom]
          have h1 : SameRecords
              [(⟨indexKey pfx i, "only_in_first", f1, x, .null⟩ : DiffResult)]
              [(⟨indexKey pfx i, "only_in_first", f1, x', .null⟩ : DiffResult)] :=
            SameRecords.single ⟨rfl, rfl, rfl, hxx.1, rfl⟩
          have h2 := htail [] [] (i + 1) (fun w hw => hxs w (List.mem_cons_of_mem _ hw))
            (fun w hw => hxs' w (List.mem_cons_of_mem _ hw)) hys hys' hxx.2 rfl
          exact SameRecords.append h1 h2
      | cons y ys =>
        cases ys' with
        | nil => simp [deepEqualSlice] at hyy
        | cons y' ys' =>
          simp only [deepEqualSlice, Bool.and_eq_true] at hyy
          have hy := hys y (List.mem_cons_self _ _)
          have hy' := hys' y' (List.mem_cons_self _ _)
          simp only [diffArraysFrom]
          refine SameRecords.append ?_
            (htail ys ys' (i + 1) (fun w hw => hxs w (List.mem_cons_of_mem _ hw))
              (fun w hw => hxs' w (List.mem_cons_of_mem _ hw))
              (fun w hw => hys w (List.mem_cons_of_mem _ hw))
              (fun w hw => hys' w (List.mem_cons_of_mem _ hw)) hxx.2 hyy.2)
          rw [← deepEqual_congr_both hx hx' hy hy' hxx.1 hyy.1]
          cases hd : deepEqual x y with
          | true => exact SameRecords.nil
          | false =>
            simp only [Bool.not_false, if_true]
            exact ih x (List.mem_cons_self _ _) x' y y' hx' hy hy' hxx.1 hyy.1 _

theorem diffObjects_same (f1 f2 pfx : String) (ig : Bool) (m m' n n' : List (String × JSON))
    (hm : wellFormed (.obj m) = true) (hm' : wellFormed (.obj m') = true)
    (hn : wellFormed (.obj n) = true) (hn' : wellFormed (.obj n') = true)
    (hmm : deepEqual (.obj m) (.obj m') = true) (hnn : deepEqual (.obj n) (.obj n') = true)
    (ih : ∀ kv ∈ m, ∀ x' y y' : JSON, wellFormed x' = true → wellFormed y = true →
      wellFormed y' = true → deepEqual kv.2 x' = true → deepEqual y y' = true → ∀ p,
      SameRecords (diffJSONWithOptions kv.2 y f1 f2 p ig)
        (diffJSONWithOptions x' y' f1 f2 p ig)) :
    SameRecords (diffObjects m n f1 f2 pfx ig) (diffObjects m' n' f1 f2 pfx ig) := by
  have hwm := wellFormed_obj.1 hm
  have hwm' := wellFormed_obj.1 hm'
  have hwn := wellFormed_obj.1 hn
  have hwn' := wellFormed_obj.1 hn'
  rw [diffObjects_eq, diffObjects_eq]
  refine SameRecords.append ?_ ?_
  · -- the first loop: the entries of m' taken in the order of m
    obtain ⟨m'', hperm, hf⟩ := exists_aligned_entries hwm.1 hmm
    refine SameRecords.perm_right ?_ (List.Perm.flatMap_right _ hperm)
    refine SameRecords.flatMap hf ?_
    rintro ⟨k, vA⟩ ⟨k', vA'⟩ hkv hkv' ⟨hk, hvv⟩
    simp only at hk hvv
    subst hk
    have hvA := hwm.2 _ hkv
    have hvA' := hwm'.2 _ (hperm.subset hkv')
    rcases mapIndex_of_deepEqual hwn.1 hnn k with ⟨h1, h2⟩ | ⟨vB, vB', h1, h2, hbb⟩
    · simp only [firstLoopBody, h1, h2]
      exact SameRecords.single ⟨rfl, rfl, rfl, hvv, rfl⟩
    · have hvB := hwn.2 _ (mapIndex_mem h1)
      have hvB' := hwn'.2 _ (mapIndex_mem h2)
      simp only [firstLoopBody, h1, h2]
      rw [← deepEqual_congr_both hvA hvA' hvB hvB' hvv hbb,
        ← isComplexType_eq_of_deepEqual hvv, ← isComplexType_eq_of_deepEqual hbb]
      cases hd : deepEqual vA vB with
      | true => exact SameRecords.nil
      | false =>
        simp only [Bool.not_false, if_true]
        split
        · exact SameRecords.single ⟨rfl, rfl, rfl, hvv, hbb⟩
        · exact ih (k, vA) hkv vA' vB vB' hvA' hvB hvB' hvv hbb _
  · -- the second loop: the entries of n' taken in the order of n
    obtain ⟨n'', hperm, hf⟩ := exists_aligned_entries hwn.1 hnn
    refine SameRecords.perm_right ?_ (List.Perm.flatMap_right _ hperm)
    refine SameRecords.flatMap hf ?_
    rintro ⟨k, vB⟩ ⟨k', vB'⟩ _ _ ⟨hk, hvv⟩
    simp only at hk hvv
    subst hk
    rcases mapIndex_of_deepEqual hwm.1 hmm k with ⟨h1, h2⟩ | ⟨vA, vA', h1, h2, _⟩
    · simp only [secondLoopBody, h1, h2]
      exact SameRecords.single ⟨rfl, rfl, rfl, rfl, hvv⟩
    · simp only [secondLoopBody, h1, h2]
      exact SameRecords.nil

theorem deepEqual_shape_obj {m : List (String × JSON)} {a' : JSON}
    (h : deepEqual (.obj m) a' = true) : ∃ m', a' = .obj m' := by
  cases a' <;> simp [deepEqual] at h
  exact ⟨_, rfl⟩

theorem deepEqual_shape_arr {xs : List JSON} {a' : JSON}
    (h : deepEqual (.arr xs) a' = true) : ∃ xs', a' = .arr xs' := by
  cases a' <;> simp [deepEqual] at h
  exact ⟨_, rfl⟩

/-- The records of a diff do not depend, up to their order, on the order in
which the objects of the two documents list their entries. -/
theorem diffJSONWithOptions_same : ∀ a : JSON, wellFormed a = true →
    ∀ a' b b' : JSON, wellFormed a' = true → wellFormed b = true → wellFormed b' = true →
    deepEqual a a' = true → deepEqual b b' = true → ∀ (f1 f2 pfx : String) (ig : Bool),
    SameRecords (diffJSONWithOptions a b f1 f2 pfx ig)
      (diffJSONWithOptions a' b' f1 f2 pfx ig) := by
  have hprim : ∀ a : JSON, isComplexType a = false → wellFormed a = true →
      ∀ a' b b' : JSON, wellFormed a' = true → wellFormed b = true → wellFormed b' = true →
      deepEqual a a' = true → deepEqual b b' = true → ∀ (f1 f2 pfx : String) (ig : Bool),
      SameRecords (diffJSONWithOptions a b f1 f2 pfx ig)
        (diffJSONWithOptions a' b' f1 f2 pfx ig) := by
    intro a hca ha a' b b' ha' hb hb' haa hbb f1 f2 pfx ig
    have hca' : isComplexType a' = false := by
      rw [← isComplexType_eq_of_deepEqual haa]; exact hca
    rw [diffJSONWithOptions_of_not_complex hca, diffJSONWithOptions_of_not_complex hca',
      ← deepEqual_congr_both ha ha' hb hb' haa hbb]
    cases hd : deepEqual a b with
    | true => exact SameRecords.nil
    | false => exact SameRecords.single ⟨rfl, rfl, rfl, haa, hbb⟩
  intro a
  induction a using JSON.induct with
  | hnull => exact hprim _ rfl
  | hbool x => exact hprim _ rfl
  | hnum x => exact hprim _ rfl
  | hstr x => exact hprim _ rfl
  | harr xs ih =>
    intro ha a' b b' ha' hb hb' haa hbb f1 f2 pfx ig
    obtain ⟨xs', rfl⟩ := deepEqual_shape_arr haa
    by_cases hbarr : ∃ ys, b = .arr ys
    · obtain ⟨ys, rfl⟩ := hbarr
      obtain ⟨ys', rfl⟩ := deepEqual_shape_arr hbb
      rw [deepEqual_arr] at haa hbb
      rw [wellFormed_arr] at ha ha' hb hb'
      rw [diffJSONWithOptions_arr, diffJSONWithOptions_arr]
      cases ig with
      | true =>
        simp only [if_true]
        exact diffArraysIgnoreOrder_same xs xs' ys ys' ha ha' hb hb' haa hbb f1 f2 pfx true
      | false =>
        simp only [Bool.false_eq_true, if_false, diffArrays]
        exact diffArraysFrom_same f1 f2 pfx false xs
          (fun x hx x' y y' hx' hy hy' hxx hyy p =>
            ih x hx (ha x hx) x' y y' hx' hy hy' hxx hyy f1 f2 p false)
          xs' ys ys' 0 ha ha' hb hb' haa hbb
    · have hb1 : ∀ ys, b ≠ .arr ys := fun ys e => hbarr ⟨ys, e⟩
      have hb2 : ∀ ys, b' ≠ .arr ys := by
        intro ys e
        rw [e] at hbb
        cases b <;> simp [deepEqual] at hbb
        exact hbarr ⟨_, rfl⟩
      rw [diffJSONWithOptions_arr_of_not_arr xs hb1, diffJSONWithOptions_arr_of_not_arr xs' hb2]
      exact SameRecords.single ⟨rfl, rfl, rfl, haa, hbb⟩
  | hobj m ih =>
    intro ha a' b b' ha' hb hb' haa hbb f1 f2 pfx ig
    obtain ⟨m', rfl⟩ := deepEqual_shape_obj haa
    by_cases hbobj : ∃ n, b = .obj n
    · obtain ⟨n, rfl⟩ := hbobj
      obtain ⟨n', rfl⟩ := deepEqual_shape_obj hbb
      rw [diffJSONWithOptions_obj, diffJSONWithOptions_obj]
      exact diffObjects_same f1 f2 pfx ig m m' n n' ha ha' hb hb' haa hbb
        (fun kv hkv x' y y' hx' hy hy' hxx hyy p =>
          ih kv hkv ((wellFormed_obj.1 ha).2 kv hkv) x' y y' hx' hy hy' hxx hyy f1 f2 p ig)
    · have hb1 : ∀ n, b ≠ .obj n := fun n e => hbobj ⟨n, e⟩
      have hb2 : ∀ n, b' ≠ .obj n := by
        intro n e
        rw [e] at hbb
        cases b <;> simp [deepEqual] at hbb
        exact hbobj ⟨_, rfl⟩
      rw [diffJSONWithOptions_obj_of_not_obj m hb1, diffJSONWithOptions_obj_of_not_obj m' hb2]
      exact SameRecords.single ⟨rfl, rfl, rfl, haa, hbb⟩

/-- Listing the entries of an object in another order gives a structurally
equal object. -/
theorem deepEqual_obj_of_perm {m m' : List (String × JSON)}
    (hm : wellFormed (.obj m) = true) (hp : m.Perm m') :
    wellFormed (.obj m') = true ∧ deepEqual (.obj m) (.obj m') = true := by
  rw [wellFormed_obj] at hm
  have hnd' : (m'.map Prod.fst).Nodup := (hp.map Prod.fst).nodup_iff.1 hm.1
  refine ⟨wellFormed_obj.2 ⟨hnd', fun kv hkv => hm.2 kv (hp.symm.subset hkv)⟩, ?_⟩
  rw [deepEqual_obj]
  exact ⟨hp.length_eq, fun kv hkv =>
    ⟨kv.2, mapIndex_of_mem hnd' (hp.subset hkv), deepEqual_refl kv.2 (hm.2 kv hkv)⟩⟩

/-! ## The checked differ returns what the differ returns -/

theorem indexChecked_append {α : Type} (pre : List α) (m : α) (ms : List α) :
    indexChecked (pre ++ m :: ms) pre.length = .ok m := by
  have h : (pre ++ m :: ms)[pre.length]? = some m := by
    induction pre with
    | nil => simp
    | cons p pre ih => simpa using ih
  simp only [indexChecked, h]

theorem assignChecked_append {α : Type} (pre : List α) (m x : α) (ms : List α) :
    assignChecked (pre ++ m :: ms) pre.length x = .ok (pre ++ x :: ms) := by
  simp [assignChecked]

theorem scanB_length {x : JSON} (bs : List JSON) :
    ∀ (ms ms' : List Bool), scanB x bs ms = some ms' → ms'.length = ms.length := by
  induction bs with
  | nil => intro ms ms' h; cases ms <;> simp [scanB] at h
  | cons y bs ih =>
    intro ms ms' h
    cases ms with
    | nil => simp [scanB] at h
    | cons m ms =>
      simp only [scanB] at h
      split at h
      · cases h; rfl
      · cases hs : scanB x bs ms with
        | none => simp [hs] at h
        | some ms1 =>
          simp only [hs, Option.map_some', Option.some.injEq] at h
          subst h
          simp [ih ms ms1 hs]

/-- The inner loop on the whole flag slices agrees with `scanB` on the part of
`matchedB` still to be scanned, and every index it uses is in range. -/
theorem innerLoopChecked_eq (aItem : JSON) (i : Nat) (matchedA : List Bool)
    (hi : i < matchedA.length) (bs : List JSON) :
    ∀ (pre ms : List Bool), ms.length = bs.length →
      innerLoopChecked aItem i pre.length bs matchedA (pre ++ ms) =
        .ok (match scanB aItem bs ms with
          | some ms' => (matchedA.set i true, pre ++ ms')
          | none => (matchedA, pre ++ ms)) := by
  induction bs with
  | nil =>
    intro pre ms h
    cases ms with
    | nil => rfl
    | cons m ms => simp at h
  | cons bItem bs ih =>
    intro pre ms h
    cases ms with
    | nil => simp at h
    | cons m ms =>
      have hlen : ms.length = bs.length := by simpa using h
      simp only [innerLoopChecked, indexChecked_append, Except.bind, scanB]
      by_cases hc : (!m && deepEqual aItem bItem) = true
      · simp only [hc, if_true, assignChecked, hi, assignChecked_append, Except.bind]
        simp
      · simp only [hc, if_false, Bool.false_eq_true]
        have h1 := ih (pre ++ [m]) ms hlen
        simp only [List.length_append, List.length_singleton, List.append_assoc,
          List.singleton_append] at h1
        rw [h1]
        cases scanB aItem bs ms <;> rfl

theorem findMatches_length (b : List JSON) (xs : List JSON) :
    ∀ mB : List Bool, (findMatches b xs mB).2.length = mB.length := by
  induction xs with
  | nil => intro mB; rfl
  | cons x xs ih =>
    intro mB
    cases hs : scanB x b mB with
    | none => simp only [findMatches, hs]; exact ih mB
    | some mB' =>
      simp only [findMatches, hs]
      rw [ih mB', scanB_length b mB mB' hs]

theorem findMatches_length_fst (b : List JSON) (xs : List JSON) :
    ∀ mB : List Bool, (findMatches b xs mB).1.length = xs.length := by
  induction xs with
  | nil => intro mB; rfl
  | cons x xs ih =>
    intro mB
    cases hs : scanB x b mB with
    | none => simp only [findMatches, hs, List.length_cons, ih mB]
    | some mB' => simp only [findMatches, hs, List.length_cons, ih mB']

/-- The outer loop on the whole flag slices agrees with `findMatches`. -/
theorem outerLoopChecked_eq (b : List JSON) (rest : List JSON) :
    ∀ (preA matchedB : List Bool), matchedB.length = b.length →
      outerLoopChecked b preA.length rest (preA ++ List.replicate rest.length false) matchedB =
        .ok (preA ++ (findMatches b rest matchedB).1, (findMatches b rest matchedB).2) := by
  induction rest with
  | nil => intro preA matchedB _; simp [outerLoopChecked, findMatches]
  | cons aItem rest ih =>
    intro preA matchedB hB
    have hi : preA.length < (preA ++ List.replicate (aItem :: rest).length false).length := by
      simp
    have hin := innerLoopChecked_eq aItem preA.length _ hi b [] matchedB hB
    simp only [List.length_nil, List.nil_append] at hin
    simp only [outerLoopChecked, hin, Except.bind]
    have hset : (preA ++ List.replicate (aItem :: rest).length false).set preA.length true =
        (preA ++ [true]) ++ List.replicate rest.length false := by
      simp [List.replicate_succ]
    have hkeep : preA ++ List.replicate (aItem :: rest).length false =
        (preA ++ [false]) ++ List.replicate rest.length false := by
      simp [List.replicate_succ]
    cases hs : scanB aItem b matchedB with
    | none =>
      have h1 := ih (preA ++ [false]) matchedB hB
      simp only [List.length_append, List.length_singleton] at h1
      simp only [findMatches, hs]
      rw [hkeep, h1]
      simp
    | some mB' =>
      have h1 := ih (preA ++ [true]) mB' ((scanB_length b matchedB mB' hs).trans hB)
      simp only [List.length_append, List.length_singleton] at h1
      simp only [findMatches, hs]
      rw [hset, h1]
      simp

theorem reportFirstChecked_eq (file1 pfx : String) (rest : List JSON) :
    ∀ (pre ms : List Bool), ms.length = rest.length →
      reportFirstChecked file1 pfx (pre ++ ms) pre.length rest =
        .ok (reportFirst file1 pfx pre.length rest ms) := by
  induction rest with
  | nil =>
    intro pre ms h
    cases ms with
    | nil => rfl
    | cons m ms => simp at h
  | cons x rest ih =>
    intro pre ms h
    cases ms with
    | nil => simp at h
    | cons m ms =>
      have h1 := ih (pre ++ [m]) ms (by simpa using h)
      simp only [List.length_append, List.length_singleton, List.append_assoc,
        List.singleton_append] at h1
      simp only [reportFirstChecked, indexChecked_append, Except.bind, h1, reportFirst]

theorem reportSecondChecked_eq (file2 pfx : String) (rest : List JSON) :
    ∀ (pre ms : List Bool), ms.length = rest.length →
      reportSecondChecked file2 pfx (pre ++ ms) pre.length rest =
        .ok (reportSecond file2 pfx pre.length rest ms) := by
  induction rest with
  | nil =>
    intro pre ms h
    cases ms with
    | nil => rfl
    | cons m ms => simp at h
  | cons x rest ih =>
    intro pre ms h
    cases ms with
    | nil => simp at h
    | cons m ms =>
      have h1 := ih (pre ++ [m]) ms (by simpa using h)
      simp only [List.length_append, List.length_singleton, List.append_assoc,
        List.singleton_append] at h1
      simp only [reportSecondChecked, indexChecked_append, Except.bind, h1, reportSecond]

/-- The checked `diffArraysIgnoreOrder` never indexes out of range and returns
the records of `diffArraysIgnoreOrder`. -/
theorem diffArraysIgnoreOrderChecked_eq (a b : List JSON) (file1 file2 pfx : String)
    (ig : Bool) :
    diffArraysIgnoreOrderChecked a b file1 file2 pfx =
      .ok (diffArraysIgnoreOrder a b file1 file2 pfx ig) := by
  have hout := outerLoopChecked_eq b a [] (List.replicate b.length false) (by simp)
  simp only [List.length_nil, List.nil_append] at hout
  have hA := reportFirstChecked_eq file1 pfx a []
    (findMatches b a (List.replicate b.length false)).1 (findMatches_length_fst b a _)
  have hB := reportSecondChecked_eq file2 pfx b []
    (findMatches b a (List.replicate b.length false)).2
    ((findMatches_length b a _).trans (by simp))
  simp only [List.length_nil, List.nil_append] at hA hB
  simp only [diffArraysIgnoreOrderChecked, hout, Except.bind, hA, hB, diffArraysIgnoreOrder]

theorem ReturnsOr.bind {allow : Bool} {r : Except Failure (List DiffResult)}
    {d : List DiffResult} (h : ReturnsOr allow r d)
    {k : List DiffResult → Except Failure (List DiffResult)} {e : List DiffResult}
    (hk : ReturnsOr allow (k d) e) : ReturnsOr allow (r.bind k) e := by
  rcases h with h | ⟨ha, h⟩
  · rw [h]; exact hk
  · rw [h]; exact Or.inr ⟨ha, rfl⟩

theorem arrayLoopBodyChecked_returns (allow : Bool)
    (recur : JSON → JSON → String → Except Failure (List DiffResult))
    (a b : List JSON) (f1 f2 pfx : String) (ig : Bool)
    (hrec : ∀ x ∈ a, ∀ y p,
      ReturnsOr allow (recur x y p) (diffJSONWithOptions x y f1 f2 p ig))
    (i : Nat) (hi : i < max a.length b.length) :
    ReturnsOr allow (arrayLoopBodyChecked recur a b f1 f2 pfx i)
      (arrayLoopBody a b f1 f2 pfx ig i) := by
  unfold arrayLoopBodyChecked arrayLoopBody
  by_cases hA : i < a.length
  · by_cases hB : i < b.length
    · simp only [hA, hB, and_self, if_true, indexChecked, List.getElem?_eq_getElem,
        Except.bind]
      cases hd : deepEqual a[i] b[i] with
      | true => exact Or.inl (by simp)
      | false =>
        simp only [Bool.not_false, if_true]
        exact hrec _ (List.getElem_mem _) _ _
    · simp only [hA, hB, and_false, if_false, if_true, indexChecked,
        List.getElem?_eq_getElem, List.getElem?_eq_none (Nat.le_of_not_lt hB), Except.bind]
      exact Or.inl rfl
  · have hB : i < b.length := by
      rcases Nat.lt_or_ge i b.length with h | h
      · exact h
      · exfalso
        have : max a.length b.length ≤ i := Nat.max_le.2 ⟨Nat.le_of_not_lt hA, h⟩
        omega
    simp only [hA, hB, false_and, if_false, indexChecked, List.getElem?_eq_getElem,
      List.getElem?_eq_none (Nat.le_of_not_lt hA), Except.bind]
    exact Or.inl rfl

theorem diffArraysLoopChecked_returns (allow : Bool)
    (recur : JSON → JSON → String → Except Failure (List DiffResult))
    (a b : List JSON) (f1 f2 pfx : String) (ig : Bool)
    (hrec : ∀ x ∈ a, ∀ y p,
      ReturnsOr allow (recur x y p) (diffJSONWithOptions x y f1 f2 p ig))
    (steps : Nat) : ∀ (i : Nat) (diffs : List DiffResult),
      i + steps = max a.length b.length →
      ReturnsOr allow (diffArraysLoopChecked recur a b f1 f2 pfx steps i diffs)
        (diffs ++ (List.range' i steps).flatMap (arrayLoopBody a b f1 f2 pfx ig)) := by
  induction steps with
  | zero => intro i diffs _; exact Or.inl (by simp [diffArraysLoopChecked])
  | succ steps ih =>
    intro i diffs h
    simp only [diffArraysLoopChecked]
    refine ReturnsOr.bind
      (arrayLoopBodyChecked_returns allow recur a b f1 f2 pfx ig hrec i (by omega)) ?_
    have := ih (i + 1) (diffs ++ arrayLoopBody a b f1 f2 pfx ig i) (by omega)
    simpa [List.range'_succ, List.append_assoc] using this

theorem diffArraysChecked_returns (allow : Bool)
    (recur : JSON → JSON → String → Except Failure (List DiffResult))
    (a b : List JSON) (f1 f2 pfx : String) (ig : Bool)
    (hrec : ∀ x ∈ a, ∀ y p,
      ReturnsOr allow (recur x y p) (diffJSONWithOptions x y f1 f2 p ig)) :
    ReturnsOr allow (diffArraysChecked recur a b f1 f2 pfx)
      (diffArrays a b f1 f2 pfx ig) := by
  have := diffArraysLoopChecked_returns allow recur a b f1 f2 pfx ig hrec
    (max a.length b.length) 0 [] (by omega)
  rw [diffArrays_eq, List.range_eq_range']
  simpa [diffArraysChecked] using this

theorem diffObjectsFirstChecked_returns (allow : Bool)
    (recur : JSON → JSON → String → Except Failure (List DiffResult))
    (b : List (String × JSON)) (f1 f2 pfx : String) (ig : Bool)
    (rest : List (String × JSON))
    (hrec : ∀ kv ∈ rest, ∀ y p,
      ReturnsOr allow (recur kv.2 y p) (diffJSONWithOptions kv.2 y f1 f2 p ig)) :
    ∀ diffs : List DiffResult,
      ReturnsOr allow (diffObjectsFirstChecked recur b f1 pfx rest diffs)
        (diffs ++ diffObjectsFirst rest b f1 f2 pfx ig) := by
  induction rest with
  | nil => intro diffs; exact Or.inl (by simp [diffObjectsFirstChecked, diffObjectsFirst])
  | cons e rest ih =>
    obtain ⟨k, vA⟩ := e
    intro diffs
    have ih' := ih (fun kv hkv => hrec kv (List.mem_cons_of_mem _ hkv))
    simp only [diffObjectsFirstChecked, diffObjectsFirst]
    cases hm : mapIndex b k with
    | none =>
      simp only []
      have := ih' (diffs ++ [⟨pfx ++ k, "only_in_first", f1, vA, .null⟩])
      simpa [List.append_assoc] using this
    | some vB =>
      simp only []
      cases hd : deepEqual vA vB with
      | true =>
        simp only [Bool.not_true, Bool.false_eq_true, if_false, List.nil_append]
        exact ih' diffs
      | false =>
        simp only [Bool.not_false, if_true]
        split
        · have := ih' (diffs ++ [⟨pfx ++ k, "changed", f1, vA, vB⟩])
          simpa [List.append_assoc] using this
        · refine ReturnsOr.bind (hrec (k, vA) (List.mem_cons_self _ _) vB _) ?_
          have := ih' (diffs ++ diffJSONWithOptions vA vB f1 f2 (pfx ++ k ++ ".") ig)
          simpa [List.append_assoc] using this

theorem depth_le_depthList {x : JSON} {xs : List JSON} (h : x ∈ xs) :
    depth x ≤ depthList xs := by
  induction xs with
  | nil => simp at h
  | cons y ys ih =>
    simp only [depthList]
    rcases List.mem_cons.1 h with e | e
    · rw [e]; exact Nat.le_max_left _ _
    · exact Nat.le_trans (ih e) (Nat.le_max_right _ _)

theorem depth_le_depthFields {kv : String × JSON} {m : List (String × JSON)} (h : kv ∈ m) :
    depth kv.2 ≤ depthFields m := by
  induction m with
  | nil => simp at h
  | cons e rest ih =>
    obtain ⟨k, v⟩ := e
    simp only [depthFields]
    rcases List.mem_cons.1 h with e | e
    · rw [e]; exact Nat.le_max_left _ _
    · exact Nat.le_trans (ih e) (Nat.le_max_right _ _)

/-- A checked run returns the records of `diffJSONWithOptions` when its fuel
exceeds the depth of the first value, and with any fuel it either does so or
runs out of fuel: it never indexes out of range. -/
theorem diffJSONWithOptionsChecked_returns (allow : Bool) (f1 f2 : String) (ig : Bool) :
    ∀ (fuel : Nat) (a b : JSON) (pfx : String), (allow = true ∨ depth a < fuel) →
      ReturnsOr allow (diffJSONWithOptionsChecked fuel a b f1 f2 pfx ig)
        (diffJSONWithOptions a b f1 f2 pfx ig) := by
  intro fuel
  induction fuel with
  | zero =>
    intro a b pfx h
    rcases h with h | h
    · exact Or.inr ⟨h, rfl⟩
    · exact absurd h (Nat.not_lt_zero _)
  | succ fuel ih =>
    intro a b pfx h
    cases a with
    | null => exact Or.inl (by simp [diffJSONWithOptionsChecked, diffJSONWithOptions])
    | bool x => exact Or.inl (by simp [diffJSONWithOptionsChecked, diffJSONWithOptions])
    | num x => exact Or.inl (by simp [diffJSONWithOptionsChecked, diffJSONWithOptions])
    | str x => exact Or.inl (by simp [diffJSONWithOptionsChecked, diffJSONWithOptions])
    | arr xs =>
      have hrec : ∀ x ∈ xs, ∀ y p,
          ReturnsOr allow (diffJSONWithOptionsChecked fuel x y f1 f2 p ig)
            (diffJSONWithOptions x y f1 f2 p ig) := by
        intro x hx y p
        refine ih x y p (h.imp id (fun hd => ?_))
        have := depth_le_depthList hx
        simp only [depth] at hd
        omega
      cases b with
      | arr ys =>
        rw [diffJSONWithOptions_arr]
        simp only [diffJSONWithOptionsChecked]
        cases ig with
        | true =>
          simp only [if_true]
          exact Or.inl (diffArraysIgnoreOrderChecked_eq xs ys f1 f2 pfx true)
        | false =>
          simp only [Bool.false_eq_true, if_false]
          exact diffArraysChecked_returns allow _ xs ys f1 f2 pfx false hrec
      | null => exact Or.inl (by simp [diffJSONWithOptionsChecked, diffJSONWithOptions])
      | bool _ => exact Or.inl (by simp [diffJSONWithOptionsChecked, diffJSONWithOptions])
      | num _ => exact Or.inl (by simp [diffJSONWithOptionsChecked, diffJSONWithOptions])
      | str _ => exact Or.inl (by simp [diffJSONWithOptionsChecked, diffJSONWithOptions])
      | obj _ => exact Or.inl (by simp [diffJSONWithOptionsChecked, diffJSONWithOptions])
    | obj m =>
      have hrec : ∀ kv ∈ m, ∀ y p,
          ReturnsOr allow (diffJSONWithOptionsChecked fuel kv.2 y f1 f2 p ig)
            (diffJSONWithOptions kv.2 y f1 f2 p ig) := by
        intro kv hkv y p
        refine ih kv.2 y p (h.imp id (fun hd => ?_))
        have := depth_le_depthFields hkv
        simp only [depth] at hd
        omega
      cases b with
      | obj n =>
        rw [diffJSONWithOptions_obj, diffObjects]
        simp only [diffJSONWithOptionsChecked, diffObjectsChecked]
        refine ReturnsOr.bind
          (diffObjectsFirstChecked_returns allow _ n f1 f2 pfx ig m hrec []) ?_
        exact Or.inl (by simp)
      | null => exact Or.inl (by simp [diffJSONWithOptionsChecked, diffJSONWithOptions])
      | bool _ => exact Or.inl (by simp [diffJSONWithOptionsChecked, diffJSONWithOptions])
      | num _ => exact Or.inl (by simp [diffJSONWithOptionsChecked, diffJSONWithOptions])
      | str _ => exact Or.inl (by simp [diffJSONWithOptionsChecked, diffJSONWithOptions])
      | arr _ => exact Or.inl (by simp [diffJSONWithOptionsChecked, diffJSONWithOptions])

/-! ## An empty result in ignore-order mode -/

theorem equalUpToArrayOrder_of_not_complex {a : JSON} (ha : isComplexType a = false)
    (b : JSON) : equalUpToArrayOrder a b = deepEqual a b := by
  cases a <;> first
    | (simp [isComplexType] at ha; done)
    | simp [equalUpToArrayOrder]

theorem equalUpToArrayOrder_of_shape {a b : JSON}
    (h : ¬ ((∃ m m', a = .obj m ∧ b = .obj m') ∨ (∃ xs ys, a = .arr xs ∧ b = .arr ys))) :
    equalUpToArrayOrder a b = deepEqual a b := by
  cases a <;> cases b <;> first
    | (exfalso; exact h (Or.inl ⟨_, _, rfl, rfl⟩))
    | (exfalso; exact h (Or.inr ⟨_, _, rfl, rfl⟩))
    | simp [equalUpToArrayOrder]

theorem equalFieldsUpToArrayOrder_iff {m1 m2 : List (String × JSON)} :
    equalFieldsUpToArrayOrder m1 m2 = true ↔
      ∀ kv ∈ m1, ∃ v2, mapIndex m2 kv.1 = some v2 ∧
        (deepEqual kv.2 v2 = true ∨ equalUpToArrayOrder kv.2 v2 = true) := by
  induction m1 with
  | nil => simp [equalFieldsUpToArrayOrder]
  | cons e rest ih =>
    obtain ⟨k, v⟩ := e
    simp only [equalFieldsUpToArrayOrder, Bool.and_eq_true, ih, List.forall_mem_cons]
    constructor
    · rintro ⟨h1, h2⟩
      refine ⟨?_, h2⟩
      cases hm : mapIndex m2 k with
      | none => simp [hm] at h1
      | some v2 =>
        simp only [hm, Bool.or_eq_true] at h1
        exact ⟨v2, rfl, h1⟩
    · rintro ⟨⟨v2, hm, hv⟩, h2⟩
      refine ⟨?_, h2⟩
      simp only [hm, Bool.or_eq_true]
      exact hv

theorem exists_of_countEq_pos {v : JSON} {l : List JSON} (h : 0 < countEq v l) :
    ∃ x ∈ l, deepEqual v x = true := by
  unfold countEq at h
  obtain ⟨x, hx, hp⟩ := List.countP_pos_iff.1 h
  exact ⟨x, hx, hp⟩

/-- The computable test of equal multiplicities agrees with equal counts of
every value. -/
theorem sameCounts_iff (xs ys : List JSON) (hxs : ∀ x ∈ xs, wellFormed x = true)
    (hys : ∀ y ∈ ys, wellFormed y = true) :
    (xs.all (fun x => decide (countEq x xs = countEq x ys))
        && ys.all (fun y => decide (countEq y xs = countEq y ys))) = true ↔
      ∀ v, wellFormed v = true → countEq v xs = countEq v ys := by
  simp only [Bool.and_eq_true, List.all_eq_true, decide_eq_true_eq]
  constructor
  · rintro ⟨h1, h2⟩ v hv
    by_cases hpos : 0 < countEq v xs
    · obtain ⟨x, hx, hvx⟩ := exists_of_countEq_pos hpos
      have e := countEq_congr hv (hxs x hx) hvx
      rw [e xs, e ys]
      exact h1 x hx
    · by_cases hpos' : 0 < countEq v ys
      · obtain ⟨y, hy, hvy⟩ := exists_of_countEq_pos hpos'
        have e := countEq_congr hv (hys y hy) hvy
        rw [e xs, e ys]
        exact h2 y hy
      · omega
  · intro h
    exact ⟨fun x hx => h x (hxs x hx), fun y hy => h y (hys y hy)⟩

/-- In ignore-order mode the result is empty exactly when the two values are
equal up to the order of arrays. -/
theorem diffJSONWithOptions_ignoreOrder_eq_nil_iff : ∀ a : JSON, wellFormed a = true →
    ∀ b : JSON, wellFormed b = true → ∀ (f1 f2 pfx : String),
    (diffJSONWithOptions a b f1 f2 pfx true = [] ↔ equalUpToArrayOrder a b = true) := by
  have hprim : ∀ a : JSON, isComplexType a = false → wellFormed a = true → ∀ b : JSON,
      wellFormed b = true → ∀ (f1 f2 pfx : String),
      (diffJSONWithOptions a b f1 f2 pfx true = [] ↔ equalUpToArrayOrder a b = true) := by
    intro a hca _ b _ f1 f2 pfx
    rw [diffJSONWithOptions_of_not_complex hca, equalUpToArrayOrder_of_not_complex hca]
    cases deepEqual a b <;> simp
  intro a
  induction a using JSON.induct with
  | hnull => exact hprim _ rfl
  | hbool x => exact hprim _ rfl
  | hnum x => exact hprim _ rfl
  | hstr x => exact hprim _ rfl
  | harr xs _ =>
    intro ha b hb f1 f2 pfx
    by_cases hbarr : ∃ ys, b = .arr ys
    · obtain ⟨ys, rfl⟩ := hbarr
      rw [wellFormed_arr] at ha hb
      rw [diffJSONWithOptions_arr, if_pos rfl,
        diffArraysIgnoreOrder_eq_nil_iff_count xs ys ha hb, ← sameCounts_iff xs ys ha hb]
      simp only [equalUpToArrayOrder]
    · have hb' : ∀ ys, b ≠ .arr ys := fun ys e => hbarr ⟨ys, e⟩
      rw [diffJSONWithOptions_arr_of_not_arr xs hb',
        equalUpToArrayOrder_of_shape (fun h => by
          rcases h with ⟨m, m', e, _⟩ | ⟨xs', ys, _, e⟩
          · cases e
          · exact hb' ys e)]
      have : deepEqual (.arr xs) b = false := by
        cases b <;> first
          | exact absurd rfl (hb' _)
          | simp [deepEqual]
      simp [this]
  | hobj m ih =>
    intro ha b hb f1 f2 pfx
    by_cases hbobj : ∃ m', b = .obj m'
    · obtain ⟨m', rfl⟩ := hbobj
      rw [wellFormed_obj] at ha hb
      rw [diffJSONWithOptions_obj, diffObjects_eq, List.append_eq_nil,
        List.flatMap_eq_nil_iff, List.flatMap_eq_nil_iff]
      simp only [equalUpToArrayOrder, Bool.and_eq_true, List.all_eq_true,
        equalFieldsUpToArrayOrder_iff]
      have hfirst : ∀ kv ∈ m, (firstLoopBody m' f1 f2 pfx true kv = [] ↔
          ∃ v2, mapIndex m' kv.1 = some v2 ∧
            (deepEqual kv.2 v2 = true ∨ equalUpToArrayOrder kv.2 v2 = true)) := by
        intro kv hkv
        unfold firstLoopBody
        cases hm : mapIndex m' kv.1 with
        | none => simp
        | some vB =>
          have hih := ih kv hkv (ha.2 kv hkv) vB (hb.2 _ (mapIndex_mem hm)) f1 f2
            (pfx ++ kv.1 ++ ".")
          simp only [Option.some.injEq, exists_eq_left']
          cases hd : deepEqual kv.2 vB with
          | true => simp
          | false =>
            simp only [Bool.not_false, if_true, Bool.false_eq_true, false_or]
            cases hcA : isComplexType kv.2 with
            | false =>
              rw [equalUpToArrayOrder_of_not_complex hcA, hd]
              cases hcB : isComplexType vB with
              | false => simp
              | true =>
                simp only [Bool.not_false, Bool.not_true, Bool.and_false,
                  Bool.false_eq_true, if_false]
                rw [hih, equalUpToArrayOrder_of_not_complex hcA, hd]
                simp
            | true =>
              simp only [Bool.not_true, Bool.false_and, Bool.false_eq_true, if_false]
              exact hih
      have hsecond : ∀ kv ∈ m', (secondLoopBody m f2 pfx kv = [] ↔
          (mapIndex m kv.1).isSome = true) := by
        intro kv _
        unfold secondLoopBody
        cases mapIndex m kv.1 <;> simp
      constructor
      · rintro ⟨h1, h2⟩
        exact ⟨fun kv hkv => (hsecond kv hkv).1 (h2 kv hkv),
          fun kv hkv => (hfirst kv hkv).1 (h1 kv hkv)⟩
      · rintro ⟨h2, h1⟩
        exact ⟨fun kv hkv => (hfirst kv hkv).2 (h1 kv hkv),
          fun kv hkv => (hsecond kv hkv).2 (h2 kv hkv)⟩
    · have hb' : ∀ m', b ≠ .obj m' := fun m' e => hbobj ⟨m', e⟩
      rw [diffJSONWithOptions_obj_of_not_obj m hb',
        equalUpToArrayOrder_of_shape (fun h => by
          rcases h with ⟨m1, m', _, e⟩ | ⟨xs', ys, e, _⟩
          · exact hb' m' e
          · cases e)]
      have : deepEqual (.obj m) b = false := by
        cases b <;> first
          | exact absurd rfl (hb' _)
          | simp [deepEqual]
      simp [this]

/-! ## The place of one iteration in the output of `diffObjects` -/

/-- The output of `diffObjects` around the iteration of the first loop at one
entry of `a`. -/
theorem diffObjects_split_first (l1 l2 : List (String × JSON)) (e : String × JSON)
    (b : List (String × JSON)) (f1 f2 pfx : String) (ig : Bool) :
    diffObjects (l1 ++ e :: l2) b f1 f2 pfx ig =
      l1.flatMap (firstLoopBody b f1 f2 pfx ig) ++ firstLoopBody b f1 f2 pfx ig e
        ++ (l2.flatMap (firstLoopBody b f1 f2 pfx ig)
          ++ b.flatMap (secondLoopBody (l1 ++ e :: l2) f2 pfx)) := by
  rw [diffObjects_eq, List.flatMap_append, List.flatMap_cons]
  simp only [List.append_assoc]

/-- The output of `diffObjects` around the iteration of the second loop at one
entry of `b`. -/
theorem diffObjects_split_second (a : List (String × JSON)) (l1 l2 : List (String × JSON))
    (e : String × JSON) (f1 f2 pfx : String) (ig : Bool) :
    diffObjects a (l1 ++ e :: l2) f1 f2 pfx ig =
      a.flatMap (firstLoopBody (l1 ++ e :: l2) f1 f2 pfx ig)
        ++ (l1.flatMap (secondLoopBody a f2 pfx) ++ secondLoopBody a f2 pfx e
          ++ l2.flatMap (secondLoopBody a f2 pfx)) := by
  rw [diffObjects_eq, List.flatMap_append, List.flatMap_cons]
  simp only [List.append_assoc]

theorem keys_ne_of_nodup_split {l1 l2 : List (String × JSON)} {k : String} {v : JSON}
    (h : ((l1 ++ (k, v) :: l2).map Prod.fst).Nodup) : ∀ kv ∈ l1 ++ l2, kv.1 ≠ k := by
  intro kv hkv hk
  rw [List.map_append, List.map_cons, List.nodup_middle, List.nodup_cons,
    ← List.map_append] at h
  apply h.1
  rw [← hk]
  exact List.mem_map.2 ⟨kv, hkv, rfl⟩

theorem keys_ne_of_not_mem {m : List (String × JSON)} {k : String}
    (h : k ∉ m.map Prod.fst) : ∀ kv ∈ m, kv.1 ≠ k := by
  intro kv hkv hk
  apply h
  rw [← hk]
  exact List.mem_map.2 ⟨kv, hkv, rfl⟩

theorem isComplexType_eq_false_iff (v : JSON) :
    isComplexType v = false ↔ (∀ m, v ≠ .obj m) ∧ (∀ xs, v ≠ .arr xs) := by
  cases v <;> simp [isComplexType]

theorem isComplexType_eq_true_iff (v : JSON) :
    isComplexType v = true ↔ (∃ m, v = .obj m) ∨ (∃ xs, v = .arr xs) := by
  cases v <;> simp [isComplexType]

/-! ## When a key present in both objects contributes a record -/

theorem keyRecords_ne_nil_iff_positional (A B : List (String × JSON)) (f1 f2 pfx : String)
    {k : String} {vA vB : JSON} (hwA : wellFormed vA = true) (hwB : wellFormed vB = true)
    (hmA : mapIndex A k = some vA) (hmB : mapIndex B k = some vB) :
    keyRecords A B f1 f2 pfx false k ≠ [] ↔ deepEqual vA vB = false := by
  rw [keyRecords_both A B f1 f2 pfx false hmA hmB]
  cases hd : deepEqual vA vB with
  | true => simp
  | false =>
    simp only [Bool.false_eq_true, if_false, iff_true]
    split
    · simp
    · intro hnil
      have := diffJSONWithOptions_complete vA hwA vB hwB _ _ _ hnil
      rw [hd] at this
      exact absurd this (by decide)

theorem equalUpToArrayOrder_of_deepEqual {vA vB : JSON} (hwA : wellFormed vA = true)
    (hwB : wellFormed vB = true) (h : deepEqual vA vB = true) :
    equalUpToArrayOrder vA vB = true :=
  (diffJSONWithOptions_ignoreOrder_eq_nil_iff vA hwA vB hwB "" "" "").1
    (diffJSONWithOptions_eq_nil_of_deepEqual vA vB hwA hwB _ _ _ _ h)

theorem keyRecords_ne_nil_iff_ignoreOrder (A B : List (String × JSON)) (f1 f2 pfx : String)
    {k : String} {vA vB : JSON} (hwA : wellFormed vA = true) (hwB : wellFormed vB = true)
    (hmA : mapIndex A k = some vA) (hmB : mapIndex B k = some vB) :
    keyRecords A B f1 f2 pfx true k ≠ [] ↔ equalUpToArrayOrder vA vB = false := by
  rw [keyRecords_both A B f1 f2 pfx true hmA hmB]
  cases hd : deepEqual vA vB with
  | true => simp [equalUpToArrayOrder_of_deepEqual hwA hwB hd]
  | false =>
    simp only [Bool.false_eq_true, if_false]
    split
    · rename_i hprim
      rw [equalUpToArrayOrder_of_not_complex hprim.1, hd]
      simp
    · rw [Ne, diffJSONWithOptions_ignoreOrder_eq_nil_iff vA hwA vB hwB]
      cases equalUpToArrayOrder vA vB <;> simp

theorem keyRecords_ne_nil_of_one_sided (A B : List (String × JSON)) (f1 f2 pfx : String)
    (ig : Bool) {k : String} (hk : k ∈ A.map Prod.fst ∨ k ∈ B.map Prod.fst)
    (hone : mapIndex A k = none ∨ mapIndex B k = none) :
    keyRecords A B f1 f2 pfx ig k ≠ [] := by
  cases hmA : mapIndex A k with
  | none =>
    have hkB : k ∈ B.map Prod.fst := by
      rcases hk with h | h
      · exact absurd h (mapIndex_eq_none.1 hmA)
      · exact h
    obtain ⟨vB, hmB⟩ := mapIndex_isSome_of_key hkB
    rw [keyRecords_one_sided_second A B _ _ _ _ hmA hmB]
    simp
  | some vA =>
    have hmB : mapIndex B k = none := by
      rcases hone with h | h
      · rw [hmA] at h; cases h
      · exact h
    rw [keyRecords_one_sided_first A B _ _ _ _ hmA hmB]
    simp

/-! ## The claims -/

/-- C1 (reflexivity).  For every JSON value `x` (a Go value: the keys of each
object are distinct), all labels, every path prefix and both settings of
`ignoreArrayOrder`, `diffJSONWithOptions x x` returns the empty record list. -/
theorem diffJSONWithOptions_self (x : JSON) (hx : wellFormed x = true)
    (file1 file2 pfx : String) (ignoreArrayOrder : Bool) :
    diffJSONWithOptions x x file1 file2 pfx ignoreArrayOrder = [] := by
  cases x with
  | null => simp [diffJSONWithOptions, deepEqual]
  | bool b => simp [diffJSONWithOptions, deepEqual]
  | num n => simp [diffJSONWithOptions, deepEqual]
  | str s => simp [diffJSONWithOptions, deepEqual]
  | arr xs =>
    rw [wellFormed_arr] at hx
    rw [diffJSONWithOptions_arr]
    split
    · exact diffArraysIgnoreOrder_self xs hx _ _ _ _
    · exact diffArrays_self xs hx _ _ _ _
  | obj m =>
    rw [wellFormed_obj] at hx
    rw [diffJSONWithOptions_obj]
    exact diffObjects_self m hx.1 hx.2 _ _ _ _

/-- Witness of C1: a document with nested objects and arrays, a repeated array
element included, diffed against itself in ignore-order mode. -/
theorem diffJSONWithOptions_self_witness :
    wellFormed (.obj [("x", .num 1), ("y", .arr [.num 1, .obj [("a", .null)], .num 1])]) = true ∧
      diffJSONWithOptions
        (.obj [("x", .num 1), ("y", .arr [.num 1, .obj [("a", .null)], .num 1])])
        (.obj [("x", .num 1), ("y", .arr [.num 1, .obj [("a", .null)], .num 1])])
        "a.json" "b.json" "" true = [] :=
  ⟨by decide, diffJSONWithOptions_self _ (by decide) _ _ _ _⟩

/-- C2 (type mismatch), evaluated where the claim fails.  With a primitive
first and an object or an array second, the shapes differ but the type switch
takes its `default` case: the single record has type `changed`, not
`type_mismatch`.  With the same values in the other order the record is a
`type_mismatch`. -/
theorem diffJSONWithOptions_primitive_vs_complex (file1 file2 : String)
    (ignoreArrayOrder : Bool) :
    diffJSONWithOptions (.num 1) (.obj []) file1 file2 "" ignoreArrayOrder =
        [⟨"root", "changed", file1, .num 1, .obj []⟩] ∧
      diffJSONWithOptions (.str "s") (.arr []) file1 file2 "" ignoreArrayOrder =
        [⟨"root", "changed", file1, .str "s", .arr []⟩] ∧
      diffJSONWithOptions (.obj []) (.num 1) file1 file2 "" ignoreArrayOrder =
        [⟨"root", "type_mismatch", file1, .obj [], .num 1⟩] := by
  refine ⟨?_, ?_, ?_⟩ <;> rfl

/-- C3 (symmetry of detection).  For all JSON values `a`, `b` (Go values: the
keys of each object are distinct), all labels, every prefix and both array
modes: `diff(a, b)` and `diff(b, a)` have records at the same keys; `diff(a, b)`
has an `only_in_first` record at key `k` with value `v` exactly when
`diff(b, a)` has an `only_in_second` record at key `k` with value `v`; and
`diff(a, b)` has a record at key `k` carrying `(value1, value2) = (u, w)`
exactly when `diff(b, a)` has one at key `k` carrying `(w, u)`. -/
theorem diffJSONWithOptions_symmetry (a b : JSON) (ha : wellFormed a = true)
    (hb : wellFormed b = true) (file1 file2 file1' file2' pfx : String)
    (ignoreArrayOrder : Bool) :
    (∀ k, (∃ r ∈ diffJSONWithOptions a b file1 file2 pfx ignoreArrayOrder, r.Key = k) ↔
        (∃ r ∈ diffJSONWithOptions b a file1' file2' pfx ignoreArrayOrder, r.Key = k)) ∧
      (∀ k v,
        (∃ r ∈ diffJSONWithOptions a b file1 file2 pfx ignoreArrayOrder,
            r.Typ = "only_in_first" ∧ r.Key = k ∧ r.Value1 = v) ↔
          (∃ r ∈ diffJSONWithOptions b a file1' file2' pfx ignoreArrayOrder,
            r.Typ = "only_in_second" ∧ r.Key = k ∧ r.Value2 = v)) ∧
      (∀ k u w,
        (∃ r ∈ diffJSONWithOptions a b file1 file2 pfx ignoreArrayOrder,
            r.Key = k ∧ r.Value1 = u ∧ r.Value2 = w) ↔
          (∃ r ∈ diffJSONWithOptions b a file1' file2' pfx ignoreArrayOrder,
            r.Key = k ∧ r.Value1 = w ∧ r.Value2 = u)) := by
  have hab := diffJSONWithOptions_mirror a ha b hb file1 file2 file1' file2' pfx
    ignoreArrayOrder
  have hba := diffJSONWithOptions_mirror b hb a ha file1' file2' file1 file2 pfx
    ignoreArrayOrder
  refine ⟨fun k => ⟨?_, ?_⟩, fun k v => ⟨?_, ?_⟩, fun k u w => ⟨?_, ?_⟩⟩
  · rintro ⟨r, hr, hk⟩
    obtain ⟨r', hr', hm⟩ := hab r hr
    exact ⟨r', hr', hm.1.trans hk⟩
  · rintro ⟨r, hr, hk⟩
    obtain ⟨r', hr', hm⟩ := hba r hr
    exact ⟨r', hr', hm.1.trans hk⟩
  · rintro ⟨r, hr, ht, hk, hv⟩
    obtain ⟨r', hr', hm⟩ := hab r hr
    exact ⟨r', hr', hm.2.2.2.1 ht, hm.1.trans hk, hm.2.2.1.trans hv⟩
  · rintro ⟨r, hr, ht, hk, hv⟩
    obtain ⟨r', hr', hm⟩ := hba r hr
    exact ⟨r', hr', hm.2.2.2.2 ht, hm.1.trans hk, hm.2.1.trans hv⟩
  · rintro ⟨r, hr, hk, hu, hw⟩
    obtain ⟨r', hr', hm⟩ := hab r hr
    exact ⟨r', hr', hm.1.trans hk, hm.2.1.trans hw, hm.2.2.1.trans hu⟩
  · rintro ⟨r, hr, hk, hw, hu⟩
    obtain ⟨r', hr', hm⟩ := hba r hr
    exact ⟨r', hr', hm.1.trans hk, hm.2.1.trans hu, hm.2.2.1.trans hw⟩

/-- Witness of C3: `{"x":1,"y":[1,2,2]}` against `{"x":{},"z":[2,1]}` in
ignore-order mode; the first part of the theorem at the key `"y"`. -/
theorem diffJSONWithOptions_symmetry_witness :
    wellFormed (.obj [("x", .num 1), ("y", .arr [.num 1, .num 2, .num 2])]) = true ∧
      wellFormed (.obj [("x", .obj []), ("z", .arr [.num 2, .num 1])]) = true ∧
      ((∃ r ∈ diffJSONWithOptions
            (.obj [("x", .num 1), ("y", .arr [.num 1, .num 2, .num 2])])
            (.obj [("x", .obj []), ("z", .arr [.num 2, .num 1])]) "a.json" "b.json" "" true,
          r.Key = "y") ↔
        (∃ r ∈ diffJSONWithOptions
            (.obj [("x", .obj []), ("z", .arr [.num 2, .num 1])])
            (.obj [("x", .num 1), ("y", .arr [.num 1, .num 2, .num 2])]) "b.json" "a.json" "" true,
          r.Key = "y")) :=
  ⟨by decide, by decide,
    (diffJSONWithOptions_symmetry _ _ (by decide) (by decide) _ _ _ _ _ _).1 "y"⟩

/-- C4 (key union completeness), refuted as stated.  In ignore-order mode the
key `"k"` is present in both `{"k":[1,2]}` and `{"k":[2,1]}` with structurally
unequal values, and contributes no record: the whole diff is empty. -/
theorem diffObjects_key_union_counterexample :
    mapIndex [("k", .arr [.num 1, .num 2])] "k" = some (.arr [.num 1, .num 2]) ∧
      mapIndex [("k", .arr [.num 2, .num 1])] "k" = some (.arr [.num 2, .num 1]) ∧
      deepEqual (.arr [.num 1, .num 2]) (.arr [.num 2, .num 1]) = false ∧
      keyRecords [("k", .arr [.num 1, .num 2])] [("k", .arr [.num 2, .num 1])]
        "a.json" "b.json" "" true "k" = [] ∧
      diffObjects [("k", .arr [.num 1, .num 2])] [("k", .arr [.num 2, .num 1])]
        "a.json" "b.json" "" true = [] := by
  refine ⟨?_, ?_, ?_, ?_, ?_⟩ <;> rfl

/-- C4 (key union completeness), amended.  For all objects `A`, `B` (Go maps:
distinct keys), every prefix and both array modes: a record is in
`diffObjects A B` exactly when some key of `keys(A) ∪ keys(B)` contributes it;
a key of the union that contributes a record is present in only one object or
in both with structurally unequal values; a key present in only one object
contributes a record; a key present in both with equal values contributes
none.  A key present in both contributes a record exactly when its two values
are unequal: structurally unequal in positional mode, and unequal up to the
order of arrays in ignore-order mode (there two arrays are equal when they
hold the same elements with the same multiplicities, two objects when they
have the same keys and at each key values that are structurally equal or equal
in this sense).  Hence a structurally unequal pair that contributes no record
occurs only in ignore-order mode and is a pair of objects or a pair of arrays;
every other unequal pair contributes a record in both modes. -/
theorem diffObjects_key_union (A B : List (String × JSON))
    (hA : wellFormed (.obj A) = true) (hB : wellFormed (.obj B) = true)
    (file1 file2 pfx : String) (ignoreArrayOrder : Bool) :
    (∀ r, r ∈ diffObjects A B file1 file2 pfx ignoreArrayOrder ↔
        ∃ k, (k ∈ A.map Prod.fst ∨ k ∈ B.map Prod.fst) ∧
          r ∈ keyRecords A B file1 file2 pfx ignoreArrayOrder k) ∧
      ∀ k, (k ∈ A.map Prod.fst ∨ k ∈ B.map Prod.fst) →
        (keyRecords A B file1 file2 pfx ignoreArrayOrder k ≠ [] →
          (mapIndex A k = none ∨ mapIndex B k = none ∨
            ∃ vA vB, mapIndex A k = some vA ∧ mapIndex B k = some vB ∧
              deepEqual vA vB = false)) ∧
        (mapIndex A k = none ∨ mapIndex B k = none →
          keyRecords A B file1 file2 pfx ignoreArrayOrder k ≠ []) ∧
        (∀ vA vB, mapIndex A k = some vA → mapIndex B k = some vB →
          deepEqual vA vB = false →
          (ignoreArrayOrder = false ∨ isComplexType vA = false ∨ isComplexType vB = false) →
          keyRecords A B file1 file2 pfx ignoreArrayOrder k ≠ []) ∧
        (∀ vA vB, mapIndex A k = some vA → mapIndex B k = some vB →
          deepEqual vA vB = true →
          keyRecords A B file1 file2 pfx ignoreArrayOrder k = []) ∧
        (∀ vA vB, mapIndex A k = some vA → mapIndex B k = some vB →
          (ignoreArrayOrder = false →
            (keyRecords A B file1 file2 pfx ignoreArrayOrder k ≠ [] ↔
              deepEqual vA vB = false)) ∧
          (ignoreArrayOrder = true →
            (keyRecords A B file1 file2 pfx ignoreArrayOrder k ≠ [] ↔
              equalUpToArrayOrder vA vB = false)) ∧
          (deepEqual vA vB = false →
            keyRecords A B file1 file2 pfx ignoreArrayOrder k = [] →
            ignoreArrayOrder = true ∧ equalUpToArrayOrder vA vB = true ∧
              ((∃ m m', vA = .obj m ∧ vB = .obj m') ∨
                (∃ xs ys, vA = .arr xs ∧ vB = .arr ys)))) ∧
        (ignoreArrayOrder = false →
          (keyRecords A B file1 file2 pfx ignoreArrayOrder k ≠ [] ↔
            (mapIndex A k = none ∨ mapIndex B k = none ∨
              ∃ vA vB, mapIndex A k = some vA ∧ mapIndex B k = some vB ∧
                deepEqual vA vB = false))) ∧
        (ignoreArrayOrder = true →
          (keyRecords A B file1 file2 pfx ignoreArrayOrder k ≠ [] ↔
            (mapIndex A k = none ∨ mapIndex B k = none ∨
              ∃ vA vB, mapIndex A k = some vA ∧ mapIndex B k = some vB ∧
                equalUpToArrayOrder vA vB = false))) := by
  rw [wellFormed_obj] at hA hB
  refine ⟨fun r => mem_diffObjects_iff A B hA.1 hB.1 _ _ _ _ r,
    fun k hk => ⟨?_, ?_, ?_, ?_, ?_, ?_, ?_⟩⟩
  · intro hne
    cases hmA : mapIndex A k with
    | none => exact Or.inl rfl
    | some vA =>
      cases hmB : mapIndex B k with
      | none => exact Or.inr (Or.inl rfl)
      | some vB =>
        refine Or.inr (Or.inr ⟨vA, vB, rfl, rfl, ?_⟩)
        cases hd : deepEqual vA vB with
        | false => rfl
        | true =>
          rw [keyRecords_both A B _ _ _ _ hmA hmB, if_pos hd] at hne
          exact absurd rfl hne
  · intro hone
    cases hmA : mapIndex A k with
    | none =>
      have hkB : k ∈ B.map Prod.fst := by
        rcases hk with h | h
        · exact absurd h (mapIndex_eq_none.1 hmA)
        · exact h
      obtain ⟨vB, hmB⟩ := mapIndex_isSome_of_key hkB
      rw [keyRecords_one_sided_second A B _ _ _ _ hmA hmB]
      simp
    | some vA =>
      have hmB : mapIndex B k = none := by
        rcases hone with h | h
        · rw [hmA] at h; cases h
        · exact h
      rw [keyRecords_one_sided_first A B _ _ _ _ hmA hmB]
      simp
  · intro vA vB hmA hmB hd hmode
    rw [keyRecords_both A B _ _ _ _ hmA hmB, if_neg (by simp [hd])]
    split
    · simp
    · rename_i hshape
      rcases hmode with h | h
      · subst h
        intro hnil
        have := diffJSONWithOptions_complete vA (hA.2 _ (mapIndex_mem hmA)) vB
          (hB.2 _ (mapIndex_mem hmB)) _ _ _ hnil
        rw [hd] at this
        exact absurd this (by decide)
      · exact diffJSONWithOptions_ne_nil_of_shape hd h _ _ _ _
  · intro vA vB hmA hmB hd
    rw [keyRecords_both A B _ _ _ _ hmA hmB, if_pos hd]
  · intro vA vB hmA hmB
    have hwA := hA.2 _ (mapIndex_mem hmA)
    have hwB := hB.2 _ (mapIndex_mem hmB)
    have hkey := keyRecords_both A B file1 file2 pfx ignoreArrayOrder hmA hmB
    -- structurally equal values are equal up to the order of arrays
    have hsound : deepEqual vA vB = true → equalUpToArrayOrder vA vB = true := fun h =>
      (diffJSONWithOptions_ignoreOrder_eq_nil_iff vA hwA vB hwB file1 file2 "").1
        (diffJSONWithOptions_eq_nil_of_deepEqual vA vB hwA hwB _ _ _ _ h)
    have hpos : ignoreArrayOrder = false →
        (keyRecords A B file1 file2 pfx ignoreArrayOrder k ≠ [] ↔
          deepEqual vA vB = false) := by
      intro hig
      subst hig
      rw [hkey]
      cases hd : deepEqual vA vB with
      | true => simp
      | false =>
        simp only [Bool.false_eq_true, if_false, iff_true]
        split
        · simp
        · intro hnil
          have := diffJSONWithOptions_complete vA hwA vB hwB _ _ _ hnil
          rw [hd] at this
          exact absurd this (by decide)
    have hign : ignoreArrayOrder = true →
        (keyRecords A B file1 file2 pfx ignoreArrayOrder k ≠ [] ↔
          equalUpToArrayOrder vA vB = false) := by
      intro hig
      subst hig
      rw [hkey]
      cases hd : deepEqual vA vB with
      | true => simp [hsound hd]
      | false =>
        simp only [Bool.false_eq_true, if_false]
        split
        · rename_i hprim
          rw [equalUpToArrayOrder_of_not_complex hprim.1, hd]
          simp
        · rw [Ne, diffJSONWithOptions_ignoreOrder_eq_nil_iff vA hwA vB hwB]
          cases equalUpToArrayOrder vA vB <;> simp
    refine ⟨hpos, hign, fun hd hnil => ?_⟩
    cases hig : ignoreArrayOrder with
    | false =>
      have := (hpos hig).2 hd
      exact absurd hnil this
    | true =>
      have heq : equalUpToArrayOrder vA vB = true := by
        cases he : equalUpToArrayOrder vA vB with
        | true => rfl
        | false => exact absurd hnil ((hign hig).2 he)
      refine ⟨rfl, heq, ?_⟩
      by_contra hshape
      rw [equalUpToArrayOrder_of_shape hshape, hd] at heq
      exact absurd heq (by decide)
  · intro hig
    subst hig
    constructor
    · intro hne
      cases hmA : mapIndex A k with
      | none => exact Or.inl rfl
      | some vA =>
        cases hmB : mapIndex B k with
        | none => exact Or.inr (Or.inl rfl)
        | some vB =>
          exact Or.inr (Or.inr ⟨vA, vB, rfl, rfl,
            (keyRecords_ne_nil_iff_positional A B _ _ _ (hA.2 _ (mapIndex_mem hmA))
              (hB.2 _ (mapIndex_mem hmB)) hmA hmB).1 hne⟩)
    · rintro (h | h | ⟨vA, vB, hmA, hmB, hd⟩)
      · exact keyRecords_ne_nil_of_one_sided A B _ _ _ _ hk (Or.inl h)
      · exact keyRecords_ne_nil_of_one_sided A B _ _ _ _ hk (Or.inr h)
      · exact (keyRecords_ne_nil_iff_positional A B _ _ _ (hA.2 _ (mapIndex_mem hmA))
          (hB.2 _ (mapIndex_mem hmB)) hmA hmB).2 hd
  · intro hig
    subst hig
    constructor
    · intro hne
      cases hmA : mapIndex A k with
      | none => exact Or.inl rfl
      | some vA =>
        cases hmB : mapIndex B k with
        | none => exact Or.inr (Or.inl rfl)
        | some vB =>
          exact Or.inr (Or.inr ⟨vA, vB, rfl, rfl,
            (keyRecords_ne_nil_iff_ignoreOrder A B _ _ _ (hA.2 _ (mapIndex_mem hmA))
              (hB.2 _ (mapIndex_mem hmB)) hmA hmB).1 hne⟩)
    · rintro (h | h | ⟨vA, vB, hmA, hmB, hd⟩)
      · exact keyRecords_ne_nil_of_one_sided A B _ _ _ _ hk (Or.inl h)
      · exact keyRecords_ne_nil_of_one_sided A B _ _ _ _ hk (Or.inr h)
      · exact (keyRecords_ne_nil_iff_ignoreOrder A B _ _ _ (hA.2 _ (mapIndex_mem hmA))
          (hB.2 _ (mapIndex_mem hmB)) hmA hmB).2 hd

/-- Witness of C4 (amended): `{"x":1,"y":[1,2]}` against
`{"x":2,"z":[1,2]}` in positional mode, where the key `"y"` is present in the
first object only and contributes a record; and `{"k":[[1,2]]}` against
`{"k":[[2,1]]}` in ignore-order mode, where the two values of `"k"` are
unequal up to the order of arrays (their elements `[1,2]` and `[2,1]` are
compared structurally) and `"k"` contributes a record, whereas `[1,2]` and
`[2,1]` themselves are equal up to order. -/
theorem diffObjects_key_union_witness :
    wellFormed (.obj [("x", .num 1), ("y", .arr [.num 1, .num 2])]) = true ∧
      wellFormed (.obj [("x", .num 2), ("z", .arr [.num 1, .num 2])]) = true ∧
      keyRecords [("x", .num 1), ("y", .arr [.num 1, .num 2])]
        [("x", .num 2), ("z", .arr [.num 1, .num 2])] "a.json" "b.json" "" false "y" ≠ [] ∧
      equalUpToArrayOrder (.arr [.num 1, .num 2]) (.arr [.num 2, .num 1]) = true ∧
      equalUpToArrayOrder (.arr [.arr [.num 1, .num 2]]) (.arr [.arr [.num 2, .num 1]])
        = false ∧
      keyRecords [("k", .arr [.arr [.num 1, .num 2]])] [("k", .arr [.arr [.num 2, .num 1]])]
        "a.json" "b.json" "" true "k" ≠ [] :=
  ⟨by decide, by decide,
    ((diffObjects_key_union _ _ (by decide) (by decide) _ _ _ _).2 "y"
      (Or.inl (by decide))).2.1 (Or.inr rfl),
    by decide, by decide,
    (((diffObjects_key_union [("k", .arr [.arr [.num 1, .num 2]])]
      [("k", .arr [.arr [.num 2, .num 1]])] (by decide) (by decide) "a.json" "b.json" ""
      true).2 "k" (Or.inl (by decide))).2.2.2.2.2.2 rfl).2
      (Or.inr (Or.inr ⟨_, _, rfl, rfl, by decide⟩))⟩

/-- C5 (ignore-order mode treats arrays as multisets).  For all arrays `A`,
`B` of Go values, `diffArraysIgnoreOrder A B` returns no record exactly when
every value occurs, up to structural equality, as often in `A` as in `B`; in
particular it returns none when `B` is a rearrangement of `A`. -/
theorem diffArraysIgnoreOrder_eq_nil_iff (A B : List JSON)
    (hA : ∀ x ∈ A, wellFormed x = true) (hB : ∀ y ∈ B, wellFormed y = true)
    (file1 file2 pfx : String) (ignoreArrayOrder : Bool) :
    (diffArraysIgnoreOrder A B file1 file2 pfx ignoreArrayOrder = [] ↔
        ∀ v, wellFormed v = true → countEq v A = countEq v B) ∧
      (A.Perm B → diffArraysIgnoreOrder A B file1 file2 pfx ignoreArrayOrder = []) := by
  have key : diffArraysIgnoreOrder A B file1 file2 pfx ignoreArrayOrder = [] ↔
      ∀ v, wellFormed v = true → countEq v A = countEq v B := by
    rw [diffArraysIgnoreOrder_eq A B hA hB, List.append_eq_nil,
      reportFirst_eq_nil _ _ _ _ _ (rankFlags_length _ _ _),
      reportSecond_eq_nil _ _ _ _ _ (rankFlags_length _ _ _),
      rankFlags_all_true B A [] hA, rankFlags_all_true A B [] hB]
    simp only [countEq_nil, Nat.zero_add]
    constructor
    · rintro ⟨h1, h2⟩ v hv
      have := h1 v hv
      have := h2 v hv
      omega
    · intro h
      exact ⟨fun v hv _ => le_of_eq (h v hv), fun v hv _ => le_of_eq (h v hv).symm⟩
  refine ⟨key, fun hp => key.2 (fun v _ => ?_)⟩
  unfold countEq
  exact hp.countP_eq _

/-- Witness of C5, the scenario of the specification:
`A = [{"a":1},{"a":2}]`, `B = [{"a":2},{"a":1}]` gives zero records. -/
theorem diffArraysIgnoreOrder_eq_nil_witness :
    (∀ x ∈ [JSON.obj [("a", .num 1)], JSON.obj [("a", .num 2)]], wellFormed x = true) ∧
      (∀ y ∈ [JSON.obj [("a", .num 2)], JSON.obj [("a", .num 1)]], wellFormed y = true) ∧
      diffArraysIgnoreOrder [.obj [("a", .num 1)], .obj [("a", .num 2)]]
        [.obj [("a", .num 2)], .obj [("a", .num 1)]] "a.json" "b.json" "" true = [] :=
  ⟨by decide, by decide,
    (diffArraysIgnoreOrder_eq_nil_iff _ _ (by decide) (by decide) _ _ _ _).2
      (List.Perm.swap _ _ _)⟩

/-- C6 (positional sensitivity), evaluated where the claim fails.  Diffing
`[1,2,3]` and `[1,3,2]` from the empty prefix in positional mode yields two
records of type `changed`, but their keys are `"[1].root"` and `"[2].root"`,
not `"[1]"` and `"[2]"`; in ignore-order mode the diff is empty. -/
theorem diffJSONWithOptions_positional_sensitivity (file1 file2 : String) :
    diffJSONWithOptions (.arr [.num 1, .num 2, .num 3]) (.arr [.num 1, .num 3, .num 2])
        file1 file2 "" false =
        [⟨"[1].root", "changed", file1, .num 2, .num 3⟩,
          ⟨"[2].root", "changed", file1, .num 3, .num 2⟩] ∧
      diffJSONWithOptions (.arr [.num 1, .num 2, .num 3]) (.arr [.num 1, .num 3, .num 2])
        file1 file2 "" true = [] ∧
      "[1].root" ≠ "[1]" ∧ "[2].root" ≠ "[2]" := by
  refine ⟨rfl, rfl, by decide, by decide⟩

/-- C7 (path validity), evaluated where the claim fails.  For
`a = {"y":[1]}`, `b = {"y":[1,2]}` the extra element is reported, in both
array modes, at the key `"y.[1]"`, not at the path `"y[1]"`; the paths that
address a location of `a` or of `b` are `root`, `y`, `y[0]` and `y[1]`, and
the key is none of them.  Likewise the changed element of `[1]` against `[2]`
is reported at `"[0].root"`, which addresses no location of either array. -/
theorem diffJSONWithOptions_nested_array_key (file1 file2 : String)
    (ignoreArrayOrder : Bool) :
    diffJSONWithOptions (.obj [("y", .arr [.num 1])]) (.obj [("y", .arr [.num 1, .num 2])])
        file1 file2 "" ignoreArrayOrder =
        [⟨"y.[1]", "only_in_second", file2, .null, .num 2⟩] ∧
      "y.[1]" ≠ "y[1]" ∧
      validPaths (.obj [("y", .arr [.num 1])]) = ["root", "y", "y[0]"] ∧
      validPaths (.obj [("y", .arr [.num 1, .num 2])]) = ["root", "y", "y[0]", "y[1]"] ∧
      "y.[1]" ∉ validPaths (.obj [("y", .arr [.num 1])])
        ++ validPaths (.obj [("y", .arr [.num 1, .num 2])]) ∧
      diffJSONWithOptions (.arr [.num 1]) (.arr [.num 2]) file1 file2 "" false =
        [⟨"[0].root", "changed", file1, .num 1, .num 2⟩] ∧
      "[0].root" ∉ validPaths (.arr [.num 1]) ++ validPaths (.arr [.num 2]) := by
  refine ⟨?_, by decide, by decide, by decide, by decide, rfl, by decide⟩
  cases ignoreArrayOrder <;> rfl

/-- C8 (one-sided object keys).  For all objects `A`, `B`, every prefix and
both array modes, the output of `diffObjects` is the concatenation of the
records of the iterations of its two loops, and:
* at an entry `(k, vA)` of `A` whose key `B` lacks, the output is the records
  of the iterations at the entries before it, then exactly one record,
  `only_in_first` at `pfx ++ k` with `A[k]` as value1, no value2 and the first
  label, then the records of the iterations at the entries after it and of the
  second loop; with distinct keys none of those other iterations is at `k`;
* at an entry `(k, vB)` of `B` whose key `A` lacks, the output is the records
  of the first loop and of the iterations at the entries before it, then
  exactly one record, `only_in_second` at `pfx ++ k` with `B[k]` as value2, no
  value1 and the second label, then the records of the iterations at the
  entries after it; with distinct keys none of those other iterations is at
  `k`.
In both cases that record is the whole of the records of the key. -/
theorem diffObjects_one_sided (A B : List (String × JSON)) (file1 file2 pfx : String)
    (ignoreArrayOrder : Bool) :
    diffObjects A B file1 file2 pfx ignoreArrayOrder =
        A.flatMap (firstLoopBody B file1 file2 pfx ignoreArrayOrder)
          ++ B.flatMap (secondLoopBody A file2 pfx) ∧
      (∀ l1 l2 k vA, A = l1 ++ (k, vA) :: l2 → k ∉ B.map Prod.fst →
        diffObjects A B file1 file2 pfx ignoreArrayOrder =
            l1.flatMap (firstLoopBody B file1 file2 pfx ignoreArrayOrder)
              ++ [⟨pfx ++ k, "only_in_first", file1, vA, .null⟩]
              ++ (l2.flatMap (firstLoopBody B file1 file2 pfx ignoreArrayOrder)
                ++ B.flatMap (secondLoopBody A file2 pfx)) ∧
          ((A.map Prod.fst).Nodup → ∀ kv ∈ l1 ++ l2, kv.1 ≠ k) ∧
          (∀ kv ∈ B, kv.1 ≠ k)) ∧
      (∀ l1 l2 k vB, B = l1 ++ (k, vB) :: l2 → k ∉ A.map Prod.fst →
        diffObjects A B file1 file2 pfx ignoreArrayOrder =
            A.flatMap (firstLoopBody B file1 file2 pfx ignoreArrayOrder)
              ++ (l1.flatMap (secondLoopBody A file2 pfx)
                ++ [⟨pfx ++ k, "only_in_second", file2, .null, vB⟩]
                ++ l2.flatMap (secondLoopBody A file2 pfx)) ∧
          ((B.map Prod.fst).Nodup → ∀ kv ∈ l1 ++ l2, kv.1 ≠ k) ∧
          (∀ kv ∈ A, kv.1 ≠ k)) ∧
      (∀ k vA, mapIndex A k = some vA → mapIndex B k = none →
        keyRecords A B file1 file2 pfx ignoreArrayOrder k =
            [⟨pfx ++ k, "only_in_first", file1, vA, .null⟩] ∧
          (⟨pfx ++ k, "only_in_first", file1, vA, .null⟩ : DiffResult) ∈
            diffObjects A B file1 file2 pfx ignoreArrayOrder) ∧
      (∀ k vB, mapIndex A k = none → mapIndex B k = some vB →
        keyRecords A B file1 file2 pfx ignoreArrayOrder k =
            [⟨pfx ++ k, "only_in_second", file2, .null, vB⟩] ∧
          (⟨pfx ++ k, "only_in_second", file2, .null, vB⟩ : DiffResult) ∈
            diffObjects A B file1 file2 pfx ignoreArrayOrder) := by
  refine ⟨diffObjects_eq A B _ _ _ _, ?_, ?_,
    fun k vA hmA hmB => ⟨keyRecords_one_sided_first A B _ _ _ _ hmA hmB, ?_⟩,
    fun k vB hmA hmB => ⟨keyRecords_one_sided_second A B _ _ _ _ hmA hmB, ?_⟩⟩
  · intro l1 l2 k vA hsplit hk
    refine ⟨?_, fun hnd => ?_, keys_ne_of_not_mem hk⟩
    · have hbody : firstLoopBody B file1 file2 pfx ignoreArrayOrder (k, vA) =
          [⟨pfx ++ k, "only_in_first", file1, vA, .null⟩] := by
        simp only [firstLoopBody, mapIndex_eq_none.2 hk]
      rw [← hbody, hsplit]
      exact diffObjects_split_first l1 l2 (k, vA) B _ _ _ _
    · rw [hsplit] at hnd
      exact keys_ne_of_nodup_split hnd
  · intro l1 l2 k vB hsplit hk
    refine ⟨?_, fun hnd => ?_, keys_ne_of_not_mem hk⟩
    · have hbody : secondLoopBody A file2 pfx (k, vB) =
          [⟨pfx ++ k, "only_in_second", file2, .null, vB⟩] := by
        simp only [secondLoopBody, mapIndex_eq_none.2 hk]
      rw [← hbody, hsplit]
      exact diffObjects_split_second A l1 l2 (k, vB) _ _ _ _
    · rw [hsplit] at hnd
      exact keys_ne_of_nodup_split hnd
  · rw [diffObjects_eq]
    refine List.mem_append.2 (Or.inl (List.mem_flatMap.2 ⟨(k, vA), mapIndex_mem hmA, ?_⟩))
    simp only [firstLoopBody, hmB, List.mem_singleton]
  · rw [diffObjects_eq]
    refine List.mem_append.2 (Or.inr (List.mem_flatMap.2 ⟨(k, vB), mapIndex_mem hmB, ?_⟩))
    simp only [secondLoopBody, hmA, List.mem_singleton]

/-- Witness of C8: `{"x":1,"y":[1,2]}` against `{"x":2,"z":[1,2]}`; the key
`"y"` is present in the first object only, and the output holds, after the
record of `"x"` and before the record of `"z"`, exactly one record for it. -/
theorem diffObjects_one_sided_witness :
    ([("x", .num 1), ("y", .arr [.num 1, .num 2])] : List (String × JSON)) =
        [("x", .num 1)] ++ ("y", .arr [.num 1, .num 2]) :: [] ∧
      "y" ∉ ([("x", JSON.num 2), ("z", JSON.arr [.num 1, .num 2])].map Prod.fst) ∧
      diffObjects [("x", .num 1), ("y", .arr [.num 1, .num 2])]
          [("x", .num 2), ("z", .arr [.num 1, .num 2])] "a.json" "b.json" "" true =
        [⟨"x", "changed", "a.json", .num 1, .num 2⟩]
          ++ [⟨"y", "only_in_first", "a.json", .arr [.num 1, .num 2], .null⟩]
          ++ ([] ++ [⟨"z", "only_in_second", "b.json", .null, .arr [.num 1, .num 2]⟩]) ∧
      keyRecords [("x", .num 1), ("y", .arr [.num 1, .num 2])]
          [("x", .num 2), ("z", .arr [.num 1, .num 2])] "a.json" "b.json" "" true "y" =
        [⟨"y", "only_in_first", "a.json", .arr [.num 1, .num 2], .null⟩] :=
  ⟨rfl, by decide,
    ((diffObjects_one_sided [("x", .num 1), ("y", .arr [.num 1, .num 2])]
      [("x", .num 2), ("z", .arr [.num 1, .num 2])] "a.json" "b.json" "" true).2.1
      [("x", .num 1)] [] "y" (.arr [.num 1, .num 2]) rfl (by decide)).1,
    ((diffObjects_one_sided [("x", .num 1), ("y", .arr [.num 1, .num 2])]
      [("x", .num 2), ("z", .arr [.num 1, .num 2])] "a.json" "b.json" "" true).2.2.2.1
      "y" (.arr [.num 1, .num 2]) rfl rfl).1⟩

/-- C9 (positional array matcher).  For all arrays `A`, `B` and every prefix,
`diffArrays A B` is the concatenation, in ascending order of the index `i`
below `max (len A) (len B)`, of the records of index `i`; an index that only
`A` has yields exactly one record, `only_in_first` at `pfx[i]` carrying `A[i]`
with the first label; an index that only `B` has yields exactly one record,
`only_in_second` at `pfx[i]` carrying `B[i]` with the second label; an index
where both elements are structurally equal yields no record. -/
theorem diffArrays_by_index (A B : List JSON) (file1 file2 pfx : String)
    (ignoreArrayOrder : Bool) :
    diffArrays A B file1 file2 pfx ignoreArrayOrder =
        (List.range (max A.length B.length)).flatMap
          (arrayLoopBody A B file1 file2 pfx ignoreArrayOrder) ∧
      (∀ i (hA : i < A.length), B.length ≤ i →
        arrayLoopBody A B file1 file2 pfx ignoreArrayOrder i =
          [⟨pfx ++ "[" ++ toString i ++ "]", "only_in_first", file1, A[i], .null⟩]) ∧
      (∀ i (hB : i < B.length), A.length ≤ i →
        arrayLoopBody A B file1 file2 pfx ignoreArrayOrder i =
          [⟨pfx ++ "[" ++ toString i ++ "]", "only_in_second", file2, .null, B[i]⟩]) ∧
      (∀ i (hA : i < A.length) (hB : i < B.length), deepEqual A[i] B[i] = true →
        arrayLoopBody A B file1 file2 pfx ignoreArrayOrder i = []) := by
  refine ⟨diffArrays_eq A B _ _ _ _, ?_, ?_, ?_⟩
  · intro i hA hB
    simp only [arrayLoopBody, List.getElem?_eq_getElem hA, List.getElem?_eq_none hB, indexKey]
  · intro i hB hA
    simp only [arrayLoopBody, List.getElem?_eq_getElem hB, List.getElem?_eq_none hA, indexKey]
  · intro i hA hB hd
    simp only [arrayLoopBody, List.getElem?_eq_getElem hA, List.getElem?_eq_getElem hB, hd,
      Bool.not_true, Bool.false_eq_true, if_false]

/-- Witness of C9: `[1,2,3]` against `[1]`; only the first array has index 2. -/
theorem diffArrays_by_index_witness :
    arrayLoopBody [.num 1, .num 2, .num 3] [.num 1] "a.json" "b.json" "" false 2 =
        [⟨"[2]", "only_in_first", "a.json", .num 3, .null⟩] ∧
      diffArrays [.num 1, .num 2, .num 3] [.num 1] "a.json" "b.json" "" false =
        [⟨"[1]", "only_in_first", "a.json", .num 2, .null⟩,
          ⟨"[2]", "only_in_first", "a.json", .num 3, .null⟩] :=
  ⟨(diffArrays_by_index [.num 1, .num 2, .num 3] [.num 1] "a.json" "b.json" "" false).2.1 2
    (by decide) (by decide), rfl⟩

/-- C10 (primitive comparison at the document root).  For all primitive
values `a`, `b` compared with the empty prefix, in both array modes:
structural equality of `a` and `b` is equality; the result is empty when they
are structurally equal, and otherwise it is exactly one record with key
`"root"`, type `changed`, value1 `a` and value2 `b`. -/
theorem diffJSONWithOptions_primitive_root (a b : JSON) (ha : isComplexType a = false)
    (_hb : isComplexType b = false) (file1 file2 : String) (ignoreArrayOrder : Bool) :
    (deepEqual a b = true ↔ a = b) ∧
      (deepEqual a b = true →
        diffJSONWithOptions a b file1 file2 "" ignoreArrayOrder = []) ∧
      (deepEqual a b = false →
        diffJSONWithOptions a b file1 file2 "" ignoreArrayOrder =
          [⟨"root", "changed", file1, a, b⟩]) := by
  refine ⟨deepEqual_eq_of_not_complex ha, fun h => ?_, fun h => ?_⟩
  · rw [diffJSONWithOptions_of_not_complex ha, if_pos h]
  · rw [diffJSONWithOptions_of_not_complex ha, if_neg (by simp [h])]
    rfl

/-- Witness of C10: the number `1` against the string `"1"`. -/
theorem diffJSONWithOptions_primitive_root_witness :
    isComplexType (.num 1) = false ∧ isComplexType (.str "1") = false ∧
      deepEqual (.num 1) (.str "1") = false ∧
      diffJSONWithOptions (.num 1) (.str "1") "a.json" "b.json" "" true =
        [⟨"root", "changed", "a.json", .num 1, .str "1"⟩] :=
  ⟨rfl, rfl, rfl,
    (diffJSONWithOptions_primitive_root (.num 1) (.str "1") rfl rfl "a.json" "b.json" true).2.2
      rfl⟩

/-! ## The report and the scenarios of the specification -/

theorem perm_pair {α : Type} {x y : α} {l : List α} (h : l.Perm [x, y]) :
    l = [x, y] ∨ l = [y, x] := by
  have hlen := h.length_eq
  match l, hlen, h with
  | [p, q], _, h =>
    have hp : p ∈ [x, y] := h.subset (List.mem_cons_self _ _)
    have hq : q ∈ [x, y] := h.subset (List.mem_cons_of_mem _ (List.mem_cons_self _ _))
    have hx : x ∈ [p, q] := h.symm.subset (List.mem_cons_self _ _)
    have hy : y ∈ [p, q] := h.symm.subset (List.mem_cons_of_mem _ (List.mem_cons_self _ _))
    simp only [List.mem_cons, List.mem_singleton, List.not_mem_nil, or_false] at hp hq hx hy
    rcases hp with hp | hp <;> rcases hq with hq | hq <;> rcases hx with hx | hx <;>
      rcases hy with hy | hy <;> subst_vars <;>
      first
        | exact Or.inl rfl
        | exact Or.inr rfl

theorem returnedSlice_records (l : List DiffResult) : sliceRecords (returnedSlice l) = l := by
  cases l <;> rfl

/-- C11 (mixed scenario).  For `A = {"x": 1, "y": [1,2]}` and
`B = {"x": 2, "z": [1,2]}`, under every order in which the two maps are ranged
over, from the empty prefix and in either array mode, the result consists of
exactly three records: `changed` at `"x"` with value1 `1` and value2 `2`,
`only_in_first` at `"y"` with value1 `[1,2]`, and, last, `only_in_second` at
`"z"` with value2 `[1,2]`; the report has `IsDiff = true`. -/
theorem diffJSONWithOptions_mixed_scenario (A B : List (String × JSON))
    (hA : A.Perm [("x", .num 1), ("y", .arr [.num 1, .num 2])])
    (hB : B.Perm [("x", .num 2), ("z", .arr [.num 1, .num 2])])
    (file1 file2 : String) (ignoreArrayOrder : Bool) :
    (diffJSONWithOptions (.obj A) (.obj B) file1 file2 "" ignoreArrayOrder =
          [⟨"x", "changed", file1, .num 1, .num 2⟩,
            ⟨"y", "only_in_first", file1, .arr [.num 1, .num 2], .null⟩,
            ⟨"z", "only_in_second", file2, .null, .arr [.num 1, .num 2]⟩] ∨
        diffJSONWithOptions (.obj A) (.obj B) file1 file2 "" ignoreArrayOrder =
          [⟨"y", "only_in_first", file1, .arr [.num 1, .num 2], .null⟩,
            ⟨"x", "changed", file1, .num 1, .num 2⟩,
            ⟨"z", "only_in_second", file2, .null, .arr [.num 1, .num 2]⟩]) ∧
      (mainReport (.obj A) (.obj B) file1 file2 ignoreArrayOrder).IsDiff = true := by
  have key : diffJSONWithOptions (.obj A) (.obj B) file1 file2 "" ignoreArrayOrder =
          [⟨"x", "changed", file1, .num 1, .num 2⟩,
            ⟨"y", "only_in_first", file1, .arr [.num 1, .num 2], .null⟩,
            ⟨"z", "only_in_second", file2, .null, .arr [.num 1, .num 2]⟩] ∨
        diffJSONWithOptions (.obj A) (.obj B) file1 file2 "" ignoreArrayOrder =
          [⟨"y", "only_in_first", file1, .arr [.num 1, .num 2], .null⟩,
            ⟨"x", "changed", file1, .num 1, .num 2⟩,
            ⟨"z", "only_in_second", file2, .null, .arr [.num 1, .num 2]⟩] := by
    rcases perm_pair hA with rfl | rfl <;> rcases perm_pair hB with rfl | rfl <;>
      cases ignoreArrayOrder <;> first
        | exact Or.inl rfl
        | exact Or.inr rfl
  refine ⟨key, ?_⟩
  unfold mainReport mainOutput
  rw [returnedSlice_records]
  rcases key with h | h <;> rw [h] <;> rfl

/-- Witness of C11: the two maps ranged over in the order `x, y` and `z, x`. -/
theorem diffJSONWithOptions_mixed_scenario_witness :
    diffJSONWithOptions (.obj [("x", .num 1), ("y", .arr [.num 1, .num 2])])
        (.obj [("z", .arr [.num 1, .num 2]), ("x", .num 2)]) "a.json" "b.json" "" false =
        [⟨"x", "changed", "a.json", .num 1, .num 2⟩,
          ⟨"y", "only_in_first", "a.json", .arr [.num 1, .num 2], .null⟩,
          ⟨"z", "only_in_second", "b.json", .null, .arr [.num 1, .num 2]⟩] ∧
      (mainReport (.obj [("x", .num 1), ("y", .arr [.num 1, .num 2])])
        (.obj [("z", .arr [.num 1, .num 2]), ("x", .num 2)]) "a.json" "b.json" false).IsDiff
        = true :=
  ⟨rfl, (diffJSONWithOptions_mixed_scenario [("x", .num 1), ("y", .arr [.num 1, .num 2])]
    [("z", .arr [.num 1, .num 2]), ("x", .num 2)] (List.Perm.refl _) (List.Perm.swap _ _ _)
    "a.json" "b.json" false).2⟩

/-- C12 (report envelope).  For every slice `diffs` the differ can return, the
report has `IsDiff = true` exactly when its record list is non-empty, its
record list holds exactly the records of `diffs`, and its `Diff` field is never
the nil slice; so for all documents, labels and both array modes the report of
`main` has `IsDiff = true` exactly when the differ returned a record, and its
`Diff` is a non-nil slice holding exactly the records the differ returned.  For
`A = {}`, `B = {}` the report is `IsDiff = false` with the empty, non-nil
slice. -/
theorem mainReport_envelope :
    (∀ diffs : Option (List DiffResult),
        ((mainOutput diffs).IsDiff = true ↔ sliceRecords (mainOutput diffs).Diff ≠ []) ∧
          sliceRecords (mainOutput diffs).Diff = sliceRecords diffs ∧
          (mainOutput diffs).Diff ≠ none) ∧
      (∀ (json1 json2 : JSON) (file1 file2 : String) (ignoreArrayOrder : Bool),
        ((mainReport json1 json2 file1 file2 ignoreArrayOrder).IsDiff = true ↔
            diffJSONWithOptions json1 json2 file1 file2 "" ignoreArrayOrder ≠ []) ∧
          (mainReport json1 json2 file1 file2 ignoreArrayOrder).Diff =
            some (diffJSONWithOptions json1 json2 file1 file2 "" ignoreArrayOrder)) ∧
      (∀ (file1 file2 : String) (ignoreArrayOrder : Bool),
        (mainReport (.obj []) (.obj []) file1 file2 ignoreArrayOrder).IsDiff = false ∧
          (mainReport (.obj []) (.obj []) file1 file2 ignoreArrayOrder).Diff = some []) := by
  have h1 : ∀ diffs : Option (List DiffResult),
      ((mainOutput diffs).IsDiff = true ↔ sliceRecords (mainOutput diffs).Diff ≠ []) ∧
        sliceRecords (mainOutput diffs).Diff = sliceRecords diffs ∧
        (mainOutput diffs).Diff ≠ none := by
    intro diffs
    cases diffs with
    | none => simp [mainOutput, sliceRecords]
    | some l =>
      cases l with
      | nil => simp [mainOutput, sliceRecords]
      | cons r rs => simp [mainOutput, sliceRecords]
  refine ⟨h1, ?_, ?_⟩
  · intro json1 json2 file1 file2 ig
    unfold mainReport
    cases h : diffJSONWithOptions json1 json2 file1 file2 "" ig with
    | nil => simp [mainOutput, sliceRecords, returnedSlice]
    | cons r rs => simp [mainOutput, sliceRecords, returnedSlice]
  · intro file1 file2 ig
    cases ig <;> exact ⟨rfl, rfl⟩

/-- C13 (totality of the core).  For all JSON values `a`, `b`, all labels,
every prefix and both array modes, the differ with checked indexing, run with
any fuel above the nesting depth of `a`, terminates and returns the record list
of `diffJSONWithOptions`; with any fuel at all it never fails by an index out
of range.  In particular `diffArraysIgnoreOrder` with checked `matchedA` and
`matchedB` accesses returns its records for all arrays, and at every index
below `max (len A) (len B)` the accesses `a[i]`, `b[i]` of the body of the
loop of `diffArrays` are in range. -/
theorem diffJSONWithOptionsChecked_total (a b : JSON) (file1 file2 pfx : String)
    (ignoreArrayOrder : Bool) :
    (∀ fuel, depth a < fuel →
        diffJSONWithOptionsChecked fuel a b file1 file2 pfx ignoreArrayOrder =
          .ok (diffJSONWithOptions a b file1 file2 pfx ignoreArrayOrder)) ∧
      (∀ fuel, diffJSONWithOptionsChecked fuel a b file1 file2 pfx ignoreArrayOrder ≠
        .error .indexOutOfRange) ∧
      (∀ A B : List JSON,
        diffArraysIgnoreOrderChecked A B file1 file2 pfx =
          .ok (diffArraysIgnoreOrder A B file1 file2 pfx ignoreArrayOrder)) ∧
      (∀ (A B : List JSON) (i : Nat), i < max A.length B.length →
        arrayLoopBodyChecked
            (fun x y p => .ok (diffJSONWithOptions x y file1 file2 p ignoreArrayOrder))
            A B file1 file2 pfx i =
          .ok (arrayLoopBody A B file1 file2 pfx ignoreArrayOrder i)) := by
  refine ⟨fun fuel h => ?_, fun fuel => ?_, fun A B => ?_, fun A B i hi => ?_⟩
  · rcases diffJSONWithOptionsChecked_returns false file1 file2 ignoreArrayOrder fuel a b pfx
      (Or.inr h) with h1 | ⟨h1, _⟩
    · exact h1
    · exact absurd h1 (by decide)
  · rcases diffJSONWithOptionsChecked_returns true file1 file2 ignoreArrayOrder fuel a b pfx
      (Or.inl rfl) with h1 | ⟨_, h1⟩
    · rw [h1]; intro h; cases h
    · rw [h1]; intro h; cases h
  · exact diffArraysIgnoreOrderChecked_eq A B file1 file2 pfx ignoreArrayOrder
  · rcases arrayLoopBodyChecked_returns false _ A B file1 file2 pfx ignoreArrayOrder
      (fun x _ y p => Or.inl rfl) i hi with h1 | ⟨h1, _⟩
    · exact h1
    · exact absurd h1 (by decide)

/-- Witness of C13: `{"x":[1,[2]]}`, of depth 3, against `{"x":[1,[3],4]}`
with fuel 4. -/
theorem diffJSONWithOptionsChecked_total_witness :
    depth (.obj [("x", .arr [.num 1, .arr [.num 2]])]) < 4 ∧
      diffJSONWithOptionsChecked 4 (.obj [("x", .arr [.num 1, .arr [.num 2]])])
          (.obj [("x", .arr [.num 1, .arr [.num 3], .num 4])]) "a.json" "b.json" "" false =
        .ok (diffJSONWithOptions (.obj [("x", .arr [.num 1, .arr [.num 2]])])
          (.obj [("x", .arr [.num 1, .arr [.num 3], .num 4])]) "a.json" "b.json" "" false) :=
  ⟨by decide,
    (diffJSONWithOptionsChecked_total _ _ _ _ _ _).1 4 (by decide)⟩

/-- C14 (scalar leaves in objects).  For all objects `A`, `B`, every prefix
and both array modes, at an entry `(k, A[k])` of `A` whose key is present in
`B` with a structurally unequal value:
* when neither value is an object or an array, the output of `diffObjects` is
  the records of the iterations at the entries before it, then exactly one
  record, `changed` at `pfx ++ k` (no further suffix) with value1 `A[k]` and
  value2 `B[k]`, then the records of the iterations at the entries after it
  and of the second loop;
* when at least one of the two values is an object or an array, the output
  holds in that place exactly the records of `diffJSONWithOptions` on
  `(A[k], B[k])`, called for the path of `k` (the prefix argument
  `pfx ++ k ++ "."`).
With distinct keys no other iteration of the first loop is at `k`, and the
second loop appends nothing at `k`; so these records are the whole of the
records of the key. -/
theorem diffObjects_scalar_leaf (A B : List (String × JSON)) (file1 file2 pfx : String)
    (ignoreArrayOrder : Bool) (l1 l2 : List (String × JSON)) (k : String) (vA vB : JSON)
    (hA : A = l1 ++ (k, vA) :: l2) (hB : mapIndex B k = some vB)
    (hne : deepEqual vA vB = false) :
    ((∀ m, vA ≠ .obj m) → (∀ xs, vA ≠ .arr xs) → (∀ m, vB ≠ .obj m) → (∀ xs, vB ≠ .arr xs) →
        diffObjects A B file1 file2 pfx ignoreArrayOrder =
          l1.flatMap (firstLoopBody B file1 file2 pfx ignoreArrayOrder)
            ++ [⟨pfx ++ k, "changed", file1, vA, vB⟩]
            ++ (l2.flatMap (firstLoopBody B file1 file2 pfx ignoreArrayOrder)
              ++ B.flatMap (secondLoopBody A file2 pfx))) ∧
      ((∃ m, vA = .obj m) ∨ (∃ xs, vA = .arr xs) ∨ (∃ m, vB = .obj m) ∨
          (∃ xs, vB = .arr xs) →
        diffObjects A B file1 file2 pfx ignoreArrayOrder =
          l1.flatMap (firstLoopBody B file1 file2 pfx ignoreArrayOrder)
            ++ diffJSONWithOptions vA vB file1 file2 (pfx ++ k ++ ".") ignoreArrayOrder
            ++ (l2.flatMap (firstLoopBody B file1 file2 pfx ignoreArrayOrder)
              ++ B.flatMap (secondLoopBody A file2 pfx))) ∧
      ((A.map Prod.fst).Nodup → ∀ kv ∈ l1 ++ l2, kv.1 ≠ k) ∧
      (∀ kv ∈ B, kv.1 = k → secondLoopBody A file2 pfx kv = []) ∧
      (mapIndex A k = some vA →
        ((∀ m, vA ≠ .obj m) → (∀ xs, vA ≠ .arr xs) → (∀ m, vB ≠ .obj m) →
            (∀ xs, vB ≠ .arr xs) →
          keyRecords A B file1 file2 pfx ignoreArrayOrder k =
            [⟨pfx ++ k, "changed", file1, vA, vB⟩]) ∧
        ((∃ m, vA = .obj m) ∨ (∃ xs, vA = .arr xs) ∨ (∃ m, vB = .obj m) ∨
            (∃ xs, vB = .arr xs) →
          keyRecords A B file1 file2 pfx ignoreArrayOrder k =
            diffJSONWithOptions vA vB file1 file2 (pfx ++ k ++ ".") ignoreArrayOrder) ∧
        (isComplexType vA = false → isComplexType vB = false →
          keyRecords A B file1 file2 pfx ignoreArrayOrder k =
            [⟨pfx ++ k, "changed", file1, vA, vB⟩]) ∧
        (isComplexType vA = true ∨ isComplexType vB = true →
          keyRecords A B file1 file2 pfx ignoreArrayOrder k =
            diffJSONWithOptions vA vB file1 file2 (pfx ++ k ++ ".") ignoreArrayOrder) ∧
        (∀ r ∈ keyRecords A B file1 file2 pfx ignoreArrayOrder k,
          r ∈ diffObjects A B file1 file2 pfx ignoreArrayOrder)) := by
  have hsplit := diffObjects_split_first l1 l2 (k, vA) B file1 file2 pfx ignoreArrayOrder
  rw [← hA] at hsplit
  have hprimBody : isComplexType vA = false → isComplexType vB = false →
      firstLoopBody B file1 file2 pfx ignoreArrayOrder (k, vA) =
        [⟨pfx ++ k, "changed", file1, vA, vB⟩] := by
    intro h1 h2
    simp [firstLoopBody, hB, hne, h1, h2]
  have hcomplexBody : isComplexType vA = true ∨ isComplexType vB = true →
      firstLoopBody B file1 file2 pfx ignoreArrayOrder (k, vA) =
        diffJSONWithOptions vA vB file1 file2 (pfx ++ k ++ ".") ignoreArrayOrder := by
    intro h
    rcases h with h | h
    · simp [firstLoopBody, hB, hne, h]
    · simp [firstLoopBody, hB, hne, h]
  have hshape : (∃ m, vA = .obj m) ∨ (∃ xs, vA = .arr xs) ∨ (∃ m, vB = .obj m) ∨
      (∃ xs, vB = .arr xs) → isComplexType vA = true ∨ isComplexType vB = true := by
    intro h
    rcases h with h | h | h | h
    · exact Or.inl ((isComplexType_eq_true_iff vA).2 (Or.inl h))
    · exact Or.inl ((isComplexType_eq_true_iff vA).2 (Or.inr h))
    · exact Or.inr ((isComplexType_eq_true_iff vB).2 (Or.inl h))
    · exact Or.inr ((isComplexType_eq_true_iff vB).2 (Or.inr h))
  have hkeyPrim : mapIndex A k = some vA → isComplexType vA = false →
      isComplexType vB = false →
      keyRecords A B file1 file2 pfx ignoreArrayOrder k =
        [⟨pfx ++ k, "changed", file1, vA, vB⟩] := by
    intro hmA h1 h2
    rw [keyRecords_both A B _ _ _ _ hmA hB, if_neg (by simp [hne]), if_pos ⟨h1, h2⟩]
  have hkeyComplex : mapIndex A k = some vA →
      isComplexType vA = true ∨ isComplexType vB = true →
      keyRecords A B file1 file2 pfx ignoreArrayOrder k =
        diffJSONWithOptions vA vB file1 file2 (pfx ++ k ++ ".") ignoreArrayOrder := by
    intro hmA h
    rw [keyRecords_both A B _ _ _ _ hmA hB, if_neg (by simp [hne]), if_neg]
    rintro ⟨h1, h2⟩
    rcases h with h | h
    · rw [h1] at h; cases h
    · rw [h2] at h; cases h
  refine ⟨fun a1 a2 b1 b2 => ?_, fun h => ?_, fun hnd => ?_, fun kv _ hk => ?_,
    fun hmA => ⟨fun a1 a2 b1 b2 => ?_, fun h => hkeyComplex hmA (hshape h),
      hkeyPrim hmA, hkeyComplex hmA, keyRecords_subset A B _ _ _ _ k⟩⟩
  · rw [hsplit, hprimBody ((isComplexType_eq_false_iff vA).2 ⟨a1, a2⟩)
      ((isComplexType_eq_false_iff vB).2 ⟨b1, b2⟩)]
  · rw [hsplit, hcomplexBody (hshape h)]
  · rw [hA] at hnd
    exact keys_ne_of_nodup_split hnd
  · have hmem : k ∈ A.map Prod.fst := by
      rw [hA]
      exact List.mem_map.2 ⟨(k, vA), by simp, rfl⟩
    obtain ⟨v, hv⟩ := mapIndex_isSome_of_key hmem
    simp only [secondLoopBody, hk, hv]
  · exact hkeyPrim hmA ((isComplexType_eq_false_iff vA).2 ⟨a1, a2⟩)
      ((isComplexType_eq_false_iff vB).2 ⟨b1, b2⟩)

/-- Witness of C14: `{"x":1,"y":[1]}` against `{"x":2,"y":{}}` from the prefix
`"p."`: at the key `"y"`, an array against an object, the output holds after
the record of `"x"` the records of the recursive call, one `type_mismatch` at
`"p.y.root"`; at the scalar key `"x"` it holds one `changed` at `"p.x"`. -/
theorem diffObjects_scalar_leaf_witness :
    deepEqual (.arr [.num 1]) (.obj []) = false ∧
      diffObjects [("x", .num 1), ("y", .arr [.num 1])] [("x", .num 2), ("y", .obj [])]
          "a.json" "b.json" "p." false =
        [⟨"p.x", "changed", "a.json", .num 1, .num 2⟩]
          ++ [⟨"p.y.root", "type_mismatch", "a.json", .arr [.num 1], .obj []⟩]
          ++ ([] ++ []) ∧
      diffObjects [("x", .num 1), ("y", .arr [.num 1])] [("x", .num 2), ("y", .obj [])]
          "a.json" "b.json" "p." false =
        [] ++ [⟨"p.x", "changed", "a.json", .num 1, .num 2⟩]
          ++ ([⟨"p.y.root", "type_mismatch", "a.json", .arr [.num 1], .obj []⟩] ++ []) :=
  ⟨rfl,
    (diffObjects_scalar_leaf [("x", .num 1), ("y", .arr [.num 1])]
      [("x", .num 2), ("y", .obj [])] "a.json" "b.json" "p." false [("x", .num 1)] [] "y"
      (.arr [.num 1]) (.obj []) rfl rfl rfl).2.1 (Or.inr (Or.inl ⟨_, rfl⟩)),
    (diffObjects_scalar_leaf [("x", .num 1), ("y", .arr [.num 1])]
      [("x", .num 2), ("y", .obj [])] "a.json" "b.json" "p." false [] [("y", .arr [.num 1])]
      "x" (.num 1) (.num 2) rfl rfl rfl).1 (fun _ h => by cases h) (fun _ h => by cases h)
      (fun _ h => by cases h) (fun _ h => by cases h)⟩

/-- C15 (two-pass record order).  For all objects `A`, `B`, ranged over in any
order (the order of the two lists), the output of `diffObjects` is the
concatenation of a first part, the records of the iterations of the first loop
over the entries of `A` in order (each iteration appends nothing, one
`only_in_first`, one `changed`, or the records of a recursive call), and a
second part that consists solely of one `only_in_second` record for each entry
of `B` whose key `A` lacks, in order. -/
theorem diffObjects_two_pass (A B : List (String × JSON)) (file1 file2 pfx : String)
    (ignoreArrayOrder : Bool) :
    diffObjects A B file1 file2 pfx ignoreArrayOrder =
        A.flatMap (firstLoopBody B file1 file2 pfx ignoreArrayOrder)
          ++ (B.filter (fun kv => (mapIndex A kv.1).isNone)).map
            (fun kv => (⟨pfx ++ kv.1, "only_in_second", file2, .null, kv.2⟩ : DiffResult)) ∧
      ∀ kv : String × JSON,
        firstLoopBody B file1 file2 pfx ignoreArrayOrder kv = [] ∨
          firstLoopBody B file1 file2 pfx ignoreArrayOrder kv =
            [⟨pfx ++ kv.1, "only_in_first", file1, kv.2, .null⟩] ∨
          (∃ vB, firstLoopBody B file1 file2 pfx ignoreArrayOrder kv =
            [⟨pfx ++ kv.1, "changed", file1, kv.2, vB⟩]) ∨
          (∃ vB, firstLoopBody B file1 file2 pfx ignoreArrayOrder kv =
            diffJSONWithOptions kv.2 vB file1 file2 (pfx ++ kv.1 ++ ".") ignoreArrayOrder) := by
  constructor
  · rw [diffObjects, diffObjectsFirst_eq, diffObjectsSecond_eq_filter]
  · intro kv
    cases hm : mapIndex B kv.1 with
    | none =>
      refine Or.inr (Or.inl ?_)
      simp only [firstLoopBody, hm]
    | some vB =>
      cases hd : deepEqual kv.2 vB with
      | true =>
        refine Or.inl ?_
        simp only [firstLoopBody, hm, hd, Bool.not_true, Bool.false_eq_true, if_false]
      | false =>
        cases hcA : isComplexType kv.2 <;> cases hcB : isComplexType vB
        · refine Or.inr (Or.inr (Or.inl ⟨vB, ?_⟩))
          simp [firstLoopBody, hm, hd, hcA, hcB]
        · refine Or.inr (Or.inr (Or.inr ⟨vB, ?_⟩))
          simp [firstLoopBody, hm, hd, hcA, hcB]
        · refine Or.inr (Or.inr (Or.inr ⟨vB, ?_⟩))
          simp [firstLoopBody, hm, hd, hcA, hcB]
        · refine Or.inr (Or.inr (Or.inr ⟨vB, ?_⟩))
          simp [firstLoopBody, hm, hd, hcA, hcB]

/-- C16 (completeness of detection in positional mode).  For all JSON values
`a`, `b` (Go values: the keys of each object are distinct), all labels and
every prefix: if `diffJSONWithOptions a b` with `ignoreArrayOrder = false`
returns no record then `a` and `b` are structurally equal; every structurally
unequal pair yields at least one record; and the report of `main` has
`IsDiff = false` exactly when the documents are structurally equal. -/
theorem diffJSONWithOptions_positional_complete (a b : JSON) (ha : wellFormed a = true)
    (hb : wellFormed b = true) (file1 file2 pfx : String) :
    (diffJSONWithOptions a b file1 file2 pfx false = [] → deepEqual a b = true) ∧
      (deepEqual a b = false → diffJSONWithOptions a b file1 file2 pfx false ≠ []) ∧
      ((mainReport a b file1 file2 false).IsDiff = false ↔ deepEqual a b = true) := by
  have hc := diffJSONWithOptions_complete a ha b hb file1 file2
  refine ⟨hc pfx, fun hne hnil => ?_, ?_⟩
  · have := hc pfx hnil
    rw [hne] at this
    exact absurd this (by decide)
  · unfold mainReport mainOutput
    rw [returnedSlice_records]
    constructor
    · intro h
      apply hc ""
      cases hd : diffJSONWithOptions a b file1 file2 "" false with
      | nil => rfl
      | cons r rs => rw [hd] at h; simp at h
    · intro h
      rw [diffJSONWithOptions_eq_nil_of_deepEqual a b ha hb _ _ _ _ h]
      rfl

/-- Witness of C16: `{"x":[1,2]}` against `{"x":[2,1]}`, structurally unequal,
yields a record in positional mode. -/
theorem diffJSONWithOptions_positional_complete_witness :
    wellFormed (.obj [("x", .arr [.num 1, .num 2])]) = true ∧
      wellFormed (.obj [("x", .arr [.num 2, .num 1])]) = true ∧
      deepEqual (.obj [("x", .arr [.num 1, .num 2])]) (.obj [("x", .arr [.num 2, .num 1])])
        = false ∧
      diffJSONWithOptions (.obj [("x", .arr [.num 1, .num 2])])
        (.obj [("x", .arr [.num 2, .num 1])]) "a.json" "b.json" "" false ≠ [] :=
  ⟨by decide, by decide, by decide,
    (diffJSONWithOptions_positional_complete _ _ (by decide) (by decide) _ _ _).2.1
      (by decide)⟩

/-- C17 (the greedy pairing is a maximum matching).  For all arrays `A`, `B`
of Go values and every value `v`, counting up to structural equality: the
number of `only_in_first` records of `diffArraysIgnoreOrder A B` carrying `v`
is the count of `v` in `A` minus its count in `B`, truncated at zero; the
number of `only_in_second` records carrying `v` is the count in `B` minus the
count in `A`, truncated at zero; so no value is reported on both sides.  Every
record is `only_in_first` or `only_in_second`, and the number of records is
`len(A) + len(B) - 2·|A ∩ B|`, where `A ∩ B` is the multiset intersection: it
holds each value with the smaller of its two multiplicities. -/
theorem diffArraysIgnoreOrder_counts (A B : List JSON)
    (hA : ∀ x ∈ A, wellFormed x = true) (hB : ∀ y ∈ B, wellFormed y = true)
    (file1 file2 pfx : String) (ignoreArrayOrder : Bool) :
    (∀ v, wellFormed v = true →
        (diffArraysIgnoreOrder A B file1 file2 pfx ignoreArrayOrder).countP
            (fun r => r.Typ == "only_in_first" && deepEqual v r.Value1) =
          countEq v A - countEq v B ∧
        (diffArraysIgnoreOrder A B file1 file2 pfx ignoreArrayOrder).countP
            (fun r => r.Typ == "only_in_second" && deepEqual v r.Value2) =
          countEq v B - countEq v A ∧
        (0 < (diffArraysIgnoreOrder A B file1 file2 pfx ignoreArrayOrder).countP
              (fun r => r.Typ == "only_in_first" && deepEqual v r.Value1) →
          (diffArraysIgnoreOrder A B file1 file2 pfx ignoreArrayOrder).countP
              (fun r => r.Typ == "only_in_second" && deepEqual v r.Value2) = 0) ∧
        countEq v (multisetInter A B) = min (countEq v A) (countEq v B)) ∧
      (∀ r ∈ diffArraysIgnoreOrder A B file1 file2 pfx ignoreArrayOrder,
        r.Typ = "only_in_first" ∨ r.Typ = "only_in_second") ∧
      (diffArraysIgnoreOrder A B file1 file2 pfx ignoreArrayOrder).length =
        A.length + B.length - 2 * (multisetInter A B).length := by
  have hfirst : ∀ v, wellFormed v = true →
      (diffArraysIgnoreOrder A B file1 file2 pfx ignoreArrayOrder).countP
          (fun r => r.Typ == "only_in_first" && deepEqual v r.Value1) =
        countEq v A - countEq v B := by
    intro v hv
    rw [diffArraysIgnoreOrder_eq A B hA hB, List.countP_append,
      countP_reportFirst v hv file1 pfx B A hA 0 [],
      countP_eq_zero_of_typ (by decide) (reportSecond_typ file2 pfx B 0 _)]
    rw [countEq_nil]
    omega
  have hsecond : ∀ v, wellFormed v = true →
      (diffArraysIgnoreOrder A B file1 file2 pfx ignoreArrayOrder).countP
          (fun r => r.Typ == "only_in_second" && deepEqual v r.Value2) =
        countEq v B - countEq v A := by
    intro v hv
    rw [diffArraysIgnoreOrder_eq A B hA hB, List.countP_append,
      countP_reportSecond v hv file2 pfx A B hB 0 [],
      countP_eq_zero_of_typ (by decide) (reportFirst_typ file1 pfx A 0 _)]
    rw [countEq_nil]
    omega
  refine ⟨fun v hv => ⟨hfirst v hv, hsecond v hv, ?_, ?_⟩, ?_, ?_⟩
  · rw [hfirst v hv, hsecond v hv]
    omega
  · rw [multisetInter, countEq_multisetInterFrom v hv B A hA [], countEq_nil]
    simp
  · intro r hr
    rw [diffArraysIgnoreOrder_eq A B hA hB, List.mem_append] at hr
    rcases hr with hr | hr
    · exact Or.inl (reportFirst_typ file1 pfx A 0 _ r hr)
    · exact Or.inr (reportSecond_typ file2 pfx B 0 _ r hr)
  · have h1 := length_reportFirst file1 pfx A 0 (rankFlags B [] A) (rankFlags_length _ _ _)
    have h2 := length_reportSecond file2 pfx B 0 (rankFlags A [] B) (rankFlags_length _ _ _)
    have h3 := rankFlags_count_comm A B hA hB
    have h4 := length_multisetInterFrom B A []
    rw [diffArraysIgnoreOrder_eq A B hA hB, List.length_append, multisetInter, h4]
    omega

/-- Witness of C17: `A = [1,1,2]`, `B = [1,3]`: one `1` is paired, the records
are the second `1` and the `2` of `A` and the `3` of `B`. -/
theorem diffArraysIgnoreOrder_counts_witness :
    (∀ x ∈ [JSON.num 1, JSON.num 1, JSON.num 2], wellFormed x = true) ∧
      (∀ y ∈ [JSON.num 1, JSON.num 3], wellFormed y = true) ∧
      diffArraysIgnoreOrder [.num 1, .num 1, .num 2] [.num 1, .num 3] "a.json" "b.json" "" true =
        [⟨"[1]", "only_in_first", "a.json", .num 1, .null⟩,
          ⟨"[2]", "only_in_first", "a.json", .num 2, .null⟩,
          ⟨"[1]", "only_in_second", "b.json", .null, .num 3⟩] ∧
      (diffArraysIgnoreOrder [.num 1, .num 1, .num 2] [.num 1, .num 3] "a.json" "b.json" ""
          true).length =
        [JSON.num 1, JSON.num 1, JSON.num 2].length + [JSON.num 1, JSON.num 3].length
          - 2 * (multisetInter [.num 1, .num 1, .num 2] [.num 1, .num 3]).length :=
  ⟨by decide, by decide, rfl,
    (diffArraysIgnoreOrder_counts [.num 1, .num 1, .num 2] [.num 1, .num 3] (by decide)
      (by decide) "a.json" "b.json" "" true).2.2⟩

/-- C18 (independence from the order in which maps are ranged over).  Let `a'`
and `b'` be the documents `a` and `b` with the entries of their objects, at
any depth, listed in another order (Go values structurally equal to `a` and
`b`), so that a run on `(a', b')` is a run on `(a, b)` under other iteration
orders.  Then, for all labels, every prefix and both array modes, the records
of the two runs are permutations of each other: some rearrangement of the
records of the first run agrees record by record with the second run, in key,
type, label and (structurally) in both values. -/
theorem diffJSONWithOptions_order_independent (a a' b b' : JSON)
    (ha : wellFormed a = true) (ha' : wellFormed a' = true)
    (hb : wellFormed b = true) (hb' : wellFormed b' = true)
    (haa : deepEqual a a' = true) (hbb : deepEqual b b' = true)
    (file1 file2 pfx : String) (ignoreArrayOrder : Bool) :
    ∃ l : List DiffResult,
      l.Perm (diffJSONWithOptions a b file1 file2 pfx ignoreArrayOrder) ∧
        List.Forall₂ SameRecord l
          (diffJSONWithOptions a' b' file1 file2 pfx ignoreArrayOrder) :=
  diffJSONWithOptions_same a ha a' b b' ha' hb hb' haa hbb file1 file2 pfx ignoreArrayOrder

/-- Witness of C18: `{"x":1,"y":{"p":1,"q":2}}` against `{"z":0,"y":{"q":3}}`,
and the same two documents with their entries listed in the opposite order. -/
theorem diffJSONWithOptions_order_independent_witness :
    wellFormed (.obj [("x", .num 1), ("y", .obj [("p", .num 1), ("q", .num 2)])]) = true ∧
      wellFormed (.obj [("y", .obj [("q", .num 2), ("p", .num 1)]), ("x", .num 1)]) = true ∧
      deepEqual (.obj [("x", .num 1), ("y", .obj [("p", .num 1), ("q", .num 2)])])
        (.obj [("y", .obj [("q", .num 2), ("p", .num 1)]), ("x", .num 1)]) = true ∧
      deepEqual (.obj [("z", .num 0), ("y", .obj [("q", .num 3)])])
        (.obj [("y", .obj [("q", .num 3)]), ("z", .num 0)]) = true ∧
      ∃ l : List DiffResult,
        l.Perm (diffJSONWithOptions
          (.obj [("x", .num 1), ("y", .obj [("p", .num 1), ("q", .num 2)])])
          (.obj [("z", .num 0), ("y", .obj [("q", .num 3)])]) "a.json" "b.json" "" false) ∧
        List.Forall₂ SameRecord l (diffJSONWithOptions
          (.obj [("y", .obj [("q", .num 2), ("p", .num 1)]), ("x", .num 1)])
          (.obj [("y", .obj [("q", .num 3)]), ("z", .num 0)]) "a.json" "b.json" "" false) :=
  ⟨by decide, by decide, by decide, by decide,
    diffJSONWithOptions_order_independent _ _ _ _ (by decide) (by decide) (by decide)
      (by decide) (by decide) (by decide) _ _ _ _⟩
